import Mathlib

/-!
# Verification of the reactivity effect engine (`packages/reactivity/src/effect.ts`)

A shallow embedding of the track/trigger dependency-tracking engine.  The
engine's global mutable state (the target map, the dep sets, the effect
records, the effect stack, the tracking flags and the recursion-depth bit
marker) is collected into one explicit `World` record, and every source
function becomes a pure function from `World` to `World`.

Identities: targets, dependency sets and effects are referenced by identity
in the source (object references); here they are numeric ids.  `depArr` and
`effArr` are id-indexed stores (a JS object reference corresponds to an
index), and the target map is an insertion-ordered association list, which
matches JS `Map` iteration order.

A wrapped computation (`ReactiveEffect.fn`) is modelled as a `Body`: a list
of tracked reads performed in order, optionally followed by a thrown
exception, otherwise producing a return value.  Fallible paths are modelled
with `Except Unit`.
-/

namespace Reactivity

/-- The container kinds distinguished by the engine via `isArray` / `isMap`. -/
inductive TKind where
  | plain
  | array
  | map
deriving DecidableEq, Repr

/-- A state container, referenced by identity; the engine only inspects its
kind (`isArray` / `isMap`). -/
structure Target where
  id : Nat
  kind : TKind
deriving DecidableEq, Repr

/-- A JS property key as seen by the engine: `lengthK` is the string
`"length"`; `intKey n` is a canonical integer string such as `"3"`;
`numStr v` is a numeric string that is *not* a canonical integer key (for
example `"05"`, whose JS numeric value is `v`); `plainStr s` is a
non-numeric string (JS numeric value `NaN`); `iterate` and `mapKeyIterate`
are the reserved structural symbols `ITERATE_KEY` and `MAP_KEY_ITERATE_KEY`. -/
inductive Key where
  | lengthK
  | intKey (n : Nat)
  | numStr (v : Int)
  | plainStr (s : String)
  | iterate
  | mapKeyIterate
deriving DecidableEq, Repr

/-- Modelled from the spec: `isIntegerKey` from the shared utilities —
true exactly for canonical non-negative integer string keys. -/
def isIntegerKey : Key → Bool
  | .intKey _ => true
  | _ => false

/-- The JS relational comparison `key >= v` for a property key against a
number: strings are converted with `ToNumber` (`NaN` comparisons are
false), while a symbol operand throws a `TypeError`. -/
def keyGEnum (k : Key) (v : Int) : Except Unit Bool :=
  match k with
  | .lengthK => .ok false
  | .intKey n => .ok (v ≤ (n : Int))
  | .numStr x => .ok (v ≤ x)
  | .plainStr _ => .ok false
  | .iterate => .error ()
  | .mapKeyIterate => .error ()

/-- `TriggerOpTypes` from `operations.ts`. -/
inductive TrigType where
  | set
  | add
  | del
  | clear
deriving DecidableEq, Repr

/-- A dependency set (`Dep` from `dep.ts`): an insertion-ordered set of
effect ids plus the two bit-masks `w` (was tracked) and `n` (newly
tracked) used by the recursion-depth optimization. -/
structure Dep where
  effects : List Nat := []
  w : Nat := 0
  n : Nat := 0
deriving DecidableEq, Repr

/-- A wrapped computation: the tracked reads it performs in order, whether
it then throws, and its return value otherwise. -/
structure Body where
  reads : List (Target × Key) := []
  throws : Bool := false
  ret : Nat := 0
deriving DecidableEq, Repr

/-- One `ReactiveEffect` record.  `hasScheduler`, `hasOnStop` model the
presence of the optional callbacks (their own code is opaque to the
engine; invocations are logged in the world).  The default record (used
for an out-of-range id lookup) is inactive. -/
structure EffectObj where
  fn : Body := {}
  active : Bool := false
  deps : List Nat := []
  hasScheduler : Bool := false
  allowRecurse : Bool := false
  hasOnStop : Bool := false
deriving DecidableEq, Repr

/-- The engine's entire mutable state. -/
structure World where
  /-- `targetMap : WeakMap<target, Map<key, Dep>>`; dep sets referenced by id. -/
  targetMap : List (Target × List (Key × Nat)) := []
  /-- The store of all dep sets ever created; a `Dep` reference is an index. -/
  depArr : List Dep := []
  /-- The store of all effects ever created; an effect reference is an index. -/
  effArr : List EffectObj := []
  /-- `effectStack`. -/
  effectStack : List Nat := []
  /-- `activeEffect`. -/
  activeEffect : Option Nat := none
  /-- `shouldTrack`. -/
  shouldTrack : Bool := true
  /-- `trackStack`. -/
  trackStack : List Bool := []
  /-- `effectTrackDepth`. -/
  effectTrackDepth : Nat := 0
  /-- `trackOpBit`. -/
  trackOpBit : Nat := 1
  /-- Log of `run()` invocations (effect ids, in order). -/
  runLog : List Nat := []
  /-- Log of wrapped-computation executions. -/
  fnLog : List Nat := []
  /-- Log of scheduler invocations. -/
  schedLog : List Nat := []
  /-- Log of `onStop` callback invocations. -/
  stopLog : List Nat := []
deriving DecidableEq, Repr

/-- The pristine state at module load. -/
def initialWorld : World := {}

/-- `maxMarkerBits`: the bitwise track markers support at most 30 levels of
recursion. -/
def maxMarkerBits : Nat := 30

/-- Association-list lookup (JS `Map.get`). -/
def aGet {α β : Type} [DecidableEq α] : List (α × β) → α → Option β
  | [], _ => none
  | (a', b) :: rest, a => if a' = a then some b else aGet rest a

/-- Association-list update (JS `Map.set`): overwrite in place, else append. -/
def aSet {α β : Type} [DecidableEq α] : List (α × β) → α → β → List (α × β)
  | [], a, b => [(a, b)]
  | (a', b') :: rest, a, b =>
      if a' = a then (a, b) :: rest else (a', b') :: aSet rest a b

/-- JS `Set.add`: append unless already present (keeps first position). -/
def setAdd (l : List Nat) (e : Nat) : List Nat :=
  if e ∈ l then l else l ++ [e]

/-- JS `Set.delete`: remove the element (a JS set holds no duplicates, so
filtering is exact). -/
def setDelete (l : List Nat) (e : Nat) : List Nat :=
  l.filter (fun x => x ≠ e)

/-- Modelled from the spec: `createDep` builds a `Set` from a sequence —
insertion-ordered deduplication keeping first occurrences. -/
def setDedup (l : List Nat) : List Nat :=
  l.foldl setAdd []

/-- Dep-store read; out-of-range yields the empty default. -/
def getDep (s : World) (d : Nat) : Dep :=
  s.depArr.getD d {}

/-- Dep-store write; out-of-range is a no-op (never happens on reachable
ids). -/
def setDep (s : World) (d : Nat) (dep : Dep) : World :=
  { s with depArr := s.depArr.set d dep }

/-- Effect-store read; out-of-range yields the inactive default. -/
def getEffect (s : World) (e : Nat) : EffectObj :=
  s.effArr.getD e {}

/-- Effect-store write; out-of-range is a no-op. -/
def setEffect (s : World) (e : Nat) (obj : EffectObj) : World :=
  { s with effArr := s.effArr.set e obj }

/-- Modelled from the spec: `wasTracked` from `dep.ts` — whether the dep's
"was tracked" bits include the given marker. -/
def wasTracked (dep : Dep) (bit : Nat) : Bool :=
  0 < dep.w &&& bit

/-- Modelled from the spec: `newTracked` from `dep.ts` — whether the dep's
"newly tracked" bits include the given marker. -/
def newTracked (dep : Dep) (bit : Nat) : Bool :=
  0 < dep.n &&& bit

/-- Clearing a single marker bit (`x &= ~bit` on a power-of-two mask). -/
def clearBit (x bit : Nat) : Nat :=
  x - (x &&& bit)

/-- Modelled from the spec: `initDepMarkers` from `dep.ts` — at run entry,
mark every dep currently referencing the effect as "was tracked" at the
current depth. -/
def initDepMarkers (s : World) (e : Nat) : World :=
  let bit := s.trackOpBit
  (getEffect s e).deps.foldl
    (fun s d => setDep s d { getDep s d with w := (getDep s d).w ||| bit }) s

/-- One iteration of the `finalizeDepMarkers` loop over the effect's dep
list: drop the effect from a stale dep (tracked before, not newly
tracked), keep the dep in the rebuilt list otherwise, and clear both
markers either way. -/
def finalizeStep (e : Nat) (bit : Nat) (acc : World × List Nat) (d : Nat) :
    World × List Nat :=
  let dep := getDep acc.1 d
  let keep : Bool := !(wasTracked dep bit && !(newTracked dep bit))
  let dep :=
    if keep then dep else { dep with effects := setDelete dep.effects e }
  let dep := { dep with w := clearBit dep.w bit, n := clearBit dep.n bit }
  (setDep acc.1 d dep, if keep then acc.2 ++ [d] else acc.2)

/-- Modelled from the spec: `finalizeDepMarkers` from `dep.ts` — on the way
out of a run, drop the effect from every dep that was tracked before but
not newly tracked this run, keep the others (compacting the effect's own
dep list), and clear both markers at this depth on every visited dep. -/
def finalizeDepMarkers (s : World) (e : Nat) : World :=
  let r := (getEffect s e).deps.foldl (finalizeStep e s.trackOpBit) (s, [])
  setEffect r.1 e { getEffect r.1 e with deps := r.2 }

/-- `cleanupEffect`: delete the effect from every dep in its list and empty
the list. -/
def cleanupEffect (s : World) (e : Nat) : World :=
  let s := (getEffect s e).deps.foldl
    (fun s d => setDep s d { getDep s d with effects := setDelete (getDep s d).effects e }) s
  setEffect s e { getEffect s e with deps := [] }

/-- `pauseTracking`. -/
def pauseTracking (s : World) : World :=
  { s with trackStack := s.trackStack ++ [s.shouldTrack], shouldTrack := false }

/-- `enableTracking`. -/
def enableTracking (s : World) : World :=
  { s with trackStack := s.trackStack ++ [s.shouldTrack], shouldTrack := true }

/-- `resetTracking`: pop the stack; an empty pop restores `true`. -/
def resetTracking (s : World) : World :=
  match s.trackStack.getLast? with
  | none => { s with shouldTrack := true, trackStack := [] }
  | some b => { s with shouldTrack := b, trackStack := s.trackStack.dropLast }

/-- `isTracking`. -/
def isTracking (s : World) : Bool :=
  s.shouldTrack && s.activeEffect.isSome

/-- `trackEffects`: the set-level tracking step, with the bit-marker regime
at depth ≤ `maxMarkerBits` and the direct membership fallback beyond it. -/
def trackEffects (s : World) (d : Nat) : World :=
  match s.activeEffect with
  | none => s
  | some a =>
    let dep := getDep s d
    let p : Dep × Bool :=
      if s.effectTrackDepth ≤ maxMarkerBits then
        if !(newTracked dep s.trackOpBit) then
          ({ dep with n := dep.n ||| s.trackOpBit }, !(wasTracked dep s.trackOpBit))
        else
          (dep, false)
      else
        (dep, !(dep.effects.contains a))
    let s := setDep s d p.1
    if p.2 then
      let s := setDep s d { p.1 with effects := setAdd p.1.effects a }
      setEffect s a { getEffect s a with deps := (getEffect s a).deps ++ [d] }
    else s

/-- `track(target, key)`: record that the active effect read `(target, key)`,
lazily creating the key table and the dep set. -/
def track (s : World) (t : Target) (k : Key) : World :=
  if isTracking s then
    let dm := (aGet s.targetMap t).getD []
    let s :=
      match aGet s.targetMap t with
      | some _ => s
      | none => { s with targetMap := aSet s.targetMap t [] }
    match aGet dm k with
    | some d => trackEffects s d
    | none =>
      let d := s.depArr.length
      let s := { s with depArr := s.depArr ++ [({} : Dep)] }
      let s := { s with targetMap := aSet s.targetMap t (aSet dm k d) }
      trackEffects s d
  else s

/-- Executing a wrapped computation: perform the tracked reads in order,
then either throw or return. -/
def execBody (s : World) (b : Body) : World × Except Unit Nat :=
  let s := b.reads.foldl (fun s r => track s r.1 r.2) s
  (s, if b.throws then .error () else .ok b.ret)

/-- The `finally` block of `ReactiveEffect.run()`: executed on the normal
and on the throwing path alike — reconcile the dep markers when within
the maximum depth, decrement the depth and restore the bit marker,
restore the prior tracking-enabled state, pop the stack, and make the
new top (if any) the active effect. -/
def runEpilogue (s : World) (e : Nat) : World :=
  let s :=
    if s.effectTrackDepth ≤ maxMarkerBits then finalizeDepMarkers s e else s
  let s := { s with effectTrackDepth := s.effectTrackDepth - 1 }
  let s := { s with trackOpBit := 1 <<< s.effectTrackDepth }
  let s := resetTracking s
  let s := { s with effectStack := s.effectStack.dropLast }
  { s with activeEffect := s.effectStack.getLast? }

/-- Steps 2–5 of `ReactiveEffect.run()` on the active path: push onto the
effect stack and become the active effect, enable tracking, bump the
depth and derive the new bit marker, then init the dep markers (within
the maximum depth) or eagerly clean up (beyond it); the wrapped
computation is about to execute (logged). -/
def runProlog (s : World) (e : Nat) : World :=
  let s := { s with effectStack := s.effectStack ++ [e], activeEffect := some e }
  let s := enableTracking s
  let s := { s with effectTrackDepth := s.effectTrackDepth + 1,
                    trackOpBit := 1 <<< (s.effectTrackDepth + 1),
                    fnLog := s.fnLog ++ [e] }
  if s.effectTrackDepth ≤ maxMarkerBits then initDepMarkers s e
  else cleanupEffect s e

/-- `ReactiveEffect.run()`.  The result is `.error ()` when the computation
threw (the failure propagates unmodified), `.ok none` when the
re-entrancy guard returned `undefined`, and `.ok (some v)` otherwise.
The `finally` bookkeeping is performed on both the normal and the
throwing path, exactly as in the source. -/
def runE (s : World) (e : Nat) : World × Except Unit (Option Nat) :=
  let s := { s with runLog := s.runLog ++ [e] }
  let eff := getEffect s e
  if !eff.active then
    let s := { s with fnLog := s.fnLog ++ [e] }
    let r := execBody s eff.fn
    (r.1, r.2.map some)
  else if e ∈ s.effectStack then
    (s, .ok none)
  else
    let r := execBody (runProlog s e) eff.fn
    (runEpilogue r.1 e, r.2.map some)

/-- The `depsMap.forEach` loop of the array-length branch of `trigger`:
collect, in table order, the dep of every entry whose key is `"length"`
or compares `>=` to the new length; a symbol key aborts the whole
collection with a `TypeError`. -/
def lengthCollect : List (Key × Nat) → Int → Except Unit (List (Option Nat))
  | [], _ => .ok []
  | (k, d) :: rest, nv =>
    if k = .lengthK then (lengthCollect rest nv).map (fun l => some d :: l)
    else
      match keyGEnum k nv with
      | .error err => .error err
      | .ok true => (lengthCollect rest nv).map (fun l => some d :: l)
      | .ok false => lengthCollect rest nv

/-- The dep-collection phase of `trigger`: given the container's key table,
compute the list of (possibly absent) dep sets to notify, by change
kind.  Mirrors the `deps` array built by the source, `undefined`
entries included. -/
def collectDeps (dm : List (Key × Nat)) (t : Target) (ty : TrigType)
    (k : Option Key) (nv : Int) : Except Unit (List (Option Nat)) :=
  if ty = .clear then
    .ok (dm.map (fun p => some p.2))
  else if k = some .lengthK ∧ t.kind = .array then
    lengthCollect dm nv
  else
    .ok (
      (match k with
        | some key => [aGet dm key]
        | none => []) ++
      (match ty with
        | .add =>
          if t.kind ≠ .array then
            [aGet dm .iterate] ++
              (if t.kind = .map then [aGet dm .mapKeyIterate] else [])
          else if isIntegerKey (k.getD .iterate) then [aGet dm .lengthK]
          else []
        | .del =>
          if t.kind ≠ .array then
            [aGet dm .iterate] ++
              (if t.kind = .map then [aGet dm .mapKeyIterate] else [])
          else []
        | .set => if t.kind = .map then [aGet dm .iterate] else []
        | .clear => []))

/-- The flattening step of `trigger`'s slow path: concatenate the member
lists of all present dep sets, in order. -/
def collectEffects (s : World) (deps : List (Option Nat)) : List Nat :=
  deps.foldl
    (fun acc od => match od with
      | some d => acc ++ (getDep s d).effects
      | none => acc) []

/-- The loop body of `triggerEffects` for one effect of the snapshot: skip
when it is the active effect and recursion is not allowed; otherwise
invoke the scheduler if there is one, else `run()` synchronously.  An
exception from `run()` propagates. -/
def trigStep (s : World) (e : Nat) : World × Except Unit Unit :=
  if some e ≠ s.activeEffect ∨ (getEffect s e).allowRecurse then
    if (getEffect s e).hasScheduler then
      ({ s with schedLog := s.schedLog ++ [e] }, .ok ())
    else
      let r := runE s e
      (r.1, r.2.map (fun _ => ()))
  else (s, .ok ())

/-- `triggerEffects` over an already-snapshotted sequence of effects; an
exception thrown by one effect aborts the remaining notifications. -/
def triggerEffects (s : World) : List Nat → World × Except Unit Unit
  | [] => (s, .ok ())
  | e :: rest =>
    match trigStep s e with
    | (s', .ok _) => triggerEffects s' rest
    | (s', .error err) => (s', .error err)

/-- `trigger(target, type, key, newValue)`: no-op for a never-tracked
container; otherwise collect the relevant dep sets by change kind, then
notify — directly for a single collected set, else through the
deduplicated union.  `nv` is the `newValue` argument (only consulted as
the new length of the array-length branch). -/
def trigger (s : World) (t : Target) (ty : TrigType) (k : Option Key)
    (nv : Int) : World × Except Unit Unit :=
  match aGet s.targetMap t with
  | none => (s, .ok ())
  | some dm =>
    match collectDeps dm t ty k nv with
    | .error err => (s, .error err)
    | .ok deps =>
      if deps.length = 1 then
        match deps with
        | [some d] => triggerEffects s (getDep s d).effects
        | _ => (s, .ok ())
      else
        triggerEffects s (setDedup (collectEffects s deps))

/-- `ReactiveEffect.stop()`: idempotent; clean up every dep, fire the
optional `onStop`, deactivate. -/
def stopE (s : World) (e : Nat) : World :=
  if (getEffect s e).active then
    let s := cleanupEffect s e
    let s :=
      if (getEffect s e).hasOnStop then { s with stopLog := s.stopLog ++ [e] }
      else s
    setEffect s e { getEffect s e with active := false }
  else s

/-- The options bag of `effect(fn, options)` (callback presence modelled
as flags). -/
structure EffOptions where
  lazy : Bool := false
  hasScheduler : Bool := false
  allowRecurse : Bool := false
  hasOnStop : Bool := false
deriving DecidableEq, Repr

/-- The argument of `effect()`: either a plain computation, or a runner
previously returned by `effect()` (which carries its `ReactiveEffect`). -/
inductive FnArg where
  | plain (b : Body)
  | runner (e : Nat)
deriving DecidableEq, Repr

/-- `effect(fn, options)`: unwrap a runner argument to its underlying
computation, create the `ReactiveEffect` (applying the options), run it
once unless lazy, and return (here: the new effect's id together with
the result of that first run). -/
def mkEffect (s : World) (arg : FnArg) (opts : EffOptions) :
    World × Nat × Except Unit (Option Nat) :=
  let fn :=
    match arg with
    | .plain b => b
    | .runner r => (getEffect s r).fn
  let e := s.effArr.length
  let s := { s with
    effArr := s.effArr ++ [{ fn := fn, active := true, deps := [],
                             hasScheduler := opts.hasScheduler,
                             allowRecurse := opts.allowRecurse,
                             hasOnStop := opts.hasOnStop }] }
  if !opts.lazy then
    let r := runE s e
    (r.1, e, r.2)
  else
    (s, e, .ok none)

/-- A top-level operation against the engine, as issued by the collaborator
layer: create an effect, call a runner, write (trigger), stop, or a
direct `track` call. -/
inductive Op where
  | opEffect (arg : FnArg) (opts : EffOptions)
  | opRun (e : Nat)
  | opTrigger (t : Target) (ty : TrigType) (k : Option Key) (nv : Int)
  | opStop (e : Nat)
  | opTrack (t : Target) (k : Key)

/-- Apply one top-level operation (exceptions propagate to the caller;
the world is whatever the engine left behind). -/
def applyOp (s : World) : Op → World
  | .opEffect arg opts => (mkEffect s arg opts).1
  | .opRun e => (runE s e).1
  | .opTrigger t ty k nv => (trigger s t ty k nv).1
  | .opStop e => stopE s e
  | .opTrack t k => track s t k

/-- The world after a sequence of top-level operations from module load. -/
def runOps (ops : List Op) : World :=
  ops.foldl applyOp initialWorld

/-! ## Store-access lemmas -/

theorem getDep_setDep_self (s : World) (d : Nat) (dep : Dep)
    (h : d < s.depArr.length) : getDep (setDep s d dep) d = dep := by
  simp [getDep, setDep, List.getD, List.getElem?_set_self, h]

theorem getDep_setDep_ne (s : World) {d d' : Nat} (dep : Dep)
    (h : d' ≠ d) : getDep (setDep s d dep) d' = getDep s d' := by
  simp [getDep, setDep, List.getD, List.getElem?_set_ne (Ne.symm h)]

theorem getDep_setDep_oob (s : World) (d : Nat) (dep : Dep)
    (h : s.depArr.length ≤ d) : setDep s d dep = s := by
  simp [setDep, List.set_eq_of_length_le h]

theorem getEffect_setEffect_self (s : World) (e : Nat) (o : EffectObj)
    (h : e < s.effArr.length) : getEffect (setEffect s e o) e = o := by
  simp [getEffect, setEffect, List.getD, List.getElem?_set_self, h]

theorem getEffect_setEffect_ne (s : World) {e e' : Nat} (o : EffectObj)
    (h : e' ≠ e) : getEffect (setEffect s e o) e' = getEffect s e' := by
  simp [getEffect, setEffect, List.getD, List.getElem?_set_ne (Ne.symm h)]

theorem getDep_setEffect (s : World) (e : Nat) (o : EffectObj) (d : Nat) :
    getDep (setEffect s e o) d = getDep s d := rfl

theorem getEffect_setDep (s : World) (d : Nat) (dep : Dep) (e : Nat) :
    getEffect (setDep s d dep) e = getEffect s e := rfl

theorem getDep_append (s : World) (dep : Dep) {d : Nat}
    (h : d < s.depArr.length) :
    getDep { s with depArr := s.depArr ++ [dep] } d = getDep s d := by
  simp [getDep, List.getD, List.getElem?_append_left h]

theorem getDep_append_self (s : World) (dep : Dep) :
    getDep { s with depArr := s.depArr ++ [dep] } s.depArr.length = dep := by
  simp [getDep, List.getD]

theorem getDep_oob (s : World) {d : Nat} (h : s.depArr.length ≤ d) :
    getDep s d = {} := by
  simp [getDep, List.getD, List.getElem?_eq_none h]

theorem getEffect_oob (s : World) {e : Nat} (h : s.effArr.length ≤ e) :
    getEffect s e = {} := by
  simp [getEffect, List.getD, List.getElem?_eq_none h]

theorem getEffect_append (s : World) (o : EffectObj) {e : Nat}
    (h : e < s.effArr.length) :
    getEffect { s with effArr := s.effArr ++ [o] } e = getEffect s e := by
  simp [getEffect, List.getD, List.getElem?_append_left h]

theorem getEffect_append_self (s : World) (o : EffectObj) :
    getEffect { s with effArr := s.effArr ++ [o] } s.effArr.length = o := by
  simp [getEffect, List.getD]

theorem mem_setAdd {l : List Nat} {a x : Nat} :
    x ∈ setAdd l a ↔ x ∈ l ∨ x = a := by
  unfold setAdd
  split
  · next h => simp; exact fun hx => hx ▸ h
  · simp

theorem setAdd_nodup {l : List Nat} (h : l.Nodup) (a : Nat) :
    (setAdd l a).Nodup := by
  unfold setAdd
  split
  · exact h
  · next ha => simp [List.nodup_append, h, ha]

theorem mem_setDelete {l : List Nat} {e x : Nat} :
    x ∈ setDelete l e ↔ x ∈ l ∧ x ≠ e := by
  simp [setDelete]

theorem setDelete_nodup {l : List Nat} (h : l.Nodup) (e : Nat) :
    (setDelete l e).Nodup := h.filter _

/-! ## C5: dispatch inside `triggerEffects` -/

/-- **C5.** For every effect reached by the `triggerEffects` loop: it is
skipped (the world is left untouched) exactly when it equals the
currently-active effect and does not allow recursion; otherwise the
scheduler is invoked instead of the effect when one is present, and
`run()` is called synchronously when there is none. -/
theorem C5_triggerEffects_dispatch (s : World) (e : Nat) :
    (some e = s.activeEffect ∧ ¬ (getEffect s e).allowRecurse →
      trigStep s e = (s, .ok ())) ∧
    (some e ≠ s.activeEffect ∨ (getEffect s e).allowRecurse →
      (getEffect s e).hasScheduler →
      trigStep s e = ({ s with schedLog := s.schedLog ++ [e] }, .ok ())) ∧
    (some e ≠ s.activeEffect ∨ (getEffect s e).allowRecurse →
      ¬ (getEffect s e).hasScheduler →
      trigStep s e = ((runE s e).1, (runE s e).2.map (fun _ => ()))) := by
  refine ⟨?_, ?_, ?_⟩
  · rintro ⟨h1, h2⟩
    have : ¬ (some e ≠ s.activeEffect ∨ (getEffect s e).allowRecurse = true) := by
      simp [h1, h2]
    simp [trigStep, this]
  · intro h1 h2
    simp [trigStep, h1, h2]
  · intro h1 h2
    simp only [trigStep, if_pos h1]
    simp [h2]

/-- Witness for C5 at a concrete input: with effect 0 active and recursion
not allowed, the loop body skips it. -/
theorem C5_witness :
    trigStep { activeEffect := some 0 : World } 0 =
      ({ activeEffect := some 0 : World }, .ok ()) :=
  (C5_triggerEffects_dispatch { activeEffect := some 0 : World } 0).1
    ⟨rfl, by simp [getEffect]⟩

/-! ## C7: structural-key notification by change kind -/

/-- **C7.** The dep sets collected by `trigger` for a point write with key
`k`, by change kind: an ADD on a non-array container adds the `iterate`
structural key (plus `mapKeyIterate` for maps), an ADD on an array at an
integer index adds the `length` key instead; a DELETE behaves like ADD
minus the array/length case; a SET on a map adds the `iterate` key; and
in every case the dep set recorded for `k` itself heads the list. -/
theorem C7_structural_keys (dm : List (Key × Nat)) (t : Target) (k : Key)
    (nv : Int) :
    (t.kind ≠ .array →
      collectDeps dm t .add (some k) nv =
        .ok ([aGet dm k, aGet dm .iterate] ++
          (if t.kind = .map then [aGet dm .mapKeyIterate] else []))) ∧
    (t.kind = .array → isIntegerKey k →
      collectDeps dm t .add (some k) nv =
        .ok [aGet dm k, aGet dm .lengthK]) ∧
    (t.kind ≠ .array →
      collectDeps dm t .del (some k) nv =
        .ok ([aGet dm k, aGet dm .iterate] ++
          (if t.kind = .map then [aGet dm .mapKeyIterate] else []))) ∧
    (t.kind = .array → k ≠ .lengthK →
      collectDeps dm t .del (some k) nv = .ok [aGet dm k]) ∧
    (t.kind = .map →
      collectDeps dm t .set (some k) nv =
        .ok [aGet dm k, aGet dm .iterate]) := by
  refine ⟨?_, ?_, ?_, ?_, ?_⟩
  · intro h
    have hg : ¬ (some k = some Key.lengthK ∧ t.kind = TKind.array) := by
      simp [h]
    simp [collectDeps, hg, h]
  · intro h hk
    have hkl : k ≠ .lengthK := by
      rintro rfl; simp [isIntegerKey] at hk
    have hg : ¬ (some k = some Key.lengthK ∧ t.kind = TKind.array) := by
      simp [hkl]
    simp [collectDeps, hg, h, hk, hkl]
  · intro h
    have hg : ¬ (some k = some Key.lengthK ∧ t.kind = TKind.array) := by
      simp [h]
    simp [collectDeps, hg, h]
  · intro h hk
    have hg : ¬ (some k = some Key.lengthK ∧ t.kind = TKind.array) := by
      simp [hk]
    simp [collectDeps, hg, h, hk]
  · intro h
    have ha : t.kind ≠ .array := by simp [h]
    have hg : ¬ (some k = some Key.lengthK ∧ t.kind = TKind.array) := by
      simp [ha]
    simp [collectDeps, hg, h]

/-- Witness for C7 at a concrete input: an ADD of key `"x"` on a map whose
table tracks the key, `iterate` and `mapKeyIterate`. -/
theorem C7_witness :
    collectDeps [(Key.plainStr "x", 0), (Key.iterate, 1), (Key.mapKeyIterate, 2)]
        ⟨0, .map⟩ .add (some (Key.plainStr "x")) 0 =
      .ok [some 0, some 1, some 2] := by
  have h := (C7_structural_keys
    [(Key.plainStr "x", 0), (Key.iterate, 1), (Key.mapKeyIterate, 2)]
    ⟨0, .map⟩ (Key.plainStr "x") 0).1 (by simp)
  rw [h]
  rfl

/-! ## C8: array-length truncation triggering -/

/-- The notification set predicted by the claim's words for a length write:
the dep recorded for `"length"` plus the dep of every *canonical
integer-indexed* key with index ≥ the new length, and no others. -/
def c8SpecDeps (dm : List (Key × Nat)) (nv : Int) : List (Option Nat) :=
  dm.filterMap (fun p =>
    match p.1 with
    | .lengthK => some (some p.2)
    | .intKey n => if nv ≤ (n : Int) then some (some p.2) else none
    | _ => none)

/-- A key table holding one non-canonical numeric string key (`"05"`,
numeric value 5) and nothing else. -/
def c8dm : List (Key × Nat) := [(.numStr 5, 0)]

/-- **C8 counterexample.** On an array-length trigger with new length 3
against a table whose only key is the non-integer numeric string `"05"`,
the code notifies that key's dep set (JS coerces `"05" >= 3` to true),
while the claim's "length plus integer-indexed keys ≥ L, and no others"
predicts no notification at all — so the claim, as stated, is false at
this input. -/
theorem C8_counterexample :
    collectDeps c8dm ⟨0, .array⟩ .set (some .lengthK) 3 = .ok [some 0] ∧
    c8SpecDeps c8dm 3 = [] ∧
    collectDeps c8dm ⟨0, .array⟩ .set (some .lengthK) 3 ≠
      .ok (c8SpecDeps c8dm 3) := by
  refine ⟨rfl, rfl, fun h => ?_⟩
  have h2 : (Except.ok [some 0] : Except Unit (List (Option Nat))) =
      .ok ([] : List (Option Nat)) := h
  simp at h2

/-- The keep-condition of the length branch as the code evaluates it: the
key is `"length"`, or its JS numeric coercion compares `>=` to the new
length. -/
def lengthKeep (k : Key) (nv : Int) : Bool :=
  k = Key.lengthK ||
    (match keyGEnum k nv with
      | .ok b => b
      | .error _ => false)

/-- On a table without symbol keys, the length branch collects exactly the
entries whose key is `"length"` or whose JS numeric coercion is ≥ the
new length. -/
theorem lengthCollect_of_no_symbol (dm : List (Key × Nat)) (nv : Int)
    (h : ∀ p ∈ dm, p.1 ≠ .iterate ∧ p.1 ≠ .mapKeyIterate) :
    lengthCollect dm nv =
      .ok (dm.filterMap (fun p =>
        if lengthKeep p.1 nv then some (some p.2) else none)) := by
  induction dm with
  | nil => rfl
  | cons hd tl ih =>
    have hh := h hd (by simp)
    have htl : ∀ p ∈ tl, p.1 ≠ .iterate ∧ p.1 ≠ .mapKeyIterate := by
      intro p hp; exact h p (by simp [hp])
    obtain ⟨k, d⟩ := hd
    match k with
    | .lengthK =>
      simp [lengthCollect, ih htl, keyGEnum, lengthKeep, Except.map]
    | .intKey n =>
      by_cases hn : nv ≤ (n : Int) <;>
        simp [lengthCollect, ih htl, keyGEnum, lengthKeep, hn, Except.map]
    | .numStr x =>
      by_cases hn : nv ≤ x <;>
        simp [lengthCollect, ih htl, keyGEnum, lengthKeep, hn, Except.map]
    | .plainStr str =>
      simp [lengthCollect, ih htl, keyGEnum, lengthKeep, Except.map]
    | .iterate => exact absurd rfl hh.1
    | .mapKeyIterate => exact absurd rfl hh.2

/-- On a table containing a symbol key, the length branch aborts with the
`TypeError` of the JS comparison. -/
theorem lengthCollect_of_symbol (dm : List (Key × Nat)) (nv : Int)
    (h : ∃ p ∈ dm, p.1 = .iterate ∨ p.1 = .mapKeyIterate) :
    lengthCollect dm nv = .error () := by
  induction dm with
  | nil => simp at h
  | cons hd tl ih =>
    obtain ⟨k, d⟩ := hd
    rcases h with ⟨p, hp, hsym⟩
    rcases List.mem_cons.mp hp with h1 | h2
    · subst h1
      rcases hsym with h | h <;> subst h <;>
        simp [lengthCollect, keyGEnum]
    · have herr := ih ⟨p, h2, hsym⟩
      match k with
      | .lengthK => simp [lengthCollect, herr, Except.map]
      | .intKey n =>
        by_cases hn : nv ≤ (n : Int) <;>
          simp [lengthCollect, keyGEnum, hn, herr, Except.map]
      | .numStr x =>
        by_cases hn : nv ≤ x <;>
          simp [lengthCollect, keyGEnum, hn, herr, Except.map]
      | .plainStr str => simp [lengthCollect, keyGEnum, herr, Except.map]
      | .iterate => simp [lengthCollect, keyGEnum]
      | .mapKeyIterate => simp [lengthCollect, keyGEnum]

/-- **C8 amended.** For a trigger on an array with key `"length"` and new
length `L`: when the key table holds no symbol key, the dep sets
collected are exactly those of the entries whose key is `"length"` or
whose JS numeric coercion is ≥ `L` — every canonical integer-indexed key
with index ≥ `L`, but also any non-canonical numeric string key with
value ≥ `L`; when the table holds a symbol key, the JS `>=` comparison
throws a `TypeError` and nothing at all is notified. -/
theorem C8_amended (dm : List (Key × Nat)) (i : Nat) (nv : Int) :
    ((∀ p ∈ dm, p.1 ≠ .iterate ∧ p.1 ≠ .mapKeyIterate) →
      collectDeps dm ⟨i, .array⟩ .set (some .lengthK) nv =
        .ok (dm.filterMap (fun p =>
          if lengthKeep p.1 nv then some (some p.2) else none))) ∧
    ((∃ p ∈ dm, p.1 = .iterate ∨ p.1 = .mapKeyIterate) →
      collectDeps dm ⟨i, .array⟩ .set (some .lengthK) nv = .error ()) := by
  constructor
  · intro h
    simp only [collectDeps]
    rw [if_neg (by simp), if_pos (by simp)]
    exact lengthCollect_of_no_symbol dm nv h
  · intro h
    simp only [collectDeps]
    rw [if_neg (by simp), if_pos (by simp)]
    exact lengthCollect_of_symbol dm nv h

/-- Witness for the amended C8 at a concrete input: a table tracking
`"length"`, indices 1 and 5 and the key `"foo"`, truncated to length 3,
notifies exactly `"length"` and index 5. -/
theorem C8_amended_witness :
    collectDeps [(Key.lengthK, 0), (Key.intKey 1, 1), (Key.intKey 5, 2),
        (Key.plainStr "foo", 3)] ⟨0, .array⟩ .set (some .lengthK) 3 =
      .ok [some 0, some 2] := by
  have h := (C8_amended [(Key.lengthK, 0), (Key.intKey 1, 1), (Key.intKey 5, 2),
    (Key.plainStr "foo", 3)] 0 3).1 (by decide)
  rw [h]
  rfl

/-! ## C6: deduplicated union under multi-set collection -/

theorem mem_setDedup_aux (l acc : List Nat) (x : Nat) :
    x ∈ l.foldl setAdd acc ↔ x ∈ acc ∨ x ∈ l := by
  induction l generalizing acc with
  | nil => simp
  | cons hd tl ih =>
    simp only [List.foldl_cons, ih, mem_setAdd, List.mem_cons]
    tauto

theorem mem_setDedup (l : List Nat) (x : Nat) :
    x ∈ setDedup l ↔ x ∈ l := by
  simp [setDedup, mem_setDedup_aux]

theorem setDedup_nodup_aux (l acc : List Nat) (h : acc.Nodup) :
    (l.foldl setAdd acc).Nodup := by
  induction l generalizing acc with
  | nil => exact h
  | cons hd tl ih => exact ih _ (setAdd_nodup h hd)

theorem setDedup_nodup (l : List Nat) : (setDedup l).Nodup :=
  setDedup_nodup_aux l [] List.nodup_nil

theorem mem_collectEffects_aux (s : World) (deps : List (Option Nat))
    (acc : List Nat) (e : Nat) :
    e ∈ deps.foldl
        (fun acc od => match od with
          | some d => acc ++ (getDep s d).effects
          | none => acc) acc ↔
      e ∈ acc ∨ ∃ d, some d ∈ deps ∧ e ∈ (getDep s d).effects := by
  induction deps generalizing acc with
  | nil => simp
  | cons hd tl ih =>
    match hd with
    | none => simp only [List.foldl_cons, ih]; aesop
    | some d => simp only [List.foldl_cons, ih]; aesop

/-- **C6.** Whenever `trigger` collects more than one dep set, the sequence
it actually notifies is the deduplicated union: an effect belonging to
several of the collected sets occurs in it exactly once, and an effect
belonging to none occurs not at all. -/
theorem C6_single_notification (s : World) (deps : List (Option Nat))
    (e : Nat) (_hlen : 1 < deps.length) :
    ((∃ d, some d ∈ deps ∧ e ∈ (getDep s d).effects) →
      (setDedup (collectEffects s deps)).count e = 1) ∧
    ((¬ ∃ d, some d ∈ deps ∧ e ∈ (getDep s d).effects) →
      (setDedup (collectEffects s deps)).count e = 0) := by
  have hmem : e ∈ setDedup (collectEffects s deps) ↔
      ∃ d, some d ∈ deps ∧ e ∈ (getDep s d).effects := by
    rw [mem_setDedup]
    simpa using mem_collectEffects_aux s deps [] e
  constructor
  · intro h
    exact List.count_eq_one_of_mem (setDedup_nodup _) (hmem.mpr h)
  · intro h
    exact List.count_eq_zero_of_not_mem (fun hc => h (hmem.mp hc))

/-- Witness for C6 at a concrete input: effect 0 sits in both collected dep
sets, and is notified exactly once. -/
theorem C6_witness :
    (setDedup (collectEffects
        { depArr := [⟨[0], 0, 0⟩, ⟨[0], 0, 0⟩] : World }
        [some 0, some 1])).count 0 = 1 :=
  (C6_single_notification { depArr := [⟨[0], 0, 0⟩, ⟨[0], 0, 0⟩] : World }
      [some 0, some 1] 0 (by simp)).1
    ⟨0, by simp, by simp [getDep]⟩

/-! ## Context preservation along the tracking path -/

/-- The tracking path (`track`, `trackEffects`, marker init/finalize,
cleanup, body execution) touches only the registry and the two stores:
every global context field and every log is left untouched. -/
def SameCtx (s s' : World) : Prop :=
  s'.effectStack = s.effectStack ∧ s'.activeEffect = s.activeEffect ∧
  s'.shouldTrack = s.shouldTrack ∧ s'.trackStack = s.trackStack ∧
  s'.effectTrackDepth = s.effectTrackDepth ∧ s'.trackOpBit = s.trackOpBit ∧
  s'.runLog = s.runLog ∧ s'.fnLog = s.fnLog ∧ s'.schedLog = s.schedLog ∧
  s'.stopLog = s.stopLog

theorem sameCtx_refl (s : World) : SameCtx s s :=
  ⟨rfl, rfl, rfl, rfl, rfl, rfl, rfl, rfl, rfl, rfl⟩

theorem sameCtx_trans {s s' s'' : World} (h1 : SameCtx s s')
    (h2 : SameCtx s' s'') : SameCtx s s'' := by
  obtain ⟨a1, a2, a3, a4, a5, a6, a7, a8, a9, a10⟩ := h1
  obtain ⟨b1, b2, b3, b4, b5, b6, b7, b8, b9, b10⟩ := h2
  exact ⟨b1.trans a1, b2.trans a2, b3.trans a3, b4.trans a4, b5.trans a5,
    b6.trans a6, b7.trans a7, b8.trans a8, b9.trans a9, b10.trans a10⟩

theorem setDep_ctx (s : World) (d : Nat) (dep : Dep) :
    SameCtx s (setDep s d dep) := sameCtx_refl _

theorem setEffect_ctx (s : World) (e : Nat) (o : EffectObj) :
    SameCtx s (setEffect s e o) := sameCtx_refl _

theorem trackEffects_ctx (s : World) (d : Nat) : SameCtx s (trackEffects s d) := by
  unfold trackEffects
  cases h : s.activeEffect <;> simp only [h]
  · exact sameCtx_refl _
  · refine ⟨?_, ?_, ?_, ?_, ?_, ?_, ?_, ?_, ?_, ?_⟩ <;> (repeat' split) <;> rfl

theorem track_ctx (s : World) (t : Target) (k : Key) :
    SameCtx s (track s t k) := by
  unfold track
  split
  · cases h1 : aGet s.targetMap t with
    | none =>
      simp only [h1, Option.getD_none]
      cases h2 : aGet ([] : List (Key × Nat)) k with
      | none =>
        simp only [h2]
        exact sameCtx_trans ⟨rfl, rfl, rfl, rfl, rfl, rfl, rfl, rfl, rfl, rfl⟩
          (trackEffects_ctx _ _)
      | some d =>
        simp only [h2]
        exact sameCtx_trans ⟨rfl, rfl, rfl, rfl, rfl, rfl, rfl, rfl, rfl, rfl⟩
          (trackEffects_ctx _ _)
    | some dm =>
      simp only [h1, Option.getD_some]
      cases h2 : aGet dm k with
      | none =>
        simp only [h2]
        exact sameCtx_trans ⟨rfl, rfl, rfl, rfl, rfl, rfl, rfl, rfl, rfl, rfl⟩
          (trackEffects_ctx _ _)
      | some d =>
        simp only [h2]
        exact sameCtx_trans ⟨rfl, rfl, rfl, rfl, rfl, rfl, rfl, rfl, rfl, rfl⟩
          (trackEffects_ctx _ _)
  · exact sameCtx_refl _

theorem foldl_track_ctx (rs : List (Target × Key)) (s : World) :
    SameCtx s (rs.foldl (fun s r => track s r.1 r.2) s) := by
  induction rs generalizing s with
  | nil => exact sameCtx_refl _
  | cons hd tl ih =>
    exact sameCtx_trans (track_ctx s hd.1 hd.2) (ih _)

theorem execBody_ctx (s : World) (b : Body) : SameCtx s (execBody s b).1 :=
  foldl_track_ctx b.reads s

theorem initDepMarkers_ctx (s : World) (e : Nat) :
    SameCtx s (initDepMarkers s e) := by
  unfold initDepMarkers
  simp only []
  generalize (getEffect s e).deps = ds
  generalize s.trackOpBit = bit
  induction ds generalizing s with
  | nil => exact sameCtx_refl _
  | cons hd tl ih => exact sameCtx_trans (setDep_ctx _ _ _) (ih _)

theorem cleanupEffect_ctx (s : World) (e : Nat) :
    SameCtx s (cleanupEffect s e) := by
  unfold cleanupEffect
  refine sameCtx_trans ?_ (setEffect_ctx _ _ _)
  generalize (getEffect s e).deps = ds
  induction ds generalizing s with
  | nil => exact sameCtx_refl _
  | cons hd tl ih => exact sameCtx_trans (setDep_ctx _ _ _) (ih _)

theorem finalize_fold_ctx (ds : List Nat) (e : Nat) (bit : Nat)
    (acc : World × List Nat) :
    SameCtx acc.1 (ds.foldl (finalizeStep e bit) acc).1 := by
  induction ds generalizing acc with
  | nil => exact sameCtx_refl _
  | cons hd tl ih =>
    refine sameCtx_trans ?_ (ih (finalizeStep e bit acc hd))
    exact ⟨rfl, rfl, rfl, rfl, rfl, rfl, rfl, rfl, rfl, rfl⟩

theorem finalizeDepMarkers_ctx (s : World) (e : Nat) :
    SameCtx s (finalizeDepMarkers s e) := by
  unfold finalizeDepMarkers
  exact sameCtx_trans (finalize_fold_ctx _ _ _ _) (setEffect_ctx _ _ _)

/-! ## The shape of `run()` on the active path -/

theorem runEpilogue_fields (s : World) (e : Nat) :
    (runEpilogue s e).effectTrackDepth = s.effectTrackDepth - 1 ∧
    (runEpilogue s e).trackOpBit = 1 <<< (s.effectTrackDepth - 1) ∧
    (runEpilogue s e).shouldTrack = (s.trackStack.getLast?.getD true) ∧
    (runEpilogue s e).trackStack = s.trackStack.dropLast ∧
    (runEpilogue s e).effectStack = s.effectStack.dropLast ∧
    (runEpilogue s e).activeEffect = s.effectStack.dropLast.getLast? ∧
    (runEpilogue s e).runLog = s.runLog ∧
    (runEpilogue s e).fnLog = s.fnLog ∧
    (runEpilogue s e).schedLog = s.schedLog ∧
    (runEpilogue s e).stopLog = s.stopLog := by
  unfold runEpilogue
  split
  · next h =>
    obtain ⟨a1, a2, a3, a4, a5, a6, a7, a8, a9, a10⟩ := finalizeDepMarkers_ctx s e
    simp only [resetTracking, a1, a2, a3, a4, a5, a6, a7, a8, a9, a10]
    cases hl : s.trackStack.getLast? with
    | none =>
      have hnil : s.trackStack = [] := by simpa using hl
      simp [hnil]
    | some b => simp
  · simp only [resetTracking]
    cases hl : s.trackStack.getLast? with
    | none =>
      have hnil : s.trackStack = [] := by simpa using hl
      simp [hnil]
    | some b => simp

/-- The verdict of an effect's wrapped computation, independent of the
world it runs in: a failure when the body throws, its return value
otherwise. -/
def body_result (s : World) (e : Nat) : Except Unit Nat :=
  if (getEffect s e).fn.throws then .error () else .ok (getEffect s e).fn.ret

theorem initDepMarkers_effectStack (s : World) (e : Nat) :
    (initDepMarkers s e).effectStack = s.effectStack :=
  (initDepMarkers_ctx s e).1

theorem initDepMarkers_activeEffect (s : World) (e : Nat) :
    (initDepMarkers s e).activeEffect = s.activeEffect :=
  (initDepMarkers_ctx s e).2.1

theorem initDepMarkers_shouldTrack (s : World) (e : Nat) :
    (initDepMarkers s e).shouldTrack = s.shouldTrack :=
  (initDepMarkers_ctx s e).2.2.1

theorem initDepMarkers_trackStack (s : World) (e : Nat) :
    (initDepMarkers s e).trackStack = s.trackStack :=
  (initDepMarkers_ctx s e).2.2.2.1

theorem initDepMarkers_depth (s : World) (e : Nat) :
    (initDepMarkers s e).effectTrackDepth = s.effectTrackDepth :=
  (initDepMarkers_ctx s e).2.2.2.2.1

theorem initDepMarkers_bit (s : World) (e : Nat) :
    (initDepMarkers s e).trackOpBit = s.trackOpBit :=
  (initDepMarkers_ctx s e).2.2.2.2.2.1

theorem initDepMarkers_runLog (s : World) (e : Nat) :
    (initDepMarkers s e).runLog = s.runLog :=
  (initDepMarkers_ctx s e).2.2.2.2.2.2.1

theorem initDepMarkers_fnLog (s : World) (e : Nat) :
    (initDepMarkers s e).fnLog = s.fnLog :=
  (initDepMarkers_ctx s e).2.2.2.2.2.2.2.1

theorem initDepMarkers_schedLog (s : World) (e : Nat) :
    (initDepMarkers s e).schedLog = s.schedLog :=
  (initDepMarkers_ctx s e).2.2.2.2.2.2.2.2.1

theorem initDepMarkers_stopLog (s : World) (e : Nat) :
    (initDepMarkers s e).stopLog = s.stopLog :=
  (initDepMarkers_ctx s e).2.2.2.2.2.2.2.2.2

theorem cleanupEffect_effectStack (s : World) (e : Nat) :
    (cleanupEffect s e).effectStack = s.effectStack :=
  (cleanupEffect_ctx s e).1

theorem cleanupEffect_activeEffect (s : World) (e : Nat) :
    (cleanupEffect s e).activeEffect = s.activeEffect :=
  (cleanupEffect_ctx s e).2.1

theorem cleanupEffect_shouldTrack (s : World) (e : Nat) :
    (cleanupEffect s e).shouldTrack = s.shouldTrack :=
  (cleanupEffect_ctx s e).2.2.1

theorem cleanupEffect_trackStack (s : World) (e : Nat) :
    (cleanupEffect s e).trackStack = s.trackStack :=
  (cleanupEffect_ctx s e).2.2.2.1

theorem cleanupEffect_depth (s : World) (e : Nat) :
    (cleanupEffect s e).effectTrackDepth = s.effectTrackDepth :=
  (cleanupEffect_ctx s e).2.2.2.2.1

theorem cleanupEffect_bit (s : World) (e : Nat) :
    (cleanupEffect s e).trackOpBit = s.trackOpBit :=
  (cleanupEffect_ctx s e).2.2.2.2.2.1

theorem cleanupEffect_runLog (s : World) (e : Nat) :
    (cleanupEffect s e).runLog = s.runLog :=
  (cleanupEffect_ctx s e).2.2.2.2.2.2.1

theorem cleanupEffect_fnLog (s : World) (e : Nat) :
    (cleanupEffect s e).fnLog = s.fnLog :=
  (cleanupEffect_ctx s e).2.2.2.2.2.2.2.1

theorem cleanupEffect_schedLog (s : World) (e : Nat) :
    (cleanupEffect s e).schedLog = s.schedLog :=
  (cleanupEffect_ctx s e).2.2.2.2.2.2.2.2.1

theorem cleanupEffect_stopLog (s : World) (e : Nat) :
    (cleanupEffect s e).stopLog = s.stopLog :=
  (cleanupEffect_ctx s e).2.2.2.2.2.2.2.2.2

theorem runProlog_fields (s : World) (e : Nat) :
    (runProlog s e).effectTrackDepth = s.effectTrackDepth + 1 ∧
    (runProlog s e).trackOpBit = 1 <<< (s.effectTrackDepth + 1) ∧
    (runProlog s e).shouldTrack = true ∧
    (runProlog s e).trackStack = s.trackStack ++ [s.shouldTrack] ∧
    (runProlog s e).effectStack = s.effectStack ++ [e] ∧
    (runProlog s e).activeEffect = some e ∧
    (runProlog s e).runLog = s.runLog ∧
    (runProlog s e).fnLog = s.fnLog ++ [e] ∧
    (runProlog s e).schedLog = s.schedLog ∧
    (runProlog s e).stopLog = s.stopLog := by
  unfold runProlog
  dsimp only
  split
  · exact ⟨by rw [initDepMarkers_depth]; rfl,
      by rw [initDepMarkers_bit]; rfl,
      by rw [initDepMarkers_shouldTrack]; rfl,
      by rw [initDepMarkers_trackStack]; rfl,
      by rw [initDepMarkers_effectStack]; rfl,
      by rw [initDepMarkers_activeEffect]; rfl,
      by rw [initDepMarkers_runLog]; rfl,
      by rw [initDepMarkers_fnLog]; rfl,
      by rw [initDepMarkers_schedLog]; rfl,
      by rw [initDepMarkers_stopLog]; rfl⟩
  · exact ⟨by rw [cleanupEffect_depth]; rfl,
      by rw [cleanupEffect_bit]; rfl,
      by rw [cleanupEffect_shouldTrack]; rfl,
      by rw [cleanupEffect_trackStack]; rfl,
      by rw [cleanupEffect_effectStack]; rfl,
      by rw [cleanupEffect_activeEffect]; rfl,
      by rw [cleanupEffect_runLog]; rfl,
      by rw [cleanupEffect_fnLog]; rfl,
      by rw [cleanupEffect_schedLog]; rfl,
      by rw [cleanupEffect_stopLog]; rfl⟩

/-- On an active, non-re-entrant effect, `run()` is the prologue, the
wrapped computation, and the `finally` epilogue, in that order. -/
theorem runE_active_eq (s : World) (e : Nat)
    (hact : (getEffect s e).active = true) (hst : e ∉ s.effectStack) :
    runE s e =
      ((runEpilogue (execBody
          (runProlog { s with runLog := s.runLog ++ [e] } e)
          (getEffect s e).fn).1 e),
        ((execBody (runProlog { s with runLog := s.runLog ++ [e] } e)
          (getEffect s e).fn).2.map some)) := by
  have hge : getEffect { s with runLog := s.runLog ++ [e] } e = getEffect s e :=
    rfl
  unfold runE
  rw [if_neg (by rw [hge, hact]; simp),
      if_neg (show ¬ e ∈ ({ s with runLog := s.runLog ++ [e] } :
        World).effectStack from hst)]
  rfl

/-- `run()` on an active, non-re-entrant effect: the result is the wrapped
computation's (`.error ()` when it threw), and the context after the
`finally` block is fully determined: the depth and bit marker, tracking
flag and its stack, effect stack and active effect are all restored. -/
theorem runE_active_shape (s : World) (e : Nat)
    (hact : (getEffect s e).active = true) (hst : e ∉ s.effectStack) :
    (runE s e).2 = (body_result s e).map some ∧
    (runE s e).1.effectTrackDepth = s.effectTrackDepth ∧
    (runE s e).1.trackOpBit = 1 <<< s.effectTrackDepth ∧
    (runE s e).1.shouldTrack = s.shouldTrack ∧
    (runE s e).1.trackStack = s.trackStack ∧
    (runE s e).1.effectStack = s.effectStack ∧
    (runE s e).1.activeEffect = s.effectStack.getLast? ∧
    (runE s e).1.runLog = s.runLog ++ [e] ∧
    (runE s e).1.fnLog = s.fnLog ++ [e] ∧
    (runE s e).1.schedLog = s.schedLog ∧
    (runE s e).1.stopLog = s.stopLog := by
  have key := runE_active_eq s e hact hst
  rw [key]
  set s1 : World := { s with runLog := s.runLog ++ [e] } with hs1
  obtain ⟨p1, p2, p3, p4, p5, p6, p7, p8, p9, p10⟩ := runProlog_fields s1 e
  obtain ⟨c1, c2, c3, c4, c5, c6, c7, c8, c9, c10⟩ :=
    execBody_ctx (runProlog s1 e) (getEffect s e).fn
  set r := execBody (runProlog s1 e) (getEffect s e).fn with hr
  obtain ⟨f1, f2, f3, f4, f5, f6, f7, f8, f9, f10⟩ := runEpilogue_fields r.1 e
  refine ⟨?_, ?_, ?_, ?_, ?_, ?_, ?_, ?_, ?_, ?_, ?_⟩
  · show r.2.map some = (body_result s e).map some
    rw [hr]
    simp only [execBody, body_result]
  · rw [f1, c5, p1]; rfl
  · rw [f2, c5, p1]; rfl
  · rw [f3, c4, p4]; simp
  · rw [f4, c4, p4]; simp
  · rw [f5, c1, p5]; simp
  · rw [f6, c1, p5]; simp
  · rw [f7, c7, p7]
  · rw [f8, c8, p8]
  · rw [f9, c9, p9]
  · rw [f10, c10, p10]

/-! ## C3: a throwing computation still restores the global context -/

/-- **C3.** When the wrapped computation throws, `run()` propagates the
failure unmodified, and the `finally` bookkeeping still executes: the
depth is back to its pre-run value with its bit marker restored, the
prior tracking-enabled state and stack are restored, the effect is
popped off the stack, and the active effect is the new top of the stack
(or none). -/
theorem C3_throw_restores_context (s : World) (e : Nat)
    (hact : (getEffect s e).active = true) (hst : e ∉ s.effectStack)
    (hthrows : (getEffect s e).fn.throws = true)
    (hbit : s.trackOpBit = 1 <<< s.effectTrackDepth) :
    (runE s e).2 = .error () ∧
    (runE s e).1.effectTrackDepth = s.effectTrackDepth ∧
    (runE s e).1.trackOpBit = s.trackOpBit ∧
    (runE s e).1.shouldTrack = s.shouldTrack ∧
    (runE s e).1.trackStack = s.trackStack ∧
    (runE s e).1.effectStack = s.effectStack ∧
    (runE s e).1.activeEffect = s.effectStack.getLast? := by
  obtain ⟨r1, r2, r3, r4, r5, r6, r7, _⟩ := runE_active_shape s e hact hst
  refine ⟨?_, r2, by rw [r3, hbit], r4, r5, r6, r7⟩
  rw [r1]
  simp [body_result, hthrows, Except.map]

/-- A world holding a single throwing effect, created lazily. -/
def c3World : World :=
  (mkEffect initialWorld (.plain { reads := [], throws := true, ret := 0 })
    { lazy := true }).1

/-- Witness for C3 at a concrete input. -/
theorem C3_witness :
    (runE c3World 0).2 = .error () ∧
    (runE c3World 0).1.effectTrackDepth = c3World.effectTrackDepth ∧
    (runE c3World 0).1.trackOpBit = c3World.trackOpBit ∧
    (runE c3World 0).1.shouldTrack = c3World.shouldTrack ∧
    (runE c3World 0).1.trackStack = c3World.trackStack ∧
    (runE c3World 0).1.effectStack = c3World.effectStack ∧
    (runE c3World 0).1.activeEffect = c3World.effectStack.getLast? :=
  C3_throw_restores_context c3World 0 rfl (List.not_mem_nil 0) rfl rfl

/-! ## Tracking never touches a non-active effect -/

theorem trackEffects_nonactive (s : World) (d : Nat) {a x : Nat}
    (ha : s.activeEffect = some a) (hx : x ≠ a) :
    getEffect (trackEffects s d) x = getEffect s x ∧
    ∀ d', x ∈ (getDep (trackEffects s d) d').effects ↔
      x ∈ (getDep s d').effects := by
  have hadd : ∀ (q q' : Dep) (o : EffectObj),
      q.effects = (getDep s d).effects →
      q'.effects = setAdd q.effects a →
      getEffect (setEffect (setDep (setDep s d q) d q') a o) x =
        getEffect s x ∧
      ∀ d', x ∈ (getDep (setEffect (setDep (setDep s d q) d q') a o) d').effects
        ↔ x ∈ (getDep s d').effects := by
    intro q q' o hq hq'
    constructor
    · rw [getEffect_setEffect_ne _ _ hx]
      rfl
    · intro d'
      rw [getDep_setEffect]
      by_cases hdd : d' = d
      · subst hdd
        by_cases hlen : d' < s.depArr.length
        · rw [getDep_setDep_self _ _ _ (by simpa [setDep] using hlen), hq', hq,
            mem_setAdd]
          simp [hx]
        · rw [getDep_setDep_oob _ _ _ (by simpa [setDep] using not_lt.mp hlen),
            getDep_setDep_oob _ _ _ (not_lt.mp hlen)]
      · rw [getDep_setDep_ne _ _ hdd, getDep_setDep_ne _ _ hdd]
  have hnoadd : ∀ (q : Dep), q.effects = (getDep s d).effects →
      getEffect (setDep s d q) x = getEffect s x ∧
      ∀ d', x ∈ (getDep (setDep s d q) d').effects ↔
        x ∈ (getDep s d').effects := by
    intro q hq
    refine ⟨rfl, fun d' => ?_⟩
    by_cases hdd : d' = d
    · subst hdd
      by_cases hlen : d' < s.depArr.length
      · rw [getDep_setDep_self _ _ _ hlen, hq]
      · rw [getDep_setDep_oob _ _ _ (not_lt.mp hlen)]
    · rw [getDep_setDep_ne _ _ hdd]
  unfold trackEffects
  rw [ha]
  simp only []
  by_cases h1 : s.effectTrackDepth ≤ maxMarkerBits
  · rw [if_pos h1]
    by_cases h2 : (!newTracked (getDep s d) s.trackOpBit) = true
    · rw [if_pos h2]
      by_cases h3 : (!wasTracked (getDep s d) s.trackOpBit) = true
      · rw [if_pos h3]
        exact hadd _ _ _ rfl rfl
      · rw [if_neg h3]
        exact hnoadd _ rfl
    · rw [if_neg h2]
      by_cases h3 : False = true
      · simp at h3
      · rw [if_neg (by simp)]
        exact hnoadd _ rfl
  · rw [if_neg h1]
    by_cases h2 : (!(getDep s d).effects.contains a) = true
    · rw [if_pos h2]
      exact hadd _ _ _ rfl rfl
    · rw [if_neg h2]
      exact hnoadd _ rfl

theorem mem_getDep_append (s : World) (x d' : Nat) :
    x ∈ (getDep { s with depArr := s.depArr ++ [({} : Dep)] } d').effects ↔
      x ∈ (getDep s d').effects := by
  rcases lt_trichotomy d' s.depArr.length with h | h | h
  · rw [getDep_append _ _ h]
  · subst h
    rw [getDep_append_self, getDep_oob _ (le_refl _)]
  · rw [getDep_oob _ (by simpa using h), getDep_oob _ h.le]

theorem track_nonactive (s : World) (t : Target) (k : Key) {a x : Nat}
    (ha : s.activeEffect = some a) (hx : x ≠ a) :
    getEffect (track s t k) x = getEffect s x ∧
    ∀ d', x ∈ (getDep (track s t k) d').effects ↔
      x ∈ (getDep s d').effects := by
  unfold track
  split
  · cases h1 : aGet s.targetMap t with
    | none =>
      simp only [h1, Option.getD_none]
      cases h2 : aGet ([] : List (Key × Nat)) k with
      | none =>
        simp only [h2]
        obtain ⟨g1, g2⟩ := trackEffects_nonactive
          { { s with targetMap := aSet s.targetMap t [] } with
            targetMap := aSet (aSet s.targetMap t []) t
              (aSet ([] : List (Key × Nat)) k s.depArr.length),
            depArr := s.depArr ++ [({} : Dep)] }
          s.depArr.length ha hx
        refine ⟨g1.trans rfl, fun d' => (g2 d').trans ?_⟩
        exact mem_getDep_append { s with
          targetMap := aSet (aSet s.targetMap t []) t
            (aSet ([] : List (Key × Nat)) k s.depArr.length) } x d'
      | some d =>
        simp only [h2]
        obtain ⟨g1, g2⟩ := trackEffects_nonactive
          { s with targetMap := aSet s.targetMap t [] } d ha hx
        exact ⟨g1, g2⟩
    | some dm =>
      simp only [h1, Option.getD_some]
      cases h2 : aGet dm k with
      | none =>
        simp only [h2]
        obtain ⟨g1, g2⟩ := trackEffects_nonactive
          { s with targetMap := aSet s.targetMap t (aSet dm k s.depArr.length),
                   depArr := s.depArr ++ [({} : Dep)] }
          s.depArr.length ha hx
        refine ⟨g1.trans rfl, fun d' => (g2 d').trans ?_⟩
        exact mem_getDep_append
          { s with targetMap := aSet s.targetMap t (aSet dm k s.depArr.length) }
          x d'
      | some d =>
        simp only [h2]
        exact trackEffects_nonactive s d ha hx
  · exact ⟨rfl, fun d' => Iff.rfl⟩

/-! ## Effect metadata is immutable during tracking and runs -/

/-- All effect fields except the dep list (`fn`, `active`, scheduler and
callback flags) coincide between two worlds. -/
def SameMeta (s s' : World) : Prop :=
  ∀ x, (getEffect s' x).fn = (getEffect s x).fn ∧
    (getEffect s' x).active = (getEffect s x).active ∧
    (getEffect s' x).hasScheduler = (getEffect s x).hasScheduler ∧
    (getEffect s' x).allowRecurse = (getEffect s x).allowRecurse ∧
    (getEffect s' x).hasOnStop = (getEffect s x).hasOnStop

theorem sameMeta_refl (s : World) : SameMeta s s :=
  fun _ => ⟨rfl, rfl, rfl, rfl, rfl⟩

theorem sameMeta_trans {s s' s'' : World} (h1 : SameMeta s s')
    (h2 : SameMeta s' s'') : SameMeta s s'' := by
  intro x
  obtain ⟨a1, a2, a3, a4, a5⟩ := h1 x
  obtain ⟨b1, b2, b3, b4, b5⟩ := h2 x
  exact ⟨b1.trans a1, b2.trans a2, b3.trans a3, b4.trans a4, b5.trans a5⟩

theorem setEffect_oob (s : World) (e : Nat) (o : EffectObj)
    (h : s.effArr.length ≤ e) : setEffect s e o = s := by
  simp [setEffect, List.set_eq_of_length_le h]

theorem setDep_meta (s : World) (d : Nat) (dep : Dep) :
    SameMeta s (setDep s d dep) := sameMeta_refl _

theorem setEffect_deps_meta (s : World) (e : Nat) (dps : List Nat) :
    SameMeta s (setEffect s e { getEffect s e with deps := dps }) := by
  intro x
  by_cases hx : x = e
  · subst hx
    by_cases hlen : x < s.effArr.length
    · rw [getEffect_setEffect_self _ _ _ hlen]
      exact ⟨rfl, rfl, rfl, rfl, rfl⟩
    · rw [setEffect_oob _ _ _ (not_lt.mp hlen)]
      exact ⟨rfl, rfl, rfl, rfl, rfl⟩
  · rw [getEffect_setEffect_ne _ _ hx]
    exact ⟨rfl, rfl, rfl, rfl, rfl⟩

theorem trackEffects_meta (s : World) (d : Nat) :
    SameMeta s (trackEffects s d) := by
  have hsetDep : ∀ (s' : World) (q : Dep), SameMeta s' (setDep s' d q) :=
    fun s' q x => ⟨rfl, rfl, rfl, rfl, rfl⟩
  have hadd : ∀ (a : Nat) (q q' : Dep),
      SameMeta s (setEffect (setDep (setDep s d q) d q') a
        { getEffect (setDep (setDep s d q) d q') a with
          deps := (getEffect (setDep (setDep s d q) d q') a).deps ++ [d] }) :=
    fun a q q' => sameMeta_trans (fun x => ⟨rfl, rfl, rfl, rfl, rfl⟩)
      (setEffect_deps_meta (setDep (setDep s d q) d q') a _)
  unfold trackEffects
  cases h : s.activeEffect with
  | none => exact sameMeta_refl _
  | some a =>
    simp only []
    by_cases h1 : s.effectTrackDepth ≤ maxMarkerBits
    · rw [if_pos h1]
      by_cases h2 : (!newTracked (getDep s d) s.trackOpBit) = true
      · rw [if_pos h2]
        by_cases h3 : (!wasTracked (getDep s d) s.trackOpBit) = true
        · rw [if_pos h3]
          exact hadd a _ _
        · rw [if_neg h3]
          exact hsetDep _ _
      · rw [if_neg h2]
        rw [if_neg (by simp)]
        exact hsetDep _ _
    · rw [if_neg h1]
      by_cases h2 : (!(getDep s d).effects.contains a) = true
      · rw [if_pos h2]
        exact hadd a _ _
      · rw [if_neg h2]
        exact hsetDep _ _

theorem world_append_dep_meta (s : World) (dep : Dep) :
    SameMeta s { s with depArr := s.depArr ++ [dep] } := sameMeta_refl _

theorem world_targetMap_meta (s : World) (tm : List (Target × List (Key × Nat))) :
    SameMeta s { s with targetMap := tm } := sameMeta_refl _

theorem track_meta (s : World) (t : Target) (k : Key) :
    SameMeta s (track s t k) := by
  unfold track
  split
  · cases h1 : aGet s.targetMap t with
    | none =>
      simp only [h1, Option.getD_none]
      cases h2 : aGet ([] : List (Key × Nat)) k with
      | none =>
        simp only [h2]
        exact sameMeta_trans (sameMeta_refl _) (trackEffects_meta _ _)
      | some d =>
        simp only [h2]
        exact sameMeta_trans (sameMeta_refl _) (trackEffects_meta _ _)
    | some dm =>
      simp only [h1, Option.getD_some]
      cases h2 : aGet dm k with
      | none =>
        simp only [h2]
        exact sameMeta_trans (sameMeta_refl _) (trackEffects_meta _ _)
      | some d =>
        simp only [h2]
        exact trackEffects_meta _ _
  · exact sameMeta_refl _

theorem foldl_track_meta (rs : List (Target × Key)) (s : World) :
    SameMeta s (rs.foldl (fun s r => track s r.1 r.2) s) := by
  induction rs generalizing s with
  | nil => exact sameMeta_refl _
  | cons hd tl ih => exact sameMeta_trans (track_meta s hd.1 hd.2) (ih _)

theorem execBody_meta (s : World) (b : Body) : SameMeta s (execBody s b).1 :=
  foldl_track_meta b.reads s

theorem getDep_setDep_effects (s : World) (d d' : Nat) (q : Dep)
    (hq : q.effects = (getDep s d).effects) :
    (getDep (setDep s d q) d').effects = (getDep s d').effects := by
  by_cases hdd : d' = d
  · subst hdd
    by_cases hlen : d' < s.depArr.length
    · rw [getDep_setDep_self _ _ _ hlen, hq]
    · rw [getDep_setDep_oob _ _ _ (not_lt.mp hlen)]
  · rw [getDep_setDep_ne _ _ hdd]

theorem initDepMarkers_preserves (s : World) (e : Nat) :
    (∀ x, getEffect (initDepMarkers s e) x = getEffect s x) ∧
    (∀ d', (getDep (initDepMarkers s e) d').effects =
      (getDep s d').effects) := by
  unfold initDepMarkers
  simp only []
  generalize s.trackOpBit = bit
  generalize (getEffect s e).deps = ds
  induction ds generalizing s with
  | nil => exact ⟨fun _ => rfl, fun _ => rfl⟩
  | cons hd tl ih =>
    simp only [List.foldl_cons]
    obtain ⟨ih1, ih2⟩ := ih (setDep s hd { getDep s hd with w := (getDep s hd).w ||| bit })
    refine ⟨fun x => (ih1 x).trans rfl, fun d' => (ih2 d').trans ?_⟩
    exact getDep_setDep_effects s hd d' _ rfl

theorem finalizeStep_fold_preserves (e : Nat) (bit : Nat)
    (ds : List Nat) (acc : World × List Nat) :
    (∀ x, getEffect (ds.foldl (finalizeStep e bit) acc).1 x =
      getEffect acc.1 x) ∧
    (∀ x d', x ≠ e →
      (x ∈ (getDep (ds.foldl (finalizeStep e bit) acc).1 d').effects ↔
        x ∈ (getDep acc.1 d').effects)) := by
  induction ds generalizing acc with
  | nil => exact ⟨fun _ => rfl, fun _ _ _ => Iff.rfl⟩
  | cons hd tl ih =>
    simp only [List.foldl_cons]
    obtain ⟨ih1, ih2⟩ := ih (finalizeStep e bit acc hd)
    refine ⟨fun x => (ih1 x).trans rfl, fun x d' hx => (ih2 x d' hx).trans ?_⟩
    show x ∈ (getDep (setDep acc.1 hd _) d').effects ↔ _
    by_cases hdd : d' = hd
    · subst hdd
      by_cases hlen : d' < acc.1.depArr.length
      · rw [getDep_setDep_self _ _ _ hlen]
        split
        · exact Iff.rfl
        · simp [mem_setDelete, hx]
      · rw [getDep_setDep_oob _ _ _ (not_lt.mp hlen)]
    · rw [getDep_setDep_ne _ _ hdd]

theorem finalizeDepMarkers_preserves (s : World) (e : Nat) :
    (∀ x, x ≠ e → getEffect (finalizeDepMarkers s e) x = getEffect s x) ∧
    (∀ x, (getEffect (finalizeDepMarkers s e) x).fn = (getEffect s x).fn ∧
      (getEffect (finalizeDepMarkers s e) x).active = (getEffect s x).active ∧
      (getEffect (finalizeDepMarkers s e) x).hasScheduler =
        (getEffect s x).hasScheduler ∧
      (getEffect (finalizeDepMarkers s e) x).allowRecurse =
        (getEffect s x).allowRecurse ∧
      (getEffect (finalizeDepMarkers s e) x).hasOnStop =
        (getEffect s x).hasOnStop) ∧
    (∀ x d', x ≠ e →
      (x ∈ (getDep (finalizeDepMarkers s e) d').effects ↔
        x ∈ (getDep s d').effects)) := by
  obtain ⟨m1, m2⟩ := finalizeStep_fold_preserves e s.trackOpBit
    (getEffect s e).deps (s, [])
  unfold finalizeDepMarkers
  dsimp only
  refine ⟨fun x hx => ?_, fun x => ?_, fun x d' hx => ?_⟩
  · rw [getEffect_setEffect_ne _ _ hx]
    exact m1 x
  · obtain ⟨b1, b2, b3, b4, b5⟩ := setEffect_deps_meta
      ((getEffect s e).deps.foldl (finalizeStep e s.trackOpBit) (s, [])).1 e
      ((getEffect s e).deps.foldl (finalizeStep e s.trackOpBit) (s, [])).2 x
    rw [b1, b2, b3, b4, b5, m1 x]
    exact ⟨rfl, rfl, rfl, rfl, rfl⟩
  · rw [getDep_setEffect]
    exact m2 x d' hx

theorem cleanupEffect_preserves (s : World) (e : Nat) :
    (∀ x, x ≠ e → getEffect (cleanupEffect s e) x = getEffect s x) ∧
    (∀ x d', x ≠ e →
      (x ∈ (getDep (cleanupEffect s e) d').effects ↔
        x ∈ (getDep s d').effects)) := by
  unfold cleanupEffect
  have main : ∀ (ds : List Nat) (s : World),
      (∀ x, getEffect (ds.foldl (fun s d => setDep s d
        { getDep s d with effects := setDelete (getDep s d).effects e }) s) x =
        getEffect s x) ∧
      (∀ x d', x ≠ e →
        (x ∈ (getDep (ds.foldl (fun s d => setDep s d
          { getDep s d with effects := setDelete (getDep s d).effects e }) s)
            d').effects ↔ x ∈ (getDep s d').effects)) := by
    intro ds
    induction ds with
    | nil => exact fun s => ⟨fun _ => rfl, fun _ _ _ => Iff.rfl⟩
    | cons hd tl ih =>
      intro s
      simp only [List.foldl_cons]
      obtain ⟨ih1, ih2⟩ := ih _
      refine ⟨fun x => (ih1 x).trans rfl, fun x d' hx => (ih2 x d' hx).trans ?_⟩
      by_cases hdd : d' = hd
      · subst hdd
        by_cases hlen : d' < s.depArr.length
        · rw [getDep_setDep_self _ _ _ hlen]
          simp only []
          rw [mem_setDelete]
          simp [hx]
        · rw [getDep_setDep_oob _ _ _ (not_lt.mp hlen)]
      · rw [getDep_setDep_ne _ _ hdd]
  obtain ⟨m1, m2⟩ := main (getEffect s e).deps s
  refine ⟨fun x hx => ?_, fun x d' hx => ?_⟩
  · rw [getEffect_setEffect_ne _ _ hx]
    exact m1 x
  · rw [getDep_setEffect]
    exact m2 x d' hx

theorem resetTracking_effArr (s : World) :
    (resetTracking s).effArr = s.effArr := by
  unfold resetTracking
  cases s.trackStack.getLast? <;> rfl

theorem resetTracking_depArr (s : World) :
    (resetTracking s).depArr = s.depArr := by
  unfold resetTracking
  cases s.trackStack.getLast? <;> rfl

theorem runEpilogue_preserves_ne (s : World) (e : Nat) {x : Nat} (hx : x ≠ e) :
    getEffect (runEpilogue s e) x = getEffect s x ∧
    ∀ d', x ∈ (getDep (runEpilogue s e) d').effects ↔
      x ∈ (getDep s d').effects := by
  unfold runEpilogue
  dsimp only
  split
  · constructor
    · refine Eq.trans ?_ ((finalizeDepMarkers_preserves s e).1 x hx)
      simp [getEffect, resetTracking_effArr]
    · intro d'
      refine Iff.trans ?_ ((finalizeDepMarkers_preserves s e).2.2 x d' hx)
      simp [getDep, resetTracking_depArr]
  · constructor
    · simp [getEffect, resetTracking_effArr]
    · intro d'
      simp [getDep, resetTracking_depArr]

theorem runProlog_preserves (s : World) (e : Nat)
    (hd : s.effectTrackDepth + 1 ≤ maxMarkerBits) :
    (∀ x, getEffect (runProlog s e) x = getEffect s x) ∧
    (∀ d', (getDep (runProlog s e) d').effects = (getDep s d').effects) := by
  unfold runProlog
  dsimp only
  split
  · exact ⟨fun x => (initDepMarkers_preserves _ _).1 x,
      fun d' => (initDepMarkers_preserves _ _).2 d'⟩
  · next h => exact absurd hd h


/-! ## C10: `effect()` unwraps a runner argument -/

theorem runEpilogue_fn (s : World) (e x : Nat) :
    (getEffect (runEpilogue s e) x).fn = (getEffect s x).fn := by
  unfold runEpilogue
  dsimp only
  split
  · refine Eq.trans ?_ ((finalizeDepMarkers_preserves s e).2.1 x).1
    simp [getEffect, resetTracking_effArr]
  · simp [getEffect, resetTracking_effArr]

theorem foldl_track_nonactive (rs : List (Target × Key)) (s : World)
    {a x : Nat} (ha : s.activeEffect = some a) (hx : x ≠ a) :
    getEffect (rs.foldl (fun s r => track s r.1 r.2) s) x = getEffect s x ∧
    ∀ d', x ∈ (getDep (rs.foldl (fun s r => track s r.1 r.2) s) d').effects ↔
      x ∈ (getDep s d').effects := by
  induction rs generalizing s with
  | nil => exact ⟨rfl, fun _ => Iff.rfl⟩
  | cons hd tl ih =>
    have ha' : (track s hd.1 hd.2).activeEffect = some a :=
      ((track_ctx s hd.1 hd.2).2.1).trans ha
    obtain ⟨t1, t2⟩ := track_nonactive s hd.1 hd.2 ha hx
    obtain ⟨i1, i2⟩ := ih (track s hd.1 hd.2) ha'
    exact ⟨i1.trans t1, fun d' => (i2 d').trans (t2 d')⟩

/-- The world holding one lazily-created effect with body `b` (the effect
behind the runner that is then passed back into `effect()`). -/
def c10Base (b : Body) : World :=
  (mkEffect initialWorld (.plain b) { lazy := true }).1

/-- The world after passing the runner of effect 0 back into `effect()`. -/
def c10New (b : Body) (opts : EffOptions) : World :=
  (mkEffect (c10Base b) (.runner 0) opts).1

/-- **C10.** Passing a runner back into `effect()` unwraps it: the new
effect's computation is the original underlying function of the old
runner's effect, and running the new effect never re-enters the old
runner's machinery — the old effect is never run, keeps an empty dep
list, and is added to no dep set. -/
theorem C10_runner_unwrapped (b : Body) (opts : EffOptions) :
    (getEffect (c10New b opts) 1).fn = b ∧
    (c10New b opts).runLog = (if opts.lazy then [] else [1]) ∧
    (getEffect (c10New b opts) 0).deps = [] ∧
    ∀ d, 0 ∉ (getDep (c10New b opts) d).effects := by
  have hbase : c10Base b = { effArr := [{ fn := b, active := true }] } := rfl
  by_cases hlazy : opts.lazy
  · have heq : c10New b opts =
        { effArr := [{ fn := b, active := true },
            { fn := b, active := true, hasScheduler := opts.hasScheduler,
              allowRecurse := opts.allowRecurse,
              hasOnStop := opts.hasOnStop }] } := by
      unfold c10New mkEffect
      rw [if_neg (by simp [hlazy])]
      rfl
    rw [heq, if_pos hlazy]
    refine ⟨rfl, rfl, rfl, fun d => ?_⟩
    show 0 ∉ (getDep _ d).effects
    rw [getDep_oob _ (by simp)]
    simp
  · set s2 : World :=
      { effArr := [{ fn := b, active := true },
          { fn := b, active := true, hasScheduler := opts.hasScheduler,
            allowRecurse := opts.allowRecurse,
            hasOnStop := opts.hasOnStop }] } with hs2
    have heq : c10New b opts = (runE s2 1).1 := by
      unfold c10New mkEffect
      rw [if_pos (by simp [hlazy])]
      rfl
    have hact : (getEffect s2 1).active = true := rfl
    have hst : 1 ∉ s2.effectStack := List.not_mem_nil 1
    have hkey := runE_active_eq s2 1 hact hst
    set s2' : World := { s2 with runLog := s2.runLog ++ [1] } with hs2'
    have hdep : s2'.effectTrackDepth + 1 ≤ maxMarkerBits := by
      show 0 + 1 ≤ maxMarkerBits
      decide
    obtain ⟨pp1, pp2⟩ := runProlog_preserves s2' 1 hdep
    have hpact : (runProlog s2' 1).activeEffect = some 1 :=
      (runProlog_fields s2' 1).2.2.2.2.2.1
    obtain ⟨bb1, bb2⟩ := foldl_track_nonactive (getEffect s2 1).fn.reads
      (runProlog s2' 1) hpact (show (0 : Nat) ≠ 1 by decide)
    set r : World × Except Unit Nat :=
      execBody (runProlog s2' 1) (getEffect s2 1).fn with hrr
    have hr1 : r.1 = (getEffect s2 1).fn.reads.foldl
        (fun s r => track s r.1 r.2) (runProlog s2' 1) := rfl
    obtain ⟨ee1, ee2⟩ := runEpilogue_preserves_ne r.1 1 (show (0:Nat) ≠ 1 by decide)
    have hW : c10New b opts = runEpilogue r.1 1 := by
      rw [heq, hkey]
    refine ⟨?_, ?_, ?_, fun d => ?_⟩
    · rw [hW, runEpilogue_fn]
      have hfn := (execBody_meta (runProlog s2' 1) (getEffect s2 1).fn 1).1
      rw [← hrr] at hfn
      rw [hfn, pp1 1]
      rfl
    · rw [if_neg hlazy, heq]
      exact ((runE_active_shape s2 1 hact hst).2.2.2.2.2.2.2.1).trans rfl
    · rw [hW, ee1, hr1, bb1, pp1 0]
      rfl
    · rw [hW]
      intro hmem
      rw [ee2 d, hr1, bb2 d, pp2 d] at hmem
      have : getDep s2' d = ({} : Dep) := getDep_oob _ (by simp [hs2'])
      rw [this] at hmem
      simp at hmem


/-! ## C1: the track/trigger round trip -/

/-- The world after `effect(() => read C[K])` has been created and run once
(non-lazy, no scheduler): effect 0 subscribed to the dep set of `(t, k)`. -/
def c1World (t : Target) (k : Key) : World :=
  (mkEffect initialWorld (.plain { reads := [(t, k)] }) {}).1

theorem c1World_eq (t : Target) (k : Key) :
    c1World t k =
      { targetMap := [(t, [(k, 0)])],
        depArr := [⟨[0], 0, 0⟩],
        effArr := [{ fn := { reads := [(t, k)] }, active := true,
                     deps := [0] }],
        runLog := [0], fnLog := [0] } := by
  unfold c1World mkEffect
  simp only [Bool.not_false, if_pos]
  show (runE { effArr := [{ fn := { reads := [(t, k)] }, active := true }] }
    0).1 = _
  rw [runE_active_eq
    { effArr := [{ fn := { reads := [(t, k)] }, active := true }] } 0 rfl
    (List.not_mem_nil 0)]
  simp [runProlog, runEpilogue, execBody, track, trackEffects, initialWorld,
    initDepMarkers, finalizeDepMarkers, finalizeStep, enableTracking,
    resetTracking, isTracking, getEffect, getDep, setDep, setEffect, aGet,
    aSet, setAdd, setDelete, wasTracked, newTracked, clearBit, maxMarkerBits]


theorem c1_rerun (t : Target) (k : Key) :
    runE { targetMap := [(t, [(k, 0)])], depArr := [⟨[0], 0, 0⟩],
           effArr := [{ fn := { reads := [(t, k)] }, active := true,
                        deps := [0] }],
           runLog := [0], fnLog := [0] } 0 =
      ({ targetMap := [(t, [(k, 0)])], depArr := [⟨[0], 0, 0⟩],
         effArr := [{ fn := { reads := [(t, k)] }, active := true,
                      deps := [0] }],
         runLog := [0, 0], fnLog := [0, 0] }, .ok (some 0)) := by
  rw [runE_active_eq
    { targetMap := [(t, [(k, 0)])], depArr := [⟨[0], 0, 0⟩],
      effArr := [{ fn := { reads := [(t, k)] }, active := true,
                   deps := [0] }],
      runLog := [0], fnLog := [0] } 0 rfl (List.not_mem_nil 0)]
  simp [runProlog, runEpilogue, execBody, track, trackEffects,
    initDepMarkers, finalizeDepMarkers, finalizeStep, enableTracking,
    resetTracking, isTracking, getEffect, getDep, setDep, setEffect, aGet,
    aSet, setAdd, setDelete, wasTracked, newTracked, clearBit, maxMarkerBits,
    Except.map]

/-- **C1.** For every container, key and (scheduler-less) effect whose body
reads `C[K]`: after the effect has run once, a single
`trigger(C, SET, K, v)` invokes the effect's `run()` exactly once — the
run log gains exactly one new entry — and the trigger completes without
an exception. -/
theorem C1_track_trigger_roundtrip (t : Target) (k : Key) (nv : Int) :
    (trigger (c1World t k) t .set (some k) nv).1.runLog = [0, 0] ∧
    (trigger (c1World t k) t .set (some k) nv).2 = .ok () := by
  rw [c1World_eq]
  rcases t with ⟨i, kind⟩
  cases kind with
  | plain =>
    constructor <;>
      simp [trigger, collectDeps, aGet, triggerEffects, trigStep, getDep,
        getEffect, collectEffects, setDedup, setAdd, c1_rerun, Except.map]
  | array =>
    by_cases hk : k = Key.lengthK
    · subst hk
      constructor <;>
        simp [trigger, collectDeps, lengthCollect, aGet, triggerEffects,
          trigStep, getDep, getEffect, collectEffects, setDedup, setAdd,
          c1_rerun, Except.map]
    · constructor <;>
        simp [trigger, collectDeps, hk, aGet, triggerEffects, trigStep,
          getDep, getEffect, collectEffects, setDedup, setAdd, c1_rerun,
          Except.map]
  | map =>
    by_cases hk : k = Key.iterate
    · subst hk
      constructor <;>
        simp [trigger, collectDeps, aGet, triggerEffects, trigStep, getDep,
          getEffect, collectEffects, setDedup, setAdd, c1_rerun, Except.map]
    · constructor <;>
        simp [trigger, collectDeps, hk, aGet, triggerEffects, trigStep,
          getDep, getEffect, collectEffects, setDedup, setAdd, c1_rerun,
          Except.map]


/-! ## C9: depth fallback produces the same dependency edges -/

theorem mem_aSet {α β : Type} [DecidableEq α] (l : List (α × β)) (a : α)
    (b : β) (p : α × β) (hp : p ∈ aSet l a b) : p = (a, b) ∨ p ∈ l := by
  induction l with
  | nil => simpa [aSet] using hp
  | cons hd tl ih =>
    unfold aSet at hp
    split at hp
    · rcases List.mem_cons.mp hp with h | h
      · exact Or.inl h
      · exact Or.inr (List.mem_cons.mpr (Or.inr h))
    · rcases List.mem_cons.mp hp with h | h
      · exact Or.inr (List.mem_cons.mpr (Or.inl h))
      · rcases ih h with h' | h'
        · exact Or.inl h'
        · exact Or.inr (List.mem_cons.mpr (Or.inr h'))

theorem aGet_mem {α β : Type} [DecidableEq α] :
    ∀ (l : List (α × β)) (a : α) (b : β), aGet l a = some b → (a, b) ∈ l
  | [], a, b, h => by simp [aGet] at h
  | (a', b') :: tl, a, b, h => by
    unfold aGet at h
    split at h
    · next heq =>
      subst heq
      cases h
      exact List.mem_cons_self _ _
    · exact List.mem_cons.mpr (Or.inr (aGet_mem tl a b h))

theorem resetTracking_targetMap (s : World) :
    (resetTracking s).targetMap = s.targetMap := by
  unfold resetTracking
  cases s.trackStack.getLast? <;> rfl

/-- Mid-run relation between the shallow run (bit regime, depth 1, marker
2) and the deep run (fallback regime, depth 31) of the same fresh
effect 0 from the pristine world: registries agree, every dep created so
far holds exactly effect 0 (newly-marked in the shallow world, unmarked
in the deep one), and effect 0's dep list is the creation order. -/
structure C9Rel (sA sB : World) : Prop where
  tm : sA.targetMap = sB.targetMap
  len : sA.depArr.length = sB.depArr.length
  depsA : ∀ d, d < sA.depArr.length → getDep sA d = ⟨[0], 0, 2⟩
  depsB : ∀ d, d < sA.depArr.length → getDep sB d = ⟨[0], 0, 0⟩
  bound : ∀ p ∈ sA.targetMap, ∀ q ∈ p.2, q.2 < sA.depArr.length
  ea : sA.effArr = sB.effArr
  e0 : 0 < sA.effArr.length
  deps0 : (getEffect sA 0).deps = List.range sA.depArr.length
  aA : sA.activeEffect = some 0
  aB : sB.activeEffect = some 0
  dA : sA.effectTrackDepth = 1
  dB : sB.effectTrackDepth = 31
  bA : sA.trackOpBit = 2
  stA : sA.shouldTrack = true
  stB : sB.shouldTrack = true

theorem getDep_only_depArr (s s' : World) (h : s.depArr = s'.depArr)
    (d : Nat) : getDep s d = getDep s' d := by
  simp [getDep, h]

theorem getEffect_only_effArr (s s' : World) (h : s.effArr = s'.effArr)
    (x : Nat) : getEffect s x = getEffect s' x := by
  simp [getEffect, h]

theorem c9rel_create_core (sA sB : World)
    (TM : List (Target × List (Key × Nat))) (h : C9Rel sA sB)
    (hTM : ∀ p ∈ TM, ∀ q ∈ p.2, q.2 < sA.depArr.length + 1) :
    C9Rel
      (trackEffects { sA with targetMap := TM,
                              depArr := sA.depArr ++ [({} : Dep)] }
        sA.depArr.length)
      (trackEffects { sB with targetMap := TM,
                              depArr := sB.depArr ++ [({} : Dep)] }
        sB.depArr.length) := by
  obtain ⟨tm, len, depsA, depsB, bound, ea, e0, deps0, aA, aB, dA, dB, bA,
    stA, stB⟩ := h
  set L := sA.depArr.length with hL
  set s1A : World := { sA with targetMap := TM,
                               depArr := sA.depArr ++ [({} : Dep)] } with hs1A
  set s1B : World := { sB with targetMap := TM,
                               depArr := sB.depArr ++ [({} : Dep)] } with hs1B
  have hgA : getDep s1A L = ({} : Dep) := by
    simp [getDep, hs1A, hL, List.getD]
  have hgB : getDep s1B L = ({} : Dep) := by
    simp [getDep, hs1B, len, List.getD]
  have eA : trackEffects s1A L = setEffect (setDep s1A L ⟨[0], 0, 2⟩) 0
      { getEffect s1A 0 with deps := (getEffect s1A 0).deps ++ [L] } := by
    unfold trackEffects
    rw [show s1A.activeEffect = some 0 from aA]
    rw [show s1A.effectTrackDepth = 1 from dA,
        show s1A.trackOpBit = 2 from bA, hgA]
    simp +decide [newTracked, wasTracked, maxMarkerBits, setAdd, setDep,
      List.set_set, getEffect]
  have eB : trackEffects s1B L = setEffect (setDep s1B L ⟨[0], 0, 0⟩) 0
      { getEffect s1B 0 with deps := (getEffect s1B 0).deps ++ [L] } := by
    unfold trackEffects
    rw [show s1B.activeEffect = some 0 from aB]
    rw [show s1B.effectTrackDepth = 31 from dB, hgB]
    simp +decide [maxMarkerBits, setAdd, setDep, List.set_set, getEffect]
  rw [show sB.depArr.length = L from len.symm]
  rw [eA, eB]
  have hlenA : (setEffect (setDep s1A L ⟨[0], 0, 2⟩) 0
      { getEffect s1A 0 with deps := (getEffect s1A 0).deps ++ [L]
      }).depArr.length = L + 1 := by
    simp [setEffect, setDep, hs1A, hL]
  have hLlt : L < s1A.depArr.length := by
    simp [hs1A, hL]
  have hLltB : L < s1B.depArr.length := by
    simp [hs1B, len]
  have hgeA : getEffect s1A 0 = getEffect sA 0 := rfl
  have hgeB : getEffect s1B 0 = getEffect sB 0 := rfl
  have hBA : getEffect sB 0 = getEffect sA 0 :=
    getEffect_only_effArr sB sA ea.symm 0
  refine ⟨rfl, ?_, ?_, ?_, ?_, ?_, ?_, ?_, aA, aB, dA, dB, bA, stA, stB⟩
  · simp only [setEffect, setDep]
    simp [hs1A, hs1B]
    exact len
  · intro d hd
    rw [hlenA] at hd
    rw [show getDep (setEffect (setDep s1A L ⟨[0], 0, 2⟩) 0 _) d =
      getDep (setDep s1A L ⟨[0], 0, 2⟩) d from rfl]
    by_cases hdd : d = L
    · subst hdd
      rw [getDep_setDep_self _ _ _ hLlt]
    · rw [getDep_setDep_ne _ _ hdd]
      have hd' : d < L := lt_of_le_of_ne (Nat.lt_succ_iff.mp hd) hdd
      rw [show getDep s1A d = getDep sA d by
        simp [getDep, hs1A, List.getD, List.getElem?_append_left (hL ▸ hd')]]
      exact depsA d hd'
  · intro d hd
    rw [hlenA] at hd
    rw [show getDep (setEffect (setDep s1B L ⟨[0], 0, 0⟩) 0 _) d =
      getDep (setDep s1B L ⟨[0], 0, 0⟩) d from rfl]
    by_cases hdd : d = L
    · subst hdd
      rw [getDep_setDep_self _ _ _ hLltB]
    · rw [getDep_setDep_ne _ _ hdd]
      have hd' : d < L := lt_of_le_of_ne (Nat.lt_succ_iff.mp hd) hdd
      have hdB : d < sB.depArr.length := len ▸ hd'
      rw [show getDep s1B d = getDep sB d by
        simp [getDep, hs1B, List.getD, List.getElem?_append_left hdB]]
      exact depsB d hd'
  · intro p hp q hq
    rw [hlenA]
    exact hTM p hp q hq
  · show (setDep s1A L ⟨[0], 0, 2⟩).effArr.set 0 _ =
      (setDep s1B L ⟨[0], 0, 0⟩).effArr.set 0 _
    rw [show (setDep s1A L ⟨[0], 0, 2⟩).effArr = sA.effArr from rfl,
        show (setDep s1B L ⟨[0], 0, 0⟩).effArr = sB.effArr from rfl, ea,
        hgeA, hgeB, hBA]
  · show 0 < (setEffect (setDep s1A L ⟨[0], 0, 2⟩) 0 _).effArr.length
    simpa [setEffect, setDep, hs1A] using e0
  · rw [hlenA]
    have h0 : (0 : Nat) < (setDep s1A L ⟨[0], 0, 2⟩).effArr.length := by
      simpa [setDep, hs1A] using e0
    rw [show getEffect (setEffect (setDep s1A L ⟨[0], 0, 2⟩) 0
        { getEffect s1A 0 with deps := (getEffect s1A 0).deps ++ [L] }) 0 =
      { getEffect s1A 0 with deps := (getEffect s1A 0).deps ++ [L] } from
      getEffect_setEffect_self _ _ _ h0]
    show (getEffect s1A 0).deps ++ [L] = _
    rw [hgeA, deps0, List.range_succ]

theorem c9rel_after_create (sA sB : World) (t : Target) (k : Key)
    (dm : List (Key × Nat)) (h : C9Rel sA sB)
    (hm : aGet sA.targetMap t = some dm) :
    C9Rel
      (trackEffects { sA with
          targetMap := aSet sA.targetMap t (aSet dm k sA.depArr.length),
          depArr := sA.depArr ++ [({} : Dep)] } sA.depArr.length)
      (trackEffects { sB with
          targetMap := aSet sB.targetMap t (aSet dm k sB.depArr.length),
          depArr := sB.depArr ++ [({} : Dep)] } sB.depArr.length) := by
  have hdm : ∀ q ∈ dm, q.2 < sA.depArr.length :=
    h.bound (t, dm) (aGet_mem _ _ _ hm)
  have hTMeq : aSet sA.targetMap t (aSet dm k sA.depArr.length) =
      aSet sB.targetMap t (aSet dm k sB.depArr.length) := by
    rw [h.tm, h.len]
  rw [hTMeq]
  refine c9rel_create_core sA sB _ h ?_
  intro p hp q hq
  rcases mem_aSet _ _ _ _ hp with hp' | hp'
  · subst hp'
    rcases mem_aSet _ _ _ _ hq with hq' | hq'
    · subst hq'
      rw [← h.len]
      exact Nat.lt_succ_self _
    · exact Nat.lt_succ_of_lt (hdm q hq')
  · rw [← h.tm] at hp'
    exact Nat.lt_succ_of_lt (h.bound p hp' q hq)

theorem c9rel_after_create_fresh (sA sB : World) (t : Target) (k : Key)
    (h : C9Rel sA sB) ( _hm : aGet sA.targetMap t = none) :
    C9Rel
      (trackEffects { sA with
          targetMap := aSet (aSet sA.targetMap t []) t
            (aSet ([] : List (Key × Nat)) k sA.depArr.length),
          depArr := sA.depArr ++ [({} : Dep)] } sA.depArr.length)
      (trackEffects { sB with
          targetMap := aSet (aSet sB.targetMap t []) t
            (aSet ([] : List (Key × Nat)) k sB.depArr.length),
          depArr := sB.depArr ++ [({} : Dep)] } sB.depArr.length) := by
  have hTMeq : aSet (aSet sA.targetMap t []) t
      (aSet ([] : List (Key × Nat)) k sA.depArr.length) =
      aSet (aSet sB.targetMap t []) t
      (aSet ([] : List (Key × Nat)) k sB.depArr.length) := by
    rw [h.tm, h.len]
  rw [hTMeq]
  refine c9rel_create_core sA sB _ h ?_
  intro p hp q hq
  rcases mem_aSet _ _ _ _ hp with hp' | hp'
  · subst hp'
    rcases mem_aSet _ _ _ _ hq with hq' | hq'
    · subst hq'
      rw [← h.len]
      exact Nat.lt_succ_self _
    · simp at hq'
  · rcases mem_aSet _ _ _ _ hp' with hp'' | hp''
    · subst hp''
      simp at hq
    · rw [← h.tm] at hp''
      exact Nat.lt_succ_of_lt (h.bound p hp'' q hq)

theorem c9_track_step (sA sB : World) (t : Target) (k : Key)
    (h : C9Rel sA sB) : C9Rel (track sA t k) (track sB t k) := by
  have hisA : isTracking sA = true := by simp [isTracking, h.stA, h.aA]
  have hisB : isTracking sB = true := by simp [isTracking, h.stB, h.aB]
  obtain ⟨tm, len, depsA, depsB, bound, ea, e0, deps0, aA, aB, dA, dB, bA,
    stA, stB⟩ := h
  unfold track
  rw [if_pos hisA, if_pos hisB]
  cases hm : aGet sA.targetMap t with
  | some dm =>
    have hmB : aGet sB.targetMap t = some dm := by rw [← tm]; exact hm
    simp only [hm, hmB, Option.getD_some]
    cases hk : aGet dm k with
    | some d =>
      simp only [hk]
      have hd : d < sA.depArr.length :=
        bound (t, dm) (aGet_mem _ _ _ hm) (k, d) (aGet_mem _ _ _ hk)
      have eA : trackEffects sA d = setDep sA d ⟨[0], 0, 2⟩ := by
        unfold trackEffects
        rw [aA]
        simp +decide [depsA d hd, bA, dA, newTracked, maxMarkerBits]
      have eB : trackEffects sB d = setDep sB d ⟨[0], 0, 0⟩ := by
        unfold trackEffects
        rw [aB]
        simp +decide [depsB d hd, dB, maxMarkerBits]
      rw [eA, eB]
      have hlen' : ∀ (w : World) (i : Nat) (q : Dep),
          (setDep w i q).depArr.length = w.depArr.length := by
        intro w i q; simp [setDep]
      refine ⟨tm, by rw [hlen', hlen', len], ?_, ?_, ?_, ea, e0, ?_, aA, aB,
        dA, dB, bA, stA, stB⟩
      · intro d' hd'
        rw [hlen'] at hd'
        by_cases hdd : d' = d
        · subst hdd
          rw [getDep_setDep_self _ _ _ hd']
        · rw [getDep_setDep_ne _ _ hdd]
          exact depsA d' hd'
      · intro d' hd'
        rw [hlen'] at hd'
        by_cases hdd : d' = d
        · subst hdd
          rw [getDep_setDep_self _ _ _ (len ▸ hd')]
        · rw [getDep_setDep_ne _ _ hdd]
          exact depsB d' hd'
      · intro p hp q hq
        rw [hlen']
        exact bound p hp q hq
      · show (getEffect sA 0).deps = _
        rw [deps0, hlen']
    | none =>
      simp only [hk]
      exact c9rel_after_create sA sB t k dm
        ⟨tm, len, depsA, depsB, bound, ea, e0, deps0, aA, aB, dA, dB, bA,
          stA, stB⟩ hm
  | none =>
    have hmB : aGet sB.targetMap t = none := by rw [← tm]; exact hm
    simp only [hm, hmB, Option.getD_none, aGet]
    exact c9rel_after_create_fresh sA sB t k
      ⟨tm, len, depsA, depsB, bound, ea, e0, deps0, aA, aB, dA, dB, bA,
        stA, stB⟩ hm


theorem c9_fold (rs : List (Target × Key)) (sA sB : World) (h : C9Rel sA sB) :
    C9Rel (rs.foldl (fun s r => track s r.1 r.2) sA)
      (rs.foldl (fun s r => track s r.1 r.2) sB) := by
  induction rs generalizing sA sB with
  | nil => exact h
  | cons hd tl ih => exact ih _ _ (c9_track_step sA sB hd.1 hd.2 h)

theorem finalizeStep_fold_registry (e bit : Nat) (ds : List Nat)
    (acc : World × List Nat) :
    (ds.foldl (finalizeStep e bit) acc).1.targetMap = acc.1.targetMap ∧
    (ds.foldl (finalizeStep e bit) acc).1.effArr = acc.1.effArr ∧
    (ds.foldl (finalizeStep e bit) acc).1.depArr.length =
      acc.1.depArr.length := by
  induction ds generalizing acc with
  | nil => exact ⟨rfl, rfl, rfl⟩
  | cons hd tl ih =>
    simp only [List.foldl_cons]
    obtain ⟨i1, i2, i3⟩ := ih (finalizeStep e bit acc hd)
    refine ⟨i1.trans rfl, i2.trans rfl, i3.trans ?_⟩
    show (setDep acc.1 hd _).depArr.length = _
    simp [setDep]

theorem c9_finalize_fold (ds : List Nat) (acc : World × List Nat)
    (h : ∀ d ∈ ds, getDep acc.1 d = ⟨[0], 0, 2⟩) (hnd : ds.Nodup) :
    ∀ d', getDep (ds.foldl (finalizeStep 0 2) acc).1 d' =
      if d' ∈ ds then ⟨[0], 0, 0⟩ else getDep acc.1 d' := by
  induction ds generalizing acc with
  | nil => intro d'; simp
  | cons hd tl ih =>
    intro d'
    simp only [List.foldl_cons]
    have hhd : getDep acc.1 hd = ⟨[0], 0, 2⟩ := h hd (List.mem_cons_self _ _)
    have hhdlt : hd < acc.1.depArr.length := by
      by_contra hc
      rw [getDep_oob _ (not_lt.mp hc)] at hhd
      cases hhd
    have hstep : finalizeStep 0 2 acc hd =
        (setDep acc.1 hd ⟨[0], 0, 0⟩, acc.2 ++ [hd]) := by
      unfold finalizeStep
      rw [hhd]
      simp +decide [wasTracked, newTracked, clearBit]
    rw [hstep]
    have htl : ∀ d ∈ tl, getDep (setDep acc.1 hd ⟨[0], 0, 0⟩) d =
        ⟨[0], 0, 2⟩ := by
      intro d hd'
      have hne : d ≠ hd := by
        rintro rfl
        exact (List.nodup_cons.mp hnd).1 hd'
      rw [getDep_setDep_ne _ _ hne]
      exact h d (List.mem_cons.mpr (Or.inr hd'))
    rw [ih _ htl (List.nodup_cons.mp hnd).2 d']
    by_cases hdtl : d' ∈ tl
    · simp [hdtl, List.mem_cons.mpr (Or.inr hdtl)]
    · by_cases hdhd : d' = hd
      · subst hdhd
        simp [hdtl, getDep_setDep_self _ _ _ hhdlt]
      · have : d' ∉ hd :: tl := by
          simp [hdtl, hdhd]
        simp [hdtl, this, getDep_setDep_ne _ _ hdhd]

theorem runEpilogue_registry_deep (s : World) (e : Nat)
    (hd : ¬ s.effectTrackDepth ≤ maxMarkerBits) :
    (runEpilogue s e).targetMap = s.targetMap ∧
    (runEpilogue s e).depArr = s.depArr ∧
    (runEpilogue s e).effArr = s.effArr := by
  unfold runEpilogue
  dsimp only
  rw [if_neg hd]
  exact ⟨(resetTracking_targetMap _).trans rfl,
    (resetTracking_depArr _).trans rfl, (resetTracking_effArr _).trans rfl⟩

theorem runEpilogue_registry_shallow (s : World) (e : Nat)
    (hd : s.effectTrackDepth ≤ maxMarkerBits) :
    (runEpilogue s e).targetMap = (finalizeDepMarkers s e).targetMap ∧
    (runEpilogue s e).depArr = (finalizeDepMarkers s e).depArr ∧
    (runEpilogue s e).effArr = (finalizeDepMarkers s e).effArr := by
  unfold runEpilogue
  dsimp only
  rw [if_pos hd]
  exact ⟨(resetTracking_targetMap _).trans rfl,
    (resetTracking_depArr _).trans rfl, (resetTracking_effArr _).trans rfl⟩

/-- The pristine world holding one lazily-created effect over `rs`. -/
def c9Base (rs : List (Target × Key)) : World :=
  (mkEffect initialWorld (.plain { reads := rs }) { lazy := true }).1

/-- The same world, but with the global recursion context already at the
maximum marker depth, so that the next `run()` enters depth 31 and the
bit machinery is skipped in favor of the membership fallback. -/
def c9Deep (rs : List (Target × Key)) : World :=
  { c9Base rs with effectTrackDepth := 30, trackOpBit := 1 <<< 30 }


theorem c9_finalize_fold_kept (ds : List Nat) (acc : World × List Nat)
    (h : ∀ d ∈ ds, getDep acc.1 d = ⟨[0], 0, 2⟩) (hnd : ds.Nodup) :
    (ds.foldl (finalizeStep 0 2) acc).2 = acc.2 ++ ds := by
  induction ds generalizing acc with
  | nil => simp
  | cons hd tl ih =>
    simp only [List.foldl_cons]
    have hhd : getDep acc.1 hd = ⟨[0], 0, 2⟩ := h hd (List.mem_cons_self _ _)
    have hstep : finalizeStep 0 2 acc hd =
        (setDep acc.1 hd ⟨[0], 0, 0⟩, acc.2 ++ [hd]) := by
      unfold finalizeStep
      rw [hhd]
      simp +decide [wasTracked, newTracked, clearBit]
    rw [hstep]
    have htl : ∀ d ∈ tl, getDep (setDep acc.1 hd ⟨[0], 0, 0⟩) d =
        ⟨[0], 0, 2⟩ := by
      intro d hd'
      have hne : d ≠ hd := by
        rintro rfl
        exact (List.nodup_cons.mp hnd).1 hd'
      rw [getDep_setDep_ne _ _ hne]
      exact h d (List.mem_cons.mpr (Or.inr hd'))
    rw [ih _ htl (List.nodup_cons.mp hnd).2]
    simp

theorem setEffect_self_getEffect (s : World) (e : Nat) (x : Nat) :
    getEffect (setEffect s e (getEffect s e)) x = getEffect s x := by
  by_cases hx : x = e
  · subst hx
    by_cases hlen : x < s.effArr.length
    · exact getEffect_setEffect_self _ _ _ hlen
    · rw [setEffect_oob _ _ _ (not_lt.mp hlen)]
  · exact getEffect_setEffect_ne _ _ hx

theorem c9_finalize_result (s : World) (hb : s.trackOpBit = 2)
    (hdeps : (getEffect s 0).deps = List.range s.depArr.length)
    (hdval : ∀ d, d < s.depArr.length → getDep s d = ⟨[0], 0, 2⟩) :
    (finalizeDepMarkers s 0).targetMap = s.targetMap ∧
    (∀ d, getDep (finalizeDepMarkers s 0) d =
      if d < s.depArr.length then ⟨[0], 0, 0⟩ else ({} : Dep)) ∧
    (∀ x, getEffect (finalizeDepMarkers s 0) x = getEffect s x) := by
  have hmem : ∀ d ∈ List.range s.depArr.length, getDep s d = ⟨[0], 0, 2⟩ :=
    fun d hd => hdval d (List.mem_range.mp hd)
  have hnd : (List.range s.depArr.length).Nodup := List.nodup_range _
  unfold finalizeDepMarkers
  dsimp only
  rw [hb, hdeps]
  obtain ⟨g1, g2, g3⟩ := finalizeStep_fold_registry 0 2
    (List.range s.depArr.length) (s, [])
  have hkept := c9_finalize_fold_kept (List.range s.depArr.length) (s, [])
    hmem hnd
  have hgetF : getEffect ((List.range s.depArr.length).foldl
      (finalizeStep 0 2) (s, [])).1 0 = getEffect s 0 :=
    getEffect_only_effArr _ _ g2 0
  have hobj : ({ getEffect ((List.range s.depArr.length).foldl
      (finalizeStep 0 2) (s, [])).1 0 with
        deps := ((List.range s.depArr.length).foldl
          (finalizeStep 0 2) (s, [])).2 } : EffectObj) =
      getEffect ((List.range s.depArr.length).foldl
        (finalizeStep 0 2) (s, [])).1 0 := by
    rw [hkept, hgetF]
    simp only [List.nil_append]
    rw [← hdeps]
  rw [hobj]
  refine ⟨?_, ?_, ?_⟩
  · show ((List.range s.depArr.length).foldl
      (finalizeStep 0 2) (s, [])).1.targetMap = _
    exact g1
  · intro d
    show getDep ((List.range s.depArr.length).foldl
      (finalizeStep 0 2) (s, [])).1 d = _
    rw [c9_finalize_fold _ _ hmem hnd d]
    by_cases hd : d < s.depArr.length
    · simp [hd, List.mem_range]
    · rw [if_neg (by simpa [List.mem_range] using hd), if_neg hd,
        getDep_oob _ (not_lt.mp hd)]
  · intro x
    rw [setEffect_self_getEffect]
    exact getEffect_only_effArr _ _ g2 x

/-- **C9.** Depth-fallback equivalence: running a fresh effect over an
arbitrary list of reads once within the bit-marker regime (depth 1) and
once past the maximum marker depth (depth 31, where `trackEffects`
decides additions by direct set membership instead of the bit markers)
produces exactly the same dependency state — the same registry, the same
dep sets, and the same effect records. -/
theorem C9_depth_fallback_equivalence (rs : List (Target × Key)) :
    (runE (c9Base rs) 0).1.targetMap = (runE (c9Deep rs) 0).1.targetMap ∧
    (∀ d, getDep (runE (c9Base rs) 0).1 d = getDep (runE (c9Deep rs) 0).1 d) ∧
    (∀ x, getEffect (runE (c9Base rs) 0).1 x =
      getEffect (runE (c9Deep rs) 0).1 x) := by
  rw [runE_active_eq (c9Base rs) 0 rfl (List.not_mem_nil 0),
      runE_active_eq (c9Deep rs) 0 rfl (List.not_mem_nil 0)]
  have hpA : runProlog
      { c9Base rs with runLog := (c9Base rs).runLog ++ [0] } 0 =
      ({ effArr := [{ fn := { reads := rs }, active := true }],
         effectStack := [0], activeEffect := some 0, trackStack := [true],
         effectTrackDepth := 1, trackOpBit := 2,
         runLog := [0], fnLog := [0] } : World) := rfl
  have hpB : runProlog
      { c9Deep rs with runLog := (c9Deep rs).runLog ++ [0] } 0 =
      ({ effArr := [{ fn := { reads := rs }, active := true }],
         effectStack := [0], activeEffect := some 0, trackStack := [true],
         effectTrackDepth := 31, trackOpBit := 1 <<< 31,
         runLog := [0], fnLog := [0] } : World) := rfl
  rw [hpA, hpB]
  have hfnA : (getEffect (c9Base rs) 0).fn = ({ reads := rs } : Body) := rfl
  have hfnB : (getEffect (c9Deep rs) 0).fn = ({ reads := rs } : Body) := rfl
  rw [hfnA, hfnB]
  have hexec : ∀ (w : World), (execBody w ({ reads := rs } : Body)).1 =
      rs.foldl (fun s r => track s r.1 r.2) w := fun w => rfl
  rw [hexec, hexec]
  have hrel0 : C9Rel
      ({ effArr := [{ fn := { reads := rs }, active := true }],
         effectStack := [0], activeEffect := some 0, trackStack := [true],
         effectTrackDepth := 1, trackOpBit := 2,
         runLog := [0], fnLog := [0] } : World)
      ({ effArr := [{ fn := { reads := rs }, active := true }],
         effectStack := [0], activeEffect := some 0, trackStack := [true],
         effectTrackDepth := 31, trackOpBit := 1 <<< 31,
         runLog := [0], fnLog := [0] } : World) :=
    ⟨rfl, rfl, fun d hd => absurd hd (Nat.not_lt_zero d),
     fun d hd => absurd hd (Nat.not_lt_zero d),
     fun p hp => absurd hp (List.not_mem_nil p), rfl, Nat.one_pos, rfl, rfl,
     rfl, rfl, rfl, rfl, rfl, rfl⟩
  have hrel := c9_fold rs _ _ hrel0
  set MA := rs.foldl (fun s r => track s r.1 r.2)
    ({ effArr := [{ fn := { reads := rs }, active := true }],
       effectStack := [0], activeEffect := some 0, trackStack := [true],
       effectTrackDepth := 1, trackOpBit := 2,
       runLog := [0], fnLog := [0] } : World) with hMA
  set MB := rs.foldl (fun s r => track s r.1 r.2)
    ({ effArr := [{ fn := { reads := rs }, active := true }],
       effectStack := [0], activeEffect := some 0, trackStack := [true],
       effectTrackDepth := 31, trackOpBit := 1 <<< 31,
       runLog := [0], fnLog := [0] } : World) with hMB
  have hshallow : MA.effectTrackDepth ≤ maxMarkerBits := by
    rw [hrel.dA]; decide
  have hdeep : ¬ MB.effectTrackDepth ≤ maxMarkerBits := by
    rw [hrel.dB]; decide
  obtain ⟨ra1, ra2, ra3⟩ := runEpilogue_registry_shallow MA 0 hshallow
  obtain ⟨rb1, rb2, rb3⟩ := runEpilogue_registry_deep MB 0 hdeep
  obtain ⟨f1, f2, f3⟩ := c9_finalize_result MA hrel.bA hrel.deps0 hrel.depsA
  refine ⟨?_, ?_, ?_⟩
  · rw [ra1, rb1, f1]
    exact hrel.tm
  · intro d
    rw [getDep_only_depArr _ _ ra2 d, getDep_only_depArr _ _ rb2 d, f2 d]
    by_cases hd : d < MA.depArr.length
    · rw [if_pos hd, hrel.depsB d hd]
    · rw [if_neg hd, getDep_oob _ (not_lt.mp (hrel.len ▸ hd))]
  · intro x
    rw [getEffect_only_effArr _ _ ra3 x, getEffect_only_effArr _ _ rb3 x,
      f3 x]
    exact getEffect_only_effArr _ _ hrel.ea x


/-! ## C4: `stop()` is terminal and idempotent -/

theorem cleanup_fold_getEffect (ds : List Nat) (e : Nat) (s : World)
    (x : Nat) :
    getEffect (ds.foldl (fun s d => setDep s d
      { getDep s d with effects := setDelete (getDep s d).effects e }) s) x =
      getEffect s x := by
  induction ds generalizing s with
  | nil => rfl
  | cons hd tl ih => exact (ih _).trans rfl

theorem cleanup_fold_effArr (ds : List Nat) (e : Nat) (s : World) :
    (ds.foldl (fun s d => setDep s d
      { getDep s d with effects := setDelete (getDep s d).effects e }) s).effArr
      = s.effArr := by
  induction ds generalizing s with
  | nil => rfl
  | cons hd tl ih => exact (ih _).trans rfl

theorem cleanup_fold_mem (ds : List Nat) (e : Nat) (s : World) (d : Nat) :
    e ∈ (getDep (ds.foldl (fun s d => setDep s d
      { getDep s d with effects := setDelete (getDep s d).effects e }) s)
      d).effects →
    e ∈ (getDep s d).effects ∧ d ∉ ds := by
  induction ds generalizing s with
  | nil => exact fun h => ⟨h, List.not_mem_nil d⟩
  | cons hd tl ih =>
    intro hmem
    simp only [List.foldl_cons] at hmem
    obtain ⟨h1, h2⟩ := ih _ hmem
    by_cases hdd : d = hd
    · subst hdd
      exfalso
      by_cases hlen : d < s.depArr.length
      · rw [getDep_setDep_self _ _ _ hlen] at h1
        simp [mem_setDelete] at h1
      · rw [getDep_setDep_oob _ _ _ (not_lt.mp hlen),
          getDep_oob _ (not_lt.mp hlen)] at h1
        simp at h1
    · rw [getDep_setDep_ne _ _ hdd] at h1
      exact ⟨h1, by simp [hdd, h2]⟩

theorem cleanupEffect_meta (s : World) (e : Nat) :
    SameMeta s (cleanupEffect s e) := by
  unfold cleanupEffect
  refine sameMeta_trans ?_ (setEffect_deps_meta _ e [])
  generalize (getEffect s e).deps = ds
  induction ds generalizing s with
  | nil => exact sameMeta_refl _
  | cons hd tl ih =>
    exact sameMeta_trans (fun x => ⟨rfl, rfl, rfl, rfl, rfl⟩) (ih _)

theorem cleanup_getEffect_self (s : World) (e : Nat)
    (he : e < s.effArr.length) :
    getEffect (cleanupEffect s e) e = { getEffect s e with deps := [] } := by
  unfold cleanupEffect
  have hF := cleanup_fold_getEffect (getEffect s e).deps e s e
  have hFe : ((getEffect s e).deps.foldl (fun s d => setDep s d
      { getDep s d with effects := setDelete (getDep s d).effects e })
      s).effArr = s.effArr := cleanup_fold_effArr _ _ _
  rw [getEffect_setEffect_self _ _ _ (by rw [hFe]; exact he), hF]

theorem stopE_inactive (s : World) (e : Nat)
    (h : (getEffect s e).active = false) : stopE s e = s := by
  unfold stopE
  rw [if_neg (by simp [h])]

theorem runE_runLog (s : World) (x : Nat) :
    (runE s x).1.runLog = s.runLog ++ [x] := by
  by_cases hact : (getEffect s x).active = true
  · by_cases hst : x ∈ s.effectStack
    · have hg : getEffect { s with runLog := s.runLog ++ [x] } x = getEffect s x := rfl
      have hmem : x ∈ ({ s with runLog := s.runLog ++ [x] } : World).effectStack := hst
      have heq : runE s x = ({ s with runLog := s.runLog ++ [x] }, .ok none) := by
        unfold runE
        rw [if_neg (by rw [hg, hact]; simp), if_pos hmem]
      rw [heq]

    · exact (runE_active_shape s x hact hst).2.2.2.2.2.2.2.1
  · have hact' : (getEffect s x).active = false := by
      simpa using hact
    have hg : getEffect { s with runLog := s.runLog ++ [x] } x = getEffect s x := rfl
    have heq : (runE s x).1 = (execBody { s with runLog := s.runLog ++ [x], fnLog := s.fnLog ++ [x] } (getEffect s x).fn).1 := by
      unfold runE
      rw [if_pos (by rw [hg, hact']; rfl)]
      rfl
    rw [heq]
    exact (execBody_ctx _ _).2.2.2.2.2.2.1.trans rfl

theorem trigStep_count_ne (s : World) (x e : Nat) (hx : x ≠ e) :
    (trigStep s x).1.runLog.count e = s.runLog.count e := by
  unfold trigStep
  split
  · split
    · rfl
    · show ((runE s x).1, _).1.runLog.count e = _
      rw [runE_runLog]
      simp [List.count_append, List.count_cons, Ne.symm hx]
  · rfl

theorem triggerEffects_count_notin (L : List Nat) (s : World) (e : Nat)
    (hL : e ∉ L) :
    (triggerEffects s L).1.runLog.count e = s.runLog.count e := by
  induction L generalizing s with
  | nil => rfl
  | cons hd tl ih =>
    have hhd : hd ≠ e := fun h => hL (h ▸ List.mem_cons_self _ _)
    have htl : e ∉ tl := fun h => hL (List.mem_cons.mpr (Or.inr h))
    unfold triggerEffects
    split
    · next s' a heq =>
      have hs' : s' = (trigStep s hd).1 := by rw [heq]
      subst hs'
      rw [ih _ htl, trigStep_count_ne s hd e hhd]
    · next s' err heq =>
      have hs' : s' = (trigStep s hd).1 := by rw [heq]
      subst hs'
      exact trigStep_count_ne s hd e hhd

theorem trigger_count_notin (s : World) (e : Nat) (t : Target)
    (ty : TrigType) (k : Option Key) (nv : Int)
    (h : ∀ d, e ∉ (getDep s d).effects) :
    (trigger s t ty k nv).1.runLog.count e = s.runLog.count e := by
  unfold trigger
  split
  · rfl
  · split
    · rfl
    · split
      · split
        · apply triggerEffects_count_notin
          apply h
        · rfl
      · refine triggerEffects_count_notin _ _ _ ?_
        intro hmem
        rw [mem_setDedup] at hmem
        rcases (mem_collectEffects_aux s _ [] e).mp hmem with h' | ⟨d, _, hd⟩
        · simp at h'
        · exact h d hd

theorem track_not_tracking (s : World) (t : Target) (k : Key)
    (h : isTracking s = false) : track s t k = s := by
  unfold track
  rw [if_neg (by simp [h])]

theorem foldl_track_notracking (rs : List (Target × Key)) (s : World)
    (h : isTracking s = false) :
    rs.foldl (fun s r => track s r.1 r.2) s = s := by
  induction rs with
  | nil => rfl
  | cons hd tl ih =>
    simp only [List.foldl_cons]
    rw [track_not_tracking _ _ _ h, ih]

theorem stopE_activeEffect (s : World) (e : Nat) :
    (stopE s e).activeEffect = s.activeEffect := by
  unfold stopE
  simp only []
  split
  · split
    · exact (cleanupEffect_ctx s e).2.1
    · exact (cleanupEffect_ctx s e).2.1
  · rfl

theorem stopE_runLog (s : World) (e : Nat) :
    (stopE s e).runLog = s.runLog := by
  unfold stopE
  simp only []
  split
  · split
    · exact (cleanupEffect_ctx s e).2.2.2.2.2.2.1
    · exact (cleanupEffect_ctx s e).2.2.2.2.2.2.1
  · rfl


theorem stopE_shape (s : World) (e : Nat)
    (hact : (getEffect s e).active = true) :
    stopE s e = setEffect
        (if (getEffect (cleanupEffect s e) e).hasOnStop = true
          then { cleanupEffect s e with
                  stopLog := (cleanupEffect s e).stopLog ++ [e] }
          else cleanupEffect s e) e
        { getEffect (cleanupEffect s e) e with active := false } := by
  unfold stopE
  rw [if_pos hact]
  simp only []
  by_cases hOn : (getEffect (cleanupEffect s e) e).hasOnStop = true
  · rw [if_pos hOn]
    rfl
  · rw [if_neg hOn]

theorem stopE_in_range (s : World) (e : Nat)
    (hact : (getEffect s e).active = true) : e < s.effArr.length := by
  by_contra hlen
  rw [getEffect_oob s (not_lt.mp hlen)] at hact
  exact absurd hact (by decide)

theorem cleanup_effArr_length (s : World) (e : Nat) :
    (cleanupEffect s e).effArr.length = s.effArr.length := by
  unfold cleanupEffect
  simp [setEffect, cleanup_fold_effArr]

theorem stopE_getEffect_self (s : World) (e : Nat)
    (hact : (getEffect s e).active = true) :
    getEffect (stopE s e) e =
      { getEffect s e with deps := [], active := false } := by
  have he := stopE_in_range s e hact
  have hcl : e < (cleanupEffect s e).effArr.length := by
    rw [cleanup_effArr_length s e]
    exact he
  have hcl2 : e < ({ cleanupEffect s e with stopLog := (cleanupEffect s e).stopLog ++ [e] } : World).effArr.length := hcl
  rw [stopE_shape s e hact]
  by_cases hOn : (getEffect (cleanupEffect s e) e).hasOnStop = true
  · rw [if_pos hOn, getEffect_setEffect_self _ _ _ hcl2,
      cleanup_getEffect_self s e he]
  · rw [if_neg hOn, getEffect_setEffect_self _ _ _ hcl,
      cleanup_getEffect_self s e he]

theorem stopE_stopLog (s : World) (e : Nat)
    (hact : (getEffect s e).active = true) :
    (stopE s e).stopLog = s.stopLog ++
      (if (getEffect s e).hasOnStop then [e] else []) := by
  have hOnEq : (getEffect (cleanupEffect s e) e).hasOnStop =
      (getEffect s e).hasOnStop := (cleanupEffect_meta s e e).2.2.2.2
  have hSL : (cleanupEffect s e).stopLog = s.stopLog :=
    (cleanupEffect_ctx s e).2.2.2.2.2.2.2.2.2
  rw [stopE_shape s e hact]
  by_cases hOn : (getEffect s e).hasOnStop = true
  · rw [if_pos (hOnEq.trans hOn), if_pos hOn]
    show (cleanupEffect s e).stopLog ++ [e] = s.stopLog ++ [e]
    rw [hSL]
  · rw [if_neg (fun h => hOn (hOnEq.symm.trans h)), if_neg hOn]
    show (cleanupEffect s e).stopLog = s.stopLog ++ []
    rw [hSL, List.append_nil]

theorem stopE_notin (s : World) (e : Nat)
    (hact : (getEffect s e).active = true)
    (hsym : ∀ d, e ∈ (getDep s d).effects → d ∈ (getEffect s e).deps) :
    ∀ d, e ∉ (getDep (stopE s e) d).effects := by
  intro d hmem
  rw [stopE_shape s e hact, getDep_setEffect] at hmem
  have hmem' : e ∈ (getDep ((getEffect s e).deps.foldl (fun s d => setDep s d
      { getDep s d with effects := setDelete (getDep s d).effects e }) s)
      d).effects := by
    by_cases hOn : (getEffect (cleanupEffect s e) e).hasOnStop = true
    · rw [if_pos hOn] at hmem
      rw [show getDep { cleanupEffect s e with
          stopLog := (cleanupEffect s e).stopLog ++ [e] } d =
          getDep (cleanupEffect s e) d from rfl] at hmem
      unfold cleanupEffect at hmem
      rwa [getDep_setEffect] at hmem
    · rw [if_neg hOn] at hmem
      unfold cleanupEffect at hmem
      rwa [getDep_setEffect] at hmem
  obtain ⟨h1, h2⟩ := cleanup_fold_mem _ e s d hmem'
  exact h2 (hsym d h1)

theorem runE_inactive (s : World) (x : Nat)
    (hact : (getEffect s x).active = false) :
    runE s x = ((execBody { s with runLog := s.runLog ++ [x], fnLog := s.fnLog ++ [x] } (getEffect s x).fn).1,
      ((execBody { s with runLog := s.runLog ++ [x], fnLog := s.fnLog ++ [x] } (getEffect s x).fn).2).map some) := by
  have hg : getEffect { s with runLog := s.runLog ++ [x] } x = getEffect s x := rfl
  unfold runE
  rw [if_pos (by rw [hg, hact]; rfl)]
  rfl


/-- A tiny concrete world for exercising `stop()`: effect 0 is active,
carries an `onStop` callback, and is registered in dep 0, filed under key
`"a"` of a plain container. -/
def c4W : World :=
  { initialWorld with
      targetMap := [(⟨0, .plain⟩, [(Key.plainStr "a", 0)])],
      depArr := [{ effects := [0] }],
      effArr := [{ fn := {}, active := true, deps := [0], hasOnStop := true }] }

/-- **C4.** `stop()` is terminal and idempotent: stopping an active effect
`e` (whose bookkeeping is symmetric towards it) empties its deps list,
deactivates it, fires the optional `onStop` callback, and removes `e` from
every dep set; a second `stop()` is a no-op; afterwards no `trigger` on any
target/key ever runs `e` again; and a direct `run()` of the stopped effect
(outside any other effect) still executes the wrapped computation and
returns its result with no tracking side effects on the registry. -/
theorem C4_stop_terminal_idempotent (s : World) (e : Nat)
    (hact : (getEffect s e).active = true)
    (hsym : ∀ d, e ∈ (getDep s d).effects → d ∈ (getEffect s e).deps) :
    (getEffect (stopE s e) e).deps = [] ∧
    (getEffect (stopE s e) e).active = false ∧
    (stopE s e).stopLog = s.stopLog ++
      (if (getEffect s e).hasOnStop then [e] else []) ∧
    (∀ d, e ∉ (getDep (stopE s e) d).effects) ∧
    stopE (stopE s e) e = stopE s e ∧
    (∀ t ty k nv, (trigger (stopE s e) t ty k nv).1.runLog.count e =
      s.runLog.count e) ∧
    (s.activeEffect = none →
      (runE (stopE s e) e).2 = (body_result s e).map some ∧
      (runE (stopE s e) e).1.fnLog = (stopE s e).fnLog ++ [e] ∧
      (runE (stopE s e) e).1.targetMap = (stopE s e).targetMap ∧
      (runE (stopE s e) e).1.depArr = (stopE s e).depArr ∧
      (runE (stopE s e) e).1.effArr = (stopE s e).effArr) := by
  have hge := stopE_getEffect_self s e hact
  have hinact : (getEffect (stopE s e) e).active = false := by rw [hge]
  have hnotin := stopE_notin s e hact hsym
  refine ⟨by rw [hge], hinact, stopE_stopLog s e hact, hnotin,
    stopE_inactive _ _ hinact, ?_, ?_⟩
  · intro t ty k nv
    rw [trigger_count_notin _ e t ty k nv hnotin, stopE_runLog]
  · intro hNone
    have haeR : (stopE s e).activeEffect = none := by
      rw [stopE_activeEffect]
      exact hNone
    have hR := runE_inactive (stopE s e) e hinact
    have hTrk : isTracking ({ stopE s e with runLog := (stopE s e).runLog ++ [e], fnLog := (stopE s e).fnLog ++ [e] } : World) = false := by
      simp [isTracking, haeR]
    have hfold : execBody { stopE s e with runLog := (stopE s e).runLog ++ [e], fnLog := (stopE s e).fnLog ++ [e] } (getEffect (stopE s e) e).fn =
        ({ stopE s e with runLog := (stopE s e).runLog ++ [e], fnLog := (stopE s e).fnLog ++ [e] },
          if (getEffect (stopE s e) e).fn.throws then .error ()
          else .ok (getEffect (stopE s e) e).fn.ret) := by
      unfold execBody
      simp only []
      rw [foldl_track_notracking _ _ hTrk]
    have hfn : (getEffect (stopE s e) e).fn = (getEffect s e).fn := by
      rw [hge]
    refine ⟨?_, ?_, ?_, ?_, ?_⟩
    · rw [hR]
      show ((execBody _ _).2).map some = _
      rw [hfold, hfn]
      rfl
    · rw [hR]
      show ((execBody _ _).1).fnLog = _
      rw [hfold]
    · rw [hR]
      show ((execBody _ _).1).targetMap = _
      rw [hfold]
    · rw [hR]
      show ((execBody _ _).1).depArr = _
      rw [hfold]
    · rw [hR]
      show ((execBody _ _).1).effArr = _
      rw [hfold]

/-- Closed witness for C4 at the concrete world `c4W`, effect 0. -/
theorem C4_witness :
    (getEffect (stopE c4W 0) 0).deps = [] ∧
    (getEffect (stopE c4W 0) 0).active = false ∧
    (stopE c4W 0).stopLog = c4W.stopLog ++
      (if (getEffect c4W 0).hasOnStop then [0] else []) ∧
    (∀ d, 0 ∉ (getDep (stopE c4W 0) d).effects) ∧
    stopE (stopE c4W 0) 0 = stopE c4W 0 ∧
    (∀ t ty k nv, (trigger (stopE c4W 0) t ty k nv).1.runLog.count 0 =
      c4W.runLog.count 0) ∧
    (c4W.activeEffect = none →
      (runE (stopE c4W 0) 0).2 = (body_result c4W 0).map some ∧
      (runE (stopE c4W 0) 0).1.fnLog = (stopE c4W 0).fnLog ++ [0] ∧
      (runE (stopE c4W 0) 0).1.targetMap = (stopE c4W 0).targetMap ∧
      (runE (stopE c4W 0) 0).1.depArr = (stopE c4W 0).depArr ∧
      (runE (stopE c4W 0) 0).1.effArr = (stopE c4W 0).effArr) := by
  refine C4_stop_terminal_idempotent c4W 0 (by decide) ?_
  intro d hd
  match d with
  | 0 => decide
  | Nat.succ n =>
    rw [getDep_oob c4W (show c4W.depArr.length ≤ n + 1 by
      change 1 ≤ n + 1
      exact Nat.succ_le_succ (Nat.zero_le n))] at hd
    simp at hd


/-! ## C2: the symmetric-bookkeeping invariant -/

theorem aGet_aSet_self {α β : Type} [DecidableEq α] :
    ∀ (l : List (α × β)) (a : α) (b : β), aGet (aSet l a b) a = some b
  | [], a, b => by simp [aSet, aGet]
  | (a0, b0) :: tl, a, b => by
    unfold aSet
    split
    · simp [aGet]
    · next h =>
      unfold aGet
      rw [if_neg h]
      exact aGet_aSet_self tl a b

theorem aGet_aSet_ne {α β : Type} [DecidableEq α] :
    ∀ (l : List (α × β)) (a : α) (b : β) (x : α), x ≠ a →
      aGet (aSet l a b) x = aGet l x
  | [], a, b, x, h => by
    show aGet [(a, b)] x = aGet ([] : List (α × β)) x
    unfold aGet
    rw [if_neg (fun hh => h hh.symm)]
    rfl
  | (a0, b0) :: tl, a, b, x, h => by
    unfold aSet
    split
    · next he =>
      unfold aGet
      rw [he, if_neg (fun hh => h hh.symm), if_neg (fun hh => h hh.symm)]
    · next he =>
      unfold aGet
      by_cases h2 : a0 = x
      · rw [if_pos h2, if_pos h2]
      · rw [if_neg h2, if_neg h2]
        exact aGet_aSet_ne tl a b x h

theorem setDep_getDep_same (s : World) (d : Nat) (d' : Nat) :
    getDep (setDep s d (getDep s d)) d' = getDep s d' := by
  by_cases hdd : d' = d
  · subst hdd
    by_cases h : d' < s.depArr.length
    · rw [getDep_setDep_self _ _ _ h]
    · rw [getDep_setDep_oob _ _ _ (not_lt.mp h)]
  · rw [getDep_setDep_ne _ _ hdd]

theorem setDep_depLen (s : World) (d : Nat) (dep : Dep) :
    (setDep s d dep).depArr.length = s.depArr.length := by
  simp [setDep]

theorem setEffect_effLen (s : World) (e : Nat) (o : EffectObj) :
    (setEffect s e o).effArr.length = s.effArr.length := by
  simp [setEffect]

theorem nodup_snoc {l : List Nat} {x : Nat} (h : l.Nodup) (hx : x ∉ l) :
    (l ++ [x]).Nodup := by
  rw [List.nodup_append]
  exact ⟨h, List.nodup_singleton x,
    fun a ha hax => hx ((List.mem_singleton.mp hax) ▸ ha)⟩

/-- The quiescent well-formedness invariant of the engine state, holding
between any two top-level operations: no effect is running, the depth and
bit marker are at rest, every dep marker is clear, the registry is
duplicate-free with in-range ids, and — the heart of the claim — the
bookkeeping is symmetric. -/
structure Inv (s : World) : Prop where
  qActive : s.activeEffect = none
  qStack : s.effectStack = []
  qDepth : s.effectTrackDepth = 0
  qBit : s.trackOpBit = 1
  qTrack : s.trackStack = []
  qShould : s.shouldTrack = true
  wZero : ∀ d, (getDep s d).w = 0
  nZero : ∀ d, (getDep s d).n = 0
  effNodup : ∀ d, (getDep s d).effects.Nodup
  depsNodup : ∀ e, (getEffect s e).deps.Nodup
  effValid : ∀ d e, e ∈ (getDep s d).effects → e < s.effArr.length
  depValid : ∀ e d, d ∈ (getEffect s e).deps → d < s.depArr.length
  tmValid : ∀ t dm k d, aGet s.targetMap t = some dm →
    aGet dm k = some d → d < s.depArr.length
  sym : ∀ d e, e ∈ (getDep s d).effects ↔ d ∈ (getEffect s e).deps

/-- The mid-run invariant, holding from the end of `run()`'s prologue
to the start of its `finally` epilogue while effect `a` executes at depth
1 (bit marker 2): deps carry a marker bit only if they sit on `a`'s dep
list, every dep on that list is marked, and symmetry persists throughout
the body. -/
structure RInv (s : World) (a : Nat) : Prop where
  mActive : s.activeEffect = some a
  mStack : s.effectStack = [a]
  mDepth : s.effectTrackDepth = 1
  mBit : s.trackOpBit = 2
  mTrack : s.trackStack = [true]
  mShould : s.shouldTrack = true
  mABound : a < s.effArr.length
  wBits : ∀ d, (getDep s d).w = 0 ∨
    ((getDep s d).w = 2 ∧ d ∈ (getEffect s a).deps)
  nBits : ∀ d, (getDep s d).n = 0 ∨
    ((getDep s d).n = 2 ∧ d ∈ (getEffect s a).deps)
  marked : ∀ d, d ∈ (getEffect s a).deps →
    (getDep s d).w = 2 ∨ (getDep s d).n = 2
  effNodup : ∀ d, (getDep s d).effects.Nodup
  depsNodup : ∀ e, (getEffect s e).deps.Nodup
  effValid : ∀ d e, e ∈ (getDep s d).effects → e < s.effArr.length
  depValid : ∀ e d, d ∈ (getEffect s e).deps → d < s.depArr.length
  tmValid : ∀ t dm k d, aGet s.targetMap t = some dm →
    aGet dm k = some d → d < s.depArr.length
  sym : ∀ d e, e ∈ (getDep s d).effects ↔ d ∈ (getEffect s e).deps

theorem RInv.transfer {s s' : World} {a : Nat} (h : RInv s a)
    (hdep : ∀ d, getDep s' d = getDep s d)
    (heff : ∀ e, getEffect s' e = getEffect s e)
    (hg1 : s'.activeEffect = s.activeEffect)
    (hg2 : s'.effectStack = s.effectStack)
    (hg3 : s'.effectTrackDepth = s.effectTrackDepth)
    (hg4 : s'.trackOpBit = s.trackOpBit)
    (hg5 : s'.trackStack = s.trackStack)
    (hg6 : s'.shouldTrack = s.shouldTrack)
    (htm : s'.targetMap = s.targetMap)
    (hdl : s'.depArr.length = s.depArr.length)
    (hel : s'.effArr.length = s.effArr.length) : RInv s' a := by
  refine ⟨hg1.trans h.mActive, hg2.trans h.mStack, hg3.trans h.mDepth,
    hg4.trans h.mBit, hg5.trans h.mTrack, hg6.trans h.mShould,
    hel ▸ h.mABound, ?_, ?_, ?_, ?_, ?_, ?_, ?_, ?_, ?_⟩
  · intro d
    rw [hdep d, heff a]
    exact h.wBits d
  · intro d
    rw [hdep d, heff a]
    exact h.nBits d
  · intro d hd
    rw [hdep d]
    rw [heff a] at hd
    exact h.marked d hd
  · intro d
    rw [hdep d]
    exact h.effNodup d
  · intro e
    rw [heff e]
    exact h.depsNodup e
  · intro d e he
    rw [hdep d] at he
    rw [hel]
    exact h.effValid d e he
  · intro e d hd
    rw [heff e] at hd
    rw [hdl]
    exact h.depValid e d hd
  · intro t dm k d h1 h2
    rw [htm] at h1
    rw [hdl]
    exact h.tmValid t dm k d h1 h2
  · intro d e
    rw [hdep d, heff e]
    exact h.sym d e

theorem trackEffects_eq_of_marked (s : World) (a d : Nat)
    (ha : s.activeEffect = some a)
    (hdep : s.effectTrackDepth ≤ maxMarkerBits)
    (hn : newTracked (getDep s d) s.trackOpBit = true) :
    trackEffects s d = setDep s d (getDep s d) := by
  unfold trackEffects
  rw [ha]
  simp only []
  rw [if_pos hdep,
    if_neg (show ¬(!newTracked (getDep s d) s.trackOpBit) = true by
      rw [hn]
      decide)]
  rw [if_neg (show ¬((getDep s d, false).2 = true) from
    fun hh => Bool.noConfusion hh)]

theorem trackEffects_eq_mark (s : World) (a d : Nat)
    (ha : s.activeEffect = some a)
    (hdep : s.effectTrackDepth ≤ maxMarkerBits)
    (hn : newTracked (getDep s d) s.trackOpBit = false)
    (hw : wasTracked (getDep s d) s.trackOpBit = true) :
    trackEffects s d = setDep s d
      { getDep s d with n := (getDep s d).n ||| s.trackOpBit } := by
  unfold trackEffects
  rw [ha]
  simp only []
  rw [if_pos hdep, if_pos (show (!newTracked (getDep s d) s.trackOpBit) = true
    by rw [hn]; decide)]
  rw [hw]
  rw [if_neg (show ¬(({ getDep s d with n := (getDep s d).n ||| s.trackOpBit }, !true).2 = true) from fun hh => Bool.noConfusion hh)]

theorem trackEffects_eq_add (s : World) (a d : Nat)
    (ha : s.activeEffect = some a)
    (hdep : s.effectTrackDepth ≤ maxMarkerBits)
    (hn : newTracked (getDep s d) s.trackOpBit = false)
    (hw : wasTracked (getDep s d) s.trackOpBit = false) :
    trackEffects s d = setEffect
      (setDep (setDep s d
          { getDep s d with n := (getDep s d).n ||| s.trackOpBit }) d
        { getDep s d with n := (getDep s d).n ||| s.trackOpBit, effects := setAdd (getDep s d).effects a }) a
      { getEffect s a with deps := (getEffect s a).deps ++ [d] } := by
  unfold trackEffects
  rw [ha]
  simp only []
  rw [if_pos hdep, if_pos (show (!newTracked (getDep s d) s.trackOpBit) = true
    by rw [hn]; decide)]
  rw [hw]
  rw [if_pos (show (({ getDep s d with n := (getDep s d).n ||| s.trackOpBit }, !false).2 = true) from rfl)]
  rfl


theorem rinv_n_zero (s : World) (a d : Nat) (h : RInv s a)
    (hn : newTracked (getDep s d) s.trackOpBit = false) :
    (getDep s d).n = 0 := by
  rcases h.nBits d with h0 | ⟨h2, _⟩
  · exact h0
  · exfalso
    rw [h.mBit] at hn
    simp [newTracked, h2] at hn

theorem rinv_w_zero (s : World) (a d : Nat) (h : RInv s a)
    (hw : wasTracked (getDep s d) s.trackOpBit = false) :
    (getDep s d).w = 0 := by
  rcases h.wBits d with h0 | ⟨h2, _⟩
  · exact h0
  · exfalso
    rw [h.mBit] at hw
    simp [wasTracked, h2] at hw

theorem rinv_w_two (s : World) (a d : Nat) (h : RInv s a)
    (hw : wasTracked (getDep s d) s.trackOpBit = true) :
    (getDep s d).w = 2 ∧ d ∈ (getEffect s a).deps := by
  rcases h.wBits d with h0 | h2
  · exfalso
    rw [h.mBit] at hw
    simp [wasTracked, h0] at hw
  · exact h2

theorem rinv_setDep_same (s : World) (a d : Nat) (h : RInv s a) :
    RInv (setDep s d (getDep s d)) a :=
  h.transfer (setDep_getDep_same s d) (fun _ => rfl) rfl rfl rfl rfl rfl rfl
    rfl (setDep_depLen s d _) rfl

theorem rinv_mark (s : World) (a d : Nat) (h : RInv s a)
    (hd : d < s.depArr.length) (hin : d ∈ (getEffect s a).deps) :
    RInv (setDep s d
      { getDep s d with n := (getDep s d).n ||| s.trackOpBit }) a := by
  have hg : ∀ d', getDep (setDep s d
      { getDep s d with n := (getDep s d).n ||| s.trackOpBit }) d' =
      if d' = d then { getDep s d with n := (getDep s d).n ||| s.trackOpBit }
      else getDep s d' := by
    intro d'
    by_cases hdd : d' = d
    · rw [if_pos hdd, hdd, getDep_setDep_self _ _ _ hd]
    · rw [if_neg hdd, getDep_setDep_ne _ _ hdd]
  have hn2 : (getDep s d).n ||| s.trackOpBit = 2 := by
    rw [h.mBit]
    rcases h.nBits d with h0 | ⟨h2, _⟩
    · rw [h0]
      decide
    · rw [h2]
      decide
  refine ⟨h.mActive, h.mStack, h.mDepth, h.mBit, h.mTrack, h.mShould,
    h.mABound, ?_, ?_, ?_, ?_, h.depsNodup, ?_,
    fun e d' hdm => by rw [setDep_depLen]; exact h.depValid e d' hdm,
    fun t dm k d' h1 h2 => by rw [setDep_depLen]; exact h.tmValid t dm k d' h1 h2, ?_⟩
  · intro d'
    rw [hg d']
    by_cases hdd : d' = d
    · rw [if_pos hdd]
      show (getDep s d).w = 0 ∨ _
      rcases h.wBits d with h0 | ⟨h2, hm2⟩
      · exact Or.inl h0
      · exact Or.inr ⟨h2, hdd ▸ hm2⟩
    · rw [if_neg hdd]
      exact h.wBits d'
  · intro d'
    rw [hg d']
    by_cases hdd : d' = d
    · rw [if_pos hdd]
      exact Or.inr ⟨hn2, hdd ▸ hin⟩
    · rw [if_neg hdd]
      exact h.nBits d'
  · intro d' hm'
    rw [hg d']
    by_cases hdd : d' = d
    · rw [if_pos hdd]
      exact Or.inr hn2
    · rw [if_neg hdd]
      exact h.marked d' hm'
  · intro d'
    rw [hg d']
    by_cases hdd : d' = d
    · rw [if_pos hdd]
      exact h.effNodup d
    · rw [if_neg hdd]
      exact h.effNodup d'
  · intro d' e he
    rw [hg d'] at he
    by_cases hdd : d' = d
    · rw [if_pos hdd] at he
      exact h.effValid d e he
    · rw [if_neg hdd] at he
      exact h.effValid d' e he
  · intro d' e
    rw [hg d']
    by_cases hdd : d' = d
    · rw [if_pos hdd]
      show e ∈ (getDep s d).effects ↔ _
      rw [hdd]
      exact h.sym d e
    · rw [if_neg hdd]
      exact h.sym d' e

theorem rinv_add (s : World) (a d : Nat) (h : RInv s a)
    (hd : d < s.depArr.length)
    (hn0 : (getDep s d).n = 0) (hw0 : (getDep s d).w = 0) :
    RInv (setEffect
      (setDep (setDep s d
          { getDep s d with n := (getDep s d).n ||| s.trackOpBit }) d
        { getDep s d with n := (getDep s d).n ||| s.trackOpBit, effects := setAdd (getDep s d).effects a }) a
      { getEffect s a with deps := (getEffect s a).deps ++ [d] }) a := by
  have hnotin : d ∉ (getEffect s a).deps := by
    intro hmem
    rcases h.marked d hmem with h2 | h2
    · rw [hw0] at h2
      cases h2
    · rw [hn0] at h2
      cases h2
  have hnotinE : a ∉ (getDep s d).effects :=
    fun hmem => hnotin ((h.sym d a).mp hmem)
  have hsetAdd : setAdd (getDep s d).effects a =
      (getDep s d).effects ++ [a] := by
    unfold setAdd
    rw [if_neg hnotinE]
  have hn2 : (getDep s d).n ||| s.trackOpBit = 2 := by
    rw [h.mBit, hn0]
    decide
  have hgd : ∀ d', getDep (setEffect
      (setDep (setDep s d
          { getDep s d with n := (getDep s d).n ||| s.trackOpBit }) d
        { getDep s d with n := (getDep s d).n ||| s.trackOpBit, effects := setAdd (getDep s d).effects a }) a
      { getEffect s a with deps := (getEffect s a).deps ++ [d] }) d' =
      if d' = d
      then { getDep s d with n := (getDep s d).n ||| s.trackOpBit, effects := (getDep s d).effects ++ [a] }
      else getDep s d' := by
    intro d'
    rw [getDep_setEffect]
    by_cases hdd : d' = d
    · rw [if_pos hdd, hdd, getDep_setDep_self _ _ _ (by rw [setDep_depLen]; exact hd), hsetAdd]
    · rw [if_neg hdd, getDep_setDep_ne _ _ hdd, getDep_setDep_ne _ _ hdd]
  have hge : ∀ x, getEffect (setEffect
      (setDep (setDep s d
          { getDep s d with n := (getDep s d).n ||| s.trackOpBit }) d
        { getDep s d with n := (getDep s d).n ||| s.trackOpBit, effects := setAdd (getDep s d).effects a }) a
      { getEffect s a with deps := (getEffect s a).deps ++ [d] }) x =
      if x = a
      then { getEffect s a with deps := (getEffect s a).deps ++ [d] }
      else getEffect s x := by
    intro x
    by_cases hxa : x = a
    · rw [if_pos hxa, hxa, getEffect_setEffect_self _ _ _ (by exact h.mABound)]
    · rw [if_neg hxa, getEffect_setEffect_ne _ _ hxa]
      rfl
  have hDL : (setEffect
      (setDep (setDep s d
          { getDep s d with n := (getDep s d).n ||| s.trackOpBit }) d
        { getDep s d with n := (getDep s d).n ||| s.trackOpBit, effects := setAdd (getDep s d).effects a }) a
      { getEffect s a with deps := (getEffect s a).deps ++ [d] }).depArr.length
      = s.depArr.length := by
    simp [setEffect, setDep]
  have hEL : (setEffect
      (setDep (setDep s d
          { getDep s d with n := (getDep s d).n ||| s.trackOpBit }) d
        { getDep s d with n := (getDep s d).n ||| s.trackOpBit, effects := setAdd (getDep s d).effects a }) a
      { getEffect s a with deps := (getEffect s a).deps ++ [d] }).effArr.length
      = s.effArr.length := by
    simp [setEffect, setDep]
  refine ⟨h.mActive, h.mStack, h.mDepth, h.mBit, h.mTrack, h.mShould,
    by rw [hEL]; exact h.mABound, ?_, ?_, ?_, ?_, ?_, ?_, ?_, ?_, ?_⟩
  · intro d'
    rw [hgd d', hge a, if_pos rfl]
    by_cases hdd : d' = d
    · rw [if_pos hdd]
      exact Or.inl hw0
    · rw [if_neg hdd]
      rcases h.wBits d' with h0 | ⟨h2, hm2⟩
      · exact Or.inl h0
      · exact Or.inr ⟨h2, by
          show d' ∈ (getEffect s a).deps ++ [d]
          exact List.mem_append_left _ hm2⟩
  · intro d'
    rw [hgd d', hge a, if_pos rfl]
    by_cases hdd : d' = d
    · rw [if_pos hdd]
      refine Or.inr ⟨hn2, ?_⟩
      show d' ∈ (getEffect s a).deps ++ [d]
      rw [hdd]
      exact List.mem_append_right _ (List.mem_singleton_self d)
    · rw [if_neg hdd]
      rcases h.nBits d' with h0 | ⟨h2, hm2⟩
      · exact Or.inl h0
      · exact Or.inr ⟨h2, by
          show d' ∈ (getEffect s a).deps ++ [d]
          exact List.mem_append_left _ hm2⟩
  · intro d' hm'
    rw [hge a, if_pos rfl] at hm'
    rw [hgd d']
    by_cases hdd : d' = d
    · rw [if_pos hdd]
      exact Or.inr hn2
    · rw [if_neg hdd]
      have hm2 : d' ∈ (getEffect s a).deps := by
        rcases List.mem_append.mp hm' with hh | hh
        · exact hh
        · exact absurd (List.mem_singleton.mp hh) hdd
      exact h.marked d' hm2
  · intro d'
    rw [hgd d']
    by_cases hdd : d' = d
    · rw [if_pos hdd]
      exact nodup_snoc (h.effNodup d) hnotinE
    · rw [if_neg hdd]
      exact h.effNodup d'
  · intro e
    rw [hge e]
    by_cases hxa : e = a
    · rw [if_pos hxa]
      exact nodup_snoc (h.depsNodup a) hnotin
    · rw [if_neg hxa]
      exact h.depsNodup e
  · intro d' e he
    rw [hEL]
    rw [hgd d'] at he
    by_cases hdd : d' = d
    · rw [if_pos hdd] at he
      rcases List.mem_append.mp he with hh | hh
      · exact h.effValid d e hh
      · rw [List.mem_singleton.mp hh]
        exact h.mABound
    · rw [if_neg hdd] at he
      exact h.effValid d' e he
  · intro e d' hdm
    rw [hDL]
    rw [hge e] at hdm
    by_cases hxa : e = a
    · rw [if_pos hxa] at hdm
      rcases List.mem_append.mp hdm with hh | hh
      · exact h.depValid a d' hh
      · rw [List.mem_singleton.mp hh]
        exact hd
    · rw [if_neg hxa] at hdm
      exact h.depValid e d' hdm
  · intro t dm k d' h1 h2
    rw [hDL]
    exact h.tmValid t dm k d' h1 h2
  · intro d' e
    rw [hgd d', hge e]
    by_cases hdd : d' = d <;> by_cases hxa : e = a
    · rw [if_pos hdd, if_pos hxa]
      constructor
      · intro _
        show d' ∈ (getEffect s a).deps ++ [d]
        rw [hdd]
        exact List.mem_append_right _ (List.mem_singleton_self d)
      · intro _
        show e ∈ (getDep s d).effects ++ [a]
        rw [hxa]
        exact List.mem_append_right _ (List.mem_singleton_self a)
    · rw [if_pos hdd, if_neg hxa]
      rw [hdd]
      constructor
      · intro he
        rcases List.mem_append.mp he with hh | hh
        · exact (h.sym d e).mp hh
        · exact absurd (List.mem_singleton.mp hh) hxa
      · intro hdm
        show e ∈ (getDep s d).effects ++ [a]
        exact List.mem_append_left _ ((h.sym d e).mpr hdm)
    · rw [if_neg hdd, if_pos hxa]
      rw [hxa]
      constructor
      · intro he
        show d' ∈ (getEffect s a).deps ++ [d]
        exact List.mem_append_left _ ((h.sym d' a).mp he)
      · intro hdm
        have hm2 : d' ∈ (getEffect s a).deps := by
          rcases List.mem_append.mp hdm with hh | hh
          · exact hh
          · exact absurd (List.mem_singleton.mp hh) hdd
        exact (h.sym d' a).mpr hm2
    · rw [if_neg hdd, if_neg hxa]
      exact h.sym d' e

theorem trackEffects_rinv (s : World) (a d : Nat) (h : RInv s a)
    (hd : d < s.depArr.length) : RInv (trackEffects s d) a := by
  have hdep : s.effectTrackDepth ≤ maxMarkerBits := by
    rw [h.mDepth]
    decide
  by_cases hn : newTracked (getDep s d) s.trackOpBit = true
  · rw [trackEffects_eq_of_marked s a d h.mActive hdep hn]
    exact rinv_setDep_same s a d h
  · have hn' : newTracked (getDep s d) s.trackOpBit = false := by
      simpa using hn
    by_cases hw : wasTracked (getDep s d) s.trackOpBit = true
    · rw [trackEffects_eq_mark s a d h.mActive hdep hn' hw]
      exact rinv_mark s a d h hd (rinv_w_two s a d h hw).2
    · have hw' : wasTracked (getDep s d) s.trackOpBit = false := by
        simpa using hw
      rw [trackEffects_eq_add s a d h.mActive hdep hn' hw']
      exact rinv_add s a d h hd (rinv_n_zero s a d h hn')
        (rinv_w_zero s a d h hw')


theorem tm_bound_update (TM : List (Target × List (Key × Nat))) (L : Nat)
    (t : Target) (dm : List (Key × Nat)) (k : Key)
    (hTM : ∀ t' dm' k' d', aGet TM t' = some dm' →
      aGet dm' k' = some d' → d' < L)
    (hdm : ∀ k' d', aGet dm k' = some d' → d' < L) :
    ∀ t' dm' k' d', aGet (aSet TM t (aSet dm k L)) t' = some dm' →
      aGet dm' k' = some d' → d' < L + 1 := by
  intro t' dm' k' d' h1 h2
  by_cases ht : t' = t
  · subst ht
    rw [aGet_aSet_self] at h1
    cases h1
    by_cases hk : k' = k
    · subst hk
      rw [aGet_aSet_self] at h2
      cases h2
      exact Nat.lt_succ_self _
    · rw [aGet_aSet_ne dm k L k' hk] at h2
      exact Nat.lt_succ_of_lt (hdm k' d' h2)
  · rw [aGet_aSet_ne TM t (aSet dm k L) t' ht] at h1
    exact Nat.lt_succ_of_lt (hTM t' dm' k' d' h1 h2)

theorem rinv_fresh_dep (s : World) (a : Nat)
    (TM : List (Target × List (Key × Nat)))
    (hTM : ∀ t dm k d, aGet TM t = some dm → aGet dm k = some d →
      d < s.depArr.length + 1)
    (h : RInv s a) :
    RInv { s with targetMap := TM, depArr := s.depArr ++ [({} : Dep)] } a := by
  set s2 : World := { s with targetMap := TM, depArr := s.depArr ++ [({} : Dep)] } with hs2
  have hsame : ∀ d', getDep s2 d' = getDep s d' := by
    intro d'
    by_cases hlt : d' < s.depArr.length
    · exact getDep_append s ({} : Dep) hlt
    · by_cases heq : d' = s.depArr.length
      · subst heq
        rw [getDep_oob s (le_refl _)]
        rw [getDep_only_depArr s2
          { s with depArr := s.depArr ++ [({} : Dep)] } rfl]
        exact getDep_append_self s ({} : Dep)
      · have hgt : s.depArr.length < d' :=
          lt_of_le_of_ne (not_lt.mp hlt) (fun hh => heq hh.symm)
        rw [getDep_oob s (le_of_lt hgt)]
        refine getDep_oob s2 ?_
        show (s.depArr ++ [({} : Dep)]).length ≤ d'
        simpa using hgt
  have heff : ∀ x, getEffect s2 x = getEffect s x := fun _ => rfl
  have hdl : s2.depArr.length = s.depArr.length + 1 := by
    show (s.depArr ++ [({} : Dep)]).length = _
    simp
  refine ⟨h.mActive, h.mStack, h.mDepth, h.mBit, h.mTrack, h.mShould,
    h.mABound, ?_, ?_, ?_, ?_, ?_, ?_, ?_, ?_, ?_⟩
  · intro d'
    rw [hsame d', heff a]
    exact h.wBits d'
  · intro d'
    rw [hsame d', heff a]
    exact h.nBits d'
  · intro d' hm'
    rw [hsame d']
    rw [heff a] at hm'
    exact h.marked d' hm'
  · intro d'
    rw [hsame d']
    exact h.effNodup d'
  · intro e
    rw [heff e]
    exact h.depsNodup e
  · intro d' e he
    rw [hsame d'] at he
    exact h.effValid d' e he
  · intro e d' hdm
    rw [heff e] at hdm
    rw [hdl]
    exact Nat.lt_succ_of_lt (h.depValid e d' hdm)
  · intro t dm k d' h1 h2
    rw [hdl]
    exact hTM t dm k d' h1 h2
  · intro d' e
    rw [hsame d', heff e]
    exact h.sym d' e

theorem rinv_set_tm (s : World) (a : Nat)
    (TM : List (Target × List (Key × Nat)))
    (hTM : ∀ t dm k d, aGet TM t = some dm → aGet dm k = some d →
      d < s.depArr.length)
    (h : RInv s a) : RInv { s with targetMap := TM } a :=
  ⟨h.mActive, h.mStack, h.mDepth, h.mBit, h.mTrack, h.mShould, h.mABound,
    h.wBits, h.nBits, h.marked, h.effNodup, h.depsNodup, h.effValid,
    h.depValid, hTM, h.sym⟩

theorem track_rinv (s : World) (a : Nat) (t : Target) (k : Key)
    (h : RInv s a) : RInv (track s t k) a := by
  unfold track
  rw [if_pos (show isTracking s = true by
    unfold isTracking
    rw [h.mShould, h.mActive]
    rfl)]
  cases hm : aGet s.targetMap t with
  | some dm =>
    simp only [Option.getD]
    cases hk : aGet dm k with
    | some d =>
      simp only []
      exact trackEffects_rinv s a d h (h.tmValid t dm k d hm hk)
    | none =>
      simp only []
      refine trackEffects_rinv _ a s.depArr.length
        (rinv_fresh_dep s a _ ?_ h) ?_
      · exact tm_bound_update s.targetMap s.depArr.length t dm k
          (h.tmValid) (fun k' d' hkd => h.tmValid t dm k' d' hm hkd)
      · simp
  | none =>
    simp only [Option.getD]
    rw [show aGet ([] : List (Key × Nat)) k = none from rfl]
    simp only []
    refine trackEffects_rinv _ a s.depArr.length
      (rinv_fresh_dep { s with targetMap := aSet s.targetMap t [] } a _ ?_
        ?_) ?_
    · refine tm_bound_update (aSet s.targetMap t []) s.depArr.length t [] k
        ?_ ?_
      · intro t' dm' k' d' h1 h2
        by_cases ht : t' = t
        · subst ht
          rw [aGet_aSet_self] at h1
          cases h1
          cases h2
        · rw [aGet_aSet_ne s.targetMap t [] t' ht] at h1
          exact h.tmValid t' dm' k' d' h1 h2
      · intro k' d' hkd
        cases hkd
    · refine rinv_set_tm s a (aSet s.targetMap t []) ?_ h
      intro t' dm' k' d' h1 h2
      by_cases ht : t' = t
      · subst ht
        rw [aGet_aSet_self] at h1
        cases h1
        cases h2
      · rw [aGet_aSet_ne s.targetMap t [] t' ht] at h1
        exact h.tmValid t' dm' k' d' h1 h2
    · simp

theorem foldl_track_rinv (rs : List (Target × Key)) (s : World) (a : Nat)
    (h : RInv s a) :
    RInv (rs.foldl (fun s r => track s r.1 r.2) s) a := by
  induction rs generalizing s with
  | nil => exact h
  | cons hd tl ih =>
    simp only [List.foldl_cons]
    exact ih _ (track_rinv s a hd.1 hd.2 h)


theorem init_fold_getDep (bit : Nat) :
    ∀ (ds : List Nat) (s : World) (d' : Nat),
    getDep (ds.foldl (fun s d => setDep s d
      { getDep s d with w := (getDep s d).w ||| bit }) s) d' =
      if d' ∈ ds ∧ d' < s.depArr.length
      then { getDep s d' with w := (getDep s d').w ||| bit }
      else getDep s d'
  | [], s, d' => by simp
  | hd :: tl, s, d' => by
    simp only [List.foldl_cons]
    rw [init_fold_getDep bit tl _ d']
    by_cases hhd : hd < s.depArr.length
    · rw [setDep_depLen]
      by_cases hdd : d' = hd
      · subst hdd
        rw [getDep_setDep_self _ _ _ hhd]
        by_cases htl : d' ∈ tl
        · rw [if_pos ⟨htl, hhd⟩, if_pos ⟨List.mem_cons_self _ _, hhd⟩]
          show ({ getDep s d' with
            w := ((getDep s d').w ||| bit) ||| bit } : Dep) = _
          rw [Nat.or_assoc, Nat.or_self]
        · rw [if_neg (fun hc => htl hc.1),
            if_pos ⟨List.mem_cons_self _ _, hhd⟩]
      · rw [getDep_setDep_ne _ _ hdd]
        exact if_congr (by simp [List.mem_cons, hdd]) rfl rfl
    · rw [getDep_setDep_oob _ _ _ (not_lt.mp hhd)]
      by_cases hdd : d' = hd
      · subst hdd
        rw [if_neg (fun hc => hhd hc.2), if_neg (fun hc => hhd hc.2)]
      · exact if_congr (by simp [List.mem_cons, hdd]) rfl rfl

theorem init_fold_depArr_len (bit : Nat) :
    ∀ (ds : List Nat) (s : World),
    (ds.foldl (fun s d => setDep s d
      { getDep s d with w := (getDep s d).w ||| bit }) s).depArr.length =
      s.depArr.length
  | [], _ => rfl
  | hd :: tl, s => by
    simp only [List.foldl_cons]
    rw [init_fold_depArr_len bit tl _, setDep_depLen]

theorem init_fold_targetMap (bit : Nat) :
    ∀ (ds : List Nat) (s : World),
    (ds.foldl (fun s d => setDep s d
      { getDep s d with w := (getDep s d).w ||| bit }) s).targetMap =
      s.targetMap
  | [], _ => rfl
  | hd :: tl, s => by
    simp only [List.foldl_cons]
    rw [init_fold_targetMap bit tl _]
    rfl

theorem init_fold_effArr (bit : Nat) :
    ∀ (ds : List Nat) (s : World),
    (ds.foldl (fun s d => setDep s d
      { getDep s d with w := (getDep s d).w ||| bit }) s).effArr = s.effArr
  | [], _ => rfl
  | hd :: tl, s => by
    simp only [List.foldl_cons]
    rw [init_fold_effArr bit tl _]
    rfl

theorem initDepMarkers_getDep (s : World) (e : Nat) (d' : Nat) :
    getDep (initDepMarkers s e) d' =
      if d' ∈ (getEffect s e).deps ∧ d' < s.depArr.length
      then { getDep s d' with w := (getDep s d').w ||| s.trackOpBit }
      else getDep s d' := by
  unfold initDepMarkers
  simp only []
  exact init_fold_getDep s.trackOpBit (getEffect s e).deps s d'

theorem initDepMarkers_depLen (s : World) (e : Nat) :
    (initDepMarkers s e).depArr.length = s.depArr.length := by
  unfold initDepMarkers
  simp only []
  exact init_fold_depArr_len s.trackOpBit (getEffect s e).deps s

theorem initDepMarkers_targetMap (s : World) (e : Nat) :
    (initDepMarkers s e).targetMap = s.targetMap := by
  unfold initDepMarkers
  simp only []
  exact init_fold_targetMap s.trackOpBit (getEffect s e).deps s

theorem initDepMarkers_effArr (s : World) (e : Nat) :
    (initDepMarkers s e).effArr = s.effArr := by
  unfold initDepMarkers
  simp only []
  exact init_fold_effArr s.trackOpBit (getEffect s e).deps s

theorem runProlog_eq (s : World) (e : Nat)
    (hd : s.effectTrackDepth + 1 ≤ maxMarkerBits) :
    runProlog s e = initDepMarkers
      { s with effectStack := s.effectStack ++ [e],
               activeEffect := some e,
               trackStack := s.trackStack ++ [s.shouldTrack],
               shouldTrack := true,
               effectTrackDepth := s.effectTrackDepth + 1,
               trackOpBit := 1 <<< (s.effectTrackDepth + 1),
               fnLog := s.fnLog ++ [e] } e := by
  unfold runProlog enableTracking
  simp only []
  rw [if_pos hd]

theorem runProlog_rinv (s : World) (e : Nat) (h : Inv s)
    (hact : (getEffect s e).active = true) : RInv (runProlog s e) e := by
  have heB : e < s.effArr.length := stopE_in_range s e hact
  rw [runProlog_eq s e (by rw [h.qDepth]; decide)]
  set S3 : World :=
      { s with effectStack := s.effectStack ++ [e],
               activeEffect := some e,
               trackStack := s.trackStack ++ [s.shouldTrack],
               shouldTrack := true,
               effectTrackDepth := s.effectTrackDepth + 1,
               trackOpBit := 1 <<< (s.effectTrackDepth + 1),
               fnLog := s.fnLog ++ [e] } with hS3
  have hbit : S3.trackOpBit = 2 := by
    show 1 <<< (s.effectTrackDepth + 1) = 2
    rw [h.qDepth]
    decide
  have hgd : ∀ d', getDep (initDepMarkers S3 e) d' =
      if d' ∈ (getEffect s e).deps ∧ d' < s.depArr.length
      then { getDep s d' with w := (getDep s d').w ||| 2 }
      else getDep s d' := by
    intro d'
    rw [initDepMarkers_getDep S3 e d', hbit]
    rfl
  have hge : ∀ x, getEffect (initDepMarkers S3 e) x = getEffect s x := by
    intro x
    exact (initDepMarkers_preserves S3 e).1 x
  have hdl : (initDepMarkers S3 e).depArr.length = s.depArr.length :=
    initDepMarkers_depLen S3 e
  have hel : (initDepMarkers S3 e).effArr = s.effArr :=
    initDepMarkers_effArr S3 e
  have htm : (initDepMarkers S3 e).targetMap = s.targetMap :=
    initDepMarkers_targetMap S3 e
  refine ⟨?_, ?_, ?_, ?_, ?_, ?_, ?_, ?_, ?_, ?_, ?_, ?_, ?_, ?_, ?_, ?_⟩
  · rw [initDepMarkers_activeEffect]
  · rw [initDepMarkers_effectStack]
    show s.effectStack ++ [e] = [e]
    rw [h.qStack]
    rfl
  · rw [initDepMarkers_depth]
    show s.effectTrackDepth + 1 = 1
    rw [h.qDepth]
  · rw [initDepMarkers_bit]
    exact hbit
  · rw [initDepMarkers_trackStack]
    show s.trackStack ++ [s.shouldTrack] = [true]
    rw [h.qTrack, h.qShould]
    rfl
  · rw [initDepMarkers_shouldTrack]
  · rw [show (initDepMarkers S3 e).effArr.length = s.effArr.length from
      by rw [hel]]
    exact heB
  · intro d'
    rw [hgd d', hge e]
    by_cases hc : d' ∈ (getEffect s e).deps ∧ d' < s.depArr.length
    · rw [if_pos hc]
      refine Or.inr ⟨?_, hc.1⟩
      show (getDep s d').w ||| 2 = 2
      rw [h.wZero d']
      decide
    · rw [if_neg hc]
      exact Or.inl (h.wZero d')
  · intro d'
    rw [hgd d']
    by_cases hc : d' ∈ (getEffect s e).deps ∧ d' < s.depArr.length
    · rw [if_pos hc]
      exact Or.inl (h.nZero d')
    · rw [if_neg hc]
      exact Or.inl (h.nZero d')
  · intro d' hm'
    rw [hge e] at hm'
    rw [hgd d', if_pos ⟨hm', h.depValid e d' hm'⟩]
    refine Or.inl ?_
    show (getDep s d').w ||| 2 = 2
    rw [h.wZero d']
    decide
  · intro d'
    rw [hgd d']
    by_cases hc : d' ∈ (getEffect s e).deps ∧ d' < s.depArr.length
    · rw [if_pos hc]
      exact h.effNodup d'
    · rw [if_neg hc]
      exact h.effNodup d'
  · intro x
    rw [hge x]
    exact h.depsNodup x
  · intro d' x hx
    rw [show (initDepMarkers S3 e).effArr.length = s.effArr.length from
      by rw [hel]]
    rw [hgd d'] at hx
    by_cases hc : d' ∈ (getEffect s e).deps ∧ d' < s.depArr.length
    · rw [if_pos hc] at hx
      exact h.effValid d' x hx
    · rw [if_neg hc] at hx
      exact h.effValid d' x hx
  · intro x d' hdm
    rw [hge x] at hdm
    rw [hdl]
    exact h.depValid x d' hdm
  · intro t dm k d' h1 h2
    rw [htm] at h1
    rw [hdl]
    exact h.tmValid t dm k d' h1 h2
  · intro d' x
    rw [hgd d', hge x]
    by_cases hc : d' ∈ (getEffect s e).deps ∧ d' < s.depArr.length
    · rw [if_pos hc]
      exact h.sym d' x
    · rw [if_neg hc]
      exact h.sym d' x


/-- Whether one `finalizeDepMarkers` pass keeps the dep `d` on the
effect's list: kept unless it was tracked before but not newly tracked. -/
def finKeep (bit : Nat) (s : World) (d : Nat) : Bool :=
  !(wasTracked (getDep s d) bit && !(newTracked (getDep s d) bit))

/-- The dep `d` after one `finalizeDepMarkers` pass for effect `e`:
markers cleared, and `e` removed from a stale dep. -/
def finDep (e bit : Nat) (s : World) (d : Nat) : Dep :=
  { effects := if finKeep bit s d then (getDep s d).effects
               else setDelete (getDep s d).effects e,
    w := clearBit (getDep s d).w bit,
    n := clearBit (getDep s d).n bit }

theorem finKeep_congr (bit : Nat) {s1 s2 : World} {d : Nat}
    (h : getDep s1 d = getDep s2 d) :
    finKeep bit s1 d = finKeep bit s2 d := by
  unfold finKeep
  rw [h]

theorem finDep_congr (e bit : Nat) {s1 s2 : World} {d : Nat}
    (h : getDep s1 d = getDep s2 d) :
    finDep e bit s1 d = finDep e bit s2 d := by
  unfold finDep finKeep
  rw [h]

theorem finalizeStep_eq (e bit : Nat) (s0 : World) (l0 : List Nat)
    (hd : Nat) :
    finalizeStep e bit (s0, l0) hd =
      (setDep s0 hd (finDep e bit s0 hd),
        if finKeep bit s0 hd then l0 ++ [hd] else l0) := by
  unfold finalizeStep finDep finKeep
  simp only []
  by_cases hk : (!(wasTracked (getDep s0 hd) bit &&
      !(newTracked (getDep s0 hd) bit))) = true
  · simp [hk]
  · simp [hk]

theorem fin_fold_effArr (e bit : Nat) :
    ∀ (ds : List Nat) (s0 : World) (l0 : List Nat),
    (ds.foldl (finalizeStep e bit) (s0, l0)).1.effArr = s0.effArr
  | [], _, _ => rfl
  | hd :: tl, s0, l0 => by
    simp only [List.foldl_cons]
    rw [finalizeStep_eq e bit s0 l0 hd, fin_fold_effArr e bit tl _ _]
    rfl

theorem fin_fold_targetMap (e bit : Nat) :
    ∀ (ds : List Nat) (s0 : World) (l0 : List Nat),
    (ds.foldl (finalizeStep e bit) (s0, l0)).1.targetMap = s0.targetMap
  | [], _, _ => rfl
  | hd :: tl, s0, l0 => by
    simp only [List.foldl_cons]
    rw [finalizeStep_eq e bit s0 l0 hd, fin_fold_targetMap e bit tl _ _]
    rfl

theorem fin_fold_depLen (e bit : Nat) :
    ∀ (ds : List Nat) (s0 : World) (l0 : List Nat),
    (ds.foldl (finalizeStep e bit) (s0, l0)).1.depArr.length =
      s0.depArr.length
  | [], _, _ => rfl
  | hd :: tl, s0, l0 => by
    simp only [List.foldl_cons]
    rw [finalizeStep_eq e bit s0 l0 hd, fin_fold_depLen e bit tl _ _,
      setDep_depLen]

theorem fin_fold_spec (e bit : Nat) :
    ∀ (ds : List Nat) (s0 : World) (l0 : List Nat), ds.Nodup →
    (∀ x ∈ ds, x < s0.depArr.length) →
    (∀ d', d' ∉ ds →
      getDep (ds.foldl (finalizeStep e bit) (s0, l0)).1 d' = getDep s0 d') ∧
    (∀ d', d' ∈ ds →
      getDep (ds.foldl (finalizeStep e bit) (s0, l0)).1 d' =
        finDep e bit s0 d') ∧
    (ds.foldl (finalizeStep e bit) (s0, l0)).2 =
      l0 ++ ds.filter (fun d => finKeep bit s0 d)
  | [], s0, l0, _, _ => ⟨fun _ _ => rfl,
      fun _ h => absurd h (List.not_mem_nil _), by simp⟩
  | hd :: tl, s0, l0, hnd, hb => by
    simp only [List.foldl_cons]
    rw [finalizeStep_eq e bit s0 l0 hd]
    have hhd : hd < s0.depArr.length := hb hd (List.mem_cons_self _ _)
    have htl : hd ∉ tl := (List.nodup_cons.mp hnd).1
    have hbtl : ∀ x ∈ tl,
        x < (setDep s0 hd (finDep e bit s0 hd)).depArr.length := by
      intro x hx
      rw [setDep_depLen]
      exact hb x (List.mem_cons_of_mem _ hx)
    obtain ⟨ihA, ihB, ihC⟩ := fin_fold_spec e bit tl
      (setDep s0 hd (finDep e bit s0 hd))
      (if finKeep bit s0 hd then l0 ++ [hd] else l0)
      (List.nodup_cons.mp hnd).2 hbtl
    have hget : ∀ x, x ≠ hd →
        getDep (setDep s0 hd (finDep e bit s0 hd)) x = getDep s0 x :=
      fun x hx => getDep_setDep_ne _ _ hx
    refine ⟨?_, ?_, ?_⟩
    · intro d' hd'
      have h1 : d' ∉ tl := fun hh => hd' (List.mem_cons_of_mem _ hh)
      have h2 : d' ≠ hd := fun hh => hd' (hh ▸ List.mem_cons_self _ _)
      rw [ihA d' h1, hget d' h2]
    · intro d' hd'
      rcases List.mem_cons.mp hd' with hh | hh
      · subst hh
        rw [ihA d' htl, getDep_setDep_self _ _ _ hhd]
      · have h2 : d' ≠ hd := fun heq => htl (heq ▸ hh)
        rw [ihB d' hh]
        exact finDep_congr e bit (hget d' h2)
    · rw [ihC]
      have hfc : tl.filter (fun d => finKeep bit
          (setDep s0 hd (finDep e bit s0 hd)) d) =
          tl.filter (fun d => finKeep bit s0 d) := by
        apply List.filter_congr
        intro x hx
        have h2 : x ≠ hd := fun heq => htl (heq ▸ hx)
        exact finKeep_congr bit (hget x h2)
      rw [hfc, List.filter_cons]
      by_cases hk : finKeep bit s0 hd = true
      · rw [if_pos hk, if_pos hk]
        simp
      · rw [if_neg hk, if_neg hk]


theorem runEpilogue_depArr (s : World) (e : Nat)
    (hd : s.effectTrackDepth ≤ maxMarkerBits) :
    (runEpilogue s e).depArr = (finalizeDepMarkers s e).depArr := by
  unfold runEpilogue
  dsimp only
  rw [resetTracking_depArr]
  dsimp only
  rw [if_pos hd]

theorem runEpilogue_effArr (s : World) (e : Nat)
    (hd : s.effectTrackDepth ≤ maxMarkerBits) :
    (runEpilogue s e).effArr = (finalizeDepMarkers s e).effArr := by
  unfold runEpilogue
  dsimp only
  rw [resetTracking_effArr]
  dsimp only
  rw [if_pos hd]

theorem runEpilogue_targetMap (s : World) (e : Nat)
    (hd : s.effectTrackDepth ≤ maxMarkerBits) :
    (runEpilogue s e).targetMap = (finalizeDepMarkers s e).targetMap := by
  unfold runEpilogue
  dsimp only
  rw [resetTracking_targetMap]
  dsimp only
  rw [if_pos hd]

theorem runEpilogue_inv (s : World) (a : Nat) (h : RInv s a) :
    Inv (runEpilogue s a) := by
  have hd30 : s.effectTrackDepth ≤ maxMarkerBits := by
    rw [h.mDepth]
    decide
  obtain ⟨f1, f2, f3, f4, f5, f6, f7, f8, f9, f10⟩ := runEpilogue_fields s a
  have hnd := h.depsNodup a
  have hbd : ∀ x ∈ (getEffect s a).deps, x < s.depArr.length :=
    fun x hx => h.depValid a x hx
  obtain ⟨sA, sB, sC⟩ := fin_fold_spec a s.trackOpBit
    (getEffect s a).deps s [] hnd hbd
  set ds := (getEffect s a).deps with hds
  set r := ds.foldl (finalizeStep a s.trackOpBit) (s, []) with hr
  have hFgd : ∀ d', getDep (finalizeDepMarkers s a) d' =
      if d' ∈ ds then finDep a s.trackOpBit s d' else getDep s d' := by
    intro d'
    show getDep (setEffect r.1 a
      { getEffect r.1 a with deps := r.2 }) d' = _
    rw [getDep_setEffect]
    by_cases hmem : d' ∈ ds
    · rw [if_pos hmem]
      exact sB d' hmem
    · rw [if_neg hmem]
      exact sA d' hmem
  have hFeff_ne : ∀ x, x ≠ a →
      getEffect (finalizeDepMarkers s a) x = getEffect s x :=
    fun x hx => (finalizeDepMarkers_preserves s a).1 x hx
  have hFeffA : getEffect (finalizeDepMarkers s a) a =
      { getEffect s a with
        deps := ds.filter (fun d => finKeep s.trackOpBit s d) } := by
    show getEffect (setEffect r.1 a
      { getEffect r.1 a with deps := r.2 }) a = _
    rw [getEffect_setEffect_self _ _ _ (by
      rw [show r.1.effArr = s.effArr from
        fin_fold_effArr a s.trackOpBit ds s []]
      exact h.mABound)]
    rw [show getEffect r.1 a = getEffect s a from
      (finalizeStep_fold_preserves a s.trackOpBit ds (s, [])).1 a]
    rw [sC]
    rfl
  have hFel : (finalizeDepMarkers s a).effArr.length = s.effArr.length := by
    show (setEffect r.1 a { getEffect r.1 a with
      deps := r.2 }).effArr.length = _
    rw [setEffect_effLen, show r.1.effArr = s.effArr from
      fin_fold_effArr a s.trackOpBit ds s []]
  have hFdl : (finalizeDepMarkers s a).depArr.length = s.depArr.length :=
    fin_fold_depLen a s.trackOpBit ds s []
  have hFtm : (finalizeDepMarkers s a).targetMap = s.targetMap :=
    fin_fold_targetMap a s.trackOpBit ds s []
  have hEdep : ∀ d', getDep (runEpilogue s a) d' =
      getDep (finalizeDepMarkers s a) d' :=
    fun d' => getDep_only_depArr _ _ (runEpilogue_depArr s a hd30) d'
  have hEeff : ∀ x, getEffect (runEpilogue s a) x =
      getEffect (finalizeDepMarkers s a) x :=
    fun x => getEffect_only_effArr _ _ (runEpilogue_effArr s a hd30) x
  have hEdl : (runEpilogue s a).depArr.length = s.depArr.length := by
    rw [runEpilogue_depArr s a hd30]
    exact hFdl
  have hEel : (runEpilogue s a).effArr.length = s.effArr.length := by
    rw [runEpilogue_effArr s a hd30]
    exact hFel
  have hEtm : (runEpilogue s a).targetMap = s.targetMap := by
    rw [runEpilogue_targetMap s a hd30]
    exact hFtm
  have hwn : ∀ d', (getDep (runEpilogue s a) d').w = 0 ∧
      (getDep (runEpilogue s a) d').n = 0 := by
    intro d'
    rw [hEdep d', hFgd d']
    by_cases hmem : d' ∈ ds
    · rw [if_pos hmem]
      constructor
      · show clearBit (getDep s d').w s.trackOpBit = 0
        rw [h.mBit]
        rcases h.wBits d' with h0 | ⟨h2, _⟩
        · rw [h0]
          decide
        · rw [h2]
          decide
      · show clearBit (getDep s d').n s.trackOpBit = 0
        rw [h.mBit]
        rcases h.nBits d' with h0 | ⟨h2, _⟩
        · rw [h0]
          decide
        · rw [h2]
          decide
    · rw [if_neg hmem]
      constructor
      · rcases h.wBits d' with h0 | ⟨_, hmem2⟩
        · exact h0
        · exact absurd hmem2 hmem
      · rcases h.nBits d' with h0 | ⟨_, hmem2⟩
        · exact h0
        · exact absurd hmem2 hmem
  have hEeffects : ∀ d', (getDep (runEpilogue s a) d').effects =
      if d' ∈ ds
      then (if finKeep s.trackOpBit s d' then (getDep s d').effects
            else setDelete (getDep s d').effects a)
      else (getDep s d').effects := by
    intro d'
    rw [hEdep d', hFgd d']
    by_cases hmem : d' ∈ ds
    · rw [if_pos hmem, if_pos hmem]
      rfl
    · rw [if_neg hmem, if_neg hmem]
  refine ⟨?_, ?_, ?_, ?_, ?_, ?_, fun d' => (hwn d').1, fun d' => (hwn d').2,
    ?_, ?_, ?_, ?_, ?_, ?_⟩
  · rw [f6, h.mStack]
    rfl
  · rw [f5, h.mStack]
    rfl
  · rw [f1, h.mDepth]
  · rw [f2, h.mDepth]
    decide
  · rw [f4, h.mTrack]
    rfl
  · rw [f3, h.mTrack]
    rfl
  · intro d'
    rw [hEeffects d']
    by_cases hmem : d' ∈ ds
    · rw [if_pos hmem]
      by_cases hk : finKeep s.trackOpBit s d' = true
      · rw [if_pos hk]
        exact h.effNodup d'
      · rw [if_neg hk]
        exact setDelete_nodup (h.effNodup d') a
    · rw [if_neg hmem]
      exact h.effNodup d'
  · intro x
    rw [hEeff x]
    by_cases hxa : x = a
    · subst hxa
      rw [hFeffA]
      exact hnd.filter _
    · rw [hFeff_ne x hxa]
      exact h.depsNodup x
  · intro d' x hx
    rw [hEel]
    rw [hEeffects d'] at hx
    by_cases hmem : d' ∈ ds
    · rw [if_pos hmem] at hx
      by_cases hk : finKeep s.trackOpBit s d' = true
      · rw [if_pos hk] at hx
        exact h.effValid d' x hx
      · rw [if_neg hk] at hx
        exact h.effValid d' x (mem_setDelete.mp hx).1
    · rw [if_neg hmem] at hx
      exact h.effValid d' x hx
  · intro x d' hdm
    rw [hEdl]
    rw [hEeff x] at hdm
    by_cases hxa : x = a
    · subst hxa
      rw [hFeffA] at hdm
      exact h.depValid x d' (List.mem_filter.mp hdm).1
    · rw [hFeff_ne x hxa] at hdm
      exact h.depValid x d' hdm
  · intro t dm k d' h1 h2
    rw [hEtm] at h1
    rw [hEdl]
    exact h.tmValid t dm k d' h1 h2
  · intro d' x
    rw [hEeffects d', hEeff x]
    by_cases hxa : x = a
    · subst hxa
      rw [hFeffA]
      show _ ↔ d' ∈ ds.filter (fun d => finKeep s.trackOpBit s d)
      rw [List.mem_filter]
      by_cases hmem : d' ∈ ds
      · rw [if_pos hmem]
        by_cases hk : finKeep s.trackOpBit s d' = true
        · rw [if_pos hk]
          constructor
          · intro _
            exact ⟨hmem, hk⟩
          · intro _
            exact (h.sym d' x).mpr hmem
        · rw [if_neg hk]
          constructor
          · intro hmem2
            exact absurd rfl (mem_setDelete.mp hmem2).2
          · intro hfk
            exact absurd hfk.2 hk
      · rw [if_neg hmem]
        constructor
        · intro hmem2
          exact absurd ((h.sym d' x).mp hmem2) hmem
        · intro hfk
          exact absurd hfk.1 hmem
    · rw [hFeff_ne x hxa]
      by_cases hmem : d' ∈ ds
      · rw [if_pos hmem]
        by_cases hk : finKeep s.trackOpBit s d' = true
        · rw [if_pos hk]
          exact h.sym d' x
        · rw [if_neg hk]
          have hiff : x ∈ setDelete (getDep s d').effects a ↔
              x ∈ (getDep s d').effects := by
            simp [mem_setDelete, hxa]
          rw [hiff]
          exact h.sym d' x
      · rw [if_neg hmem]
        exact h.sym d' x


theorem cleanup_fold_wn (e : Nat) :
    ∀ (ds : List Nat) (s : World) (d' : Nat),
    (getDep (ds.foldl (fun s d => setDep s d
      { getDep s d with effects := setDelete (getDep s d).effects e }) s)
      d').w = (getDep s d').w ∧
    (getDep (ds.foldl (fun s d => setDep s d
      { getDep s d with effects := setDelete (getDep s d).effects e }) s)
      d').n = (getDep s d').n
  | [], _, _ => ⟨rfl, rfl⟩
  | hd :: tl, s, d' => by
    simp only [List.foldl_cons]
    obtain ⟨ih1, ih2⟩ := cleanup_fold_wn e tl
      (setDep s hd { getDep s hd with
        effects := setDelete (getDep s hd).effects e }) d'
    refine ⟨ih1.trans ?_, ih2.trans ?_⟩
    · by_cases hdd : d' = hd
      · subst hdd
        by_cases hlen : d' < s.depArr.length
        · rw [getDep_setDep_self _ _ _ hlen]
        · rw [getDep_setDep_oob _ _ _ (not_lt.mp hlen)]
      · rw [getDep_setDep_ne _ _ hdd]
    · by_cases hdd : d' = hd
      · subst hdd
        by_cases hlen : d' < s.depArr.length
        · rw [getDep_setDep_self _ _ _ hlen]
        · rw [getDep_setDep_oob _ _ _ (not_lt.mp hlen)]
      · rw [getDep_setDep_ne _ _ hdd]

theorem cleanup_fold_nodup (e : Nat) :
    ∀ (ds : List Nat) (s : World),
    (∀ d', (getDep s d').effects.Nodup) →
    ∀ d', (getDep (ds.foldl (fun s d => setDep s d
      { getDep s d with effects := setDelete (getDep s d).effects e }) s)
      d').effects.Nodup
  | [], _, h, d' => h d'
  | hd :: tl, s, h, d' => by
    simp only [List.foldl_cons]
    refine cleanup_fold_nodup e tl _ ?_ d'
    intro d2
    by_cases hdd : d2 = hd
    · subst hdd
      by_cases hlen : d2 < s.depArr.length
      · rw [getDep_setDep_self _ _ _ hlen]
        exact setDelete_nodup (h d2) e
      · rw [getDep_setDep_oob _ _ _ (not_lt.mp hlen)]
        exact h d2
    · rw [getDep_setDep_ne _ _ hdd]
      exact h d2

theorem cleanup_fold_depLen (e : Nat) :
    ∀ (ds : List Nat) (s : World),
    (ds.foldl (fun s d => setDep s d
      { getDep s d with effects := setDelete (getDep s d).effects e })
      s).depArr.length = s.depArr.length
  | [], _ => rfl
  | hd :: tl, s => by
    simp only [List.foldl_cons]
    rw [cleanup_fold_depLen e tl _, setDep_depLen]

theorem cleanup_fold_tm (e : Nat) :
    ∀ (ds : List Nat) (s : World),
    (ds.foldl (fun s d => setDep s d
      { getDep s d with effects := setDelete (getDep s d).effects e })
      s).targetMap = s.targetMap
  | [], _ => rfl
  | hd :: tl, s => by
    simp only [List.foldl_cons]
    rw [cleanup_fold_tm e tl _]
    rfl

theorem getDep_stopE_active (s : World) (e : Nat)
    (hact : (getEffect s e).active = true) (d' : Nat) :
    getDep (stopE s e) d' =
      getDep ((getEffect s e).deps.foldl (fun s d => setDep s d
        { getDep s d with effects := setDelete (getDep s d).effects e }) s)
        d' := by
  rw [stopE_shape s e hact, getDep_setEffect]
  by_cases hOn : (getEffect (cleanupEffect s e) e).hasOnStop = true
  · rw [if_pos hOn]
    rfl
  · rw [if_neg hOn]
    rfl

theorem getEffect_stopE_ne (s : World) (e : Nat) {x : Nat} (hx : x ≠ e) :
    getEffect (stopE s e) x = getEffect s x := by
  by_cases hact : (getEffect s e).active = true
  · rw [stopE_shape s e hact, getEffect_setEffect_ne _ _ hx]
    by_cases hOn : (getEffect (cleanupEffect s e) e).hasOnStop = true
    · rw [if_pos hOn]
      exact (cleanupEffect_preserves s e).1 x hx
    · rw [if_neg hOn]
      exact (cleanupEffect_preserves s e).1 x hx
  · rw [stopE_inactive s e (by simpa using hact)]

theorem stopE_globals (s : World) (e : Nat) :
    (stopE s e).effectStack = s.effectStack ∧
    (stopE s e).effectTrackDepth = s.effectTrackDepth ∧
    (stopE s e).trackOpBit = s.trackOpBit ∧
    (stopE s e).trackStack = s.trackStack ∧
    (stopE s e).shouldTrack = s.shouldTrack := by
  unfold stopE
  simp only []
  split
  · obtain ⟨c1, c2, c3, c4, c5, c6, c7, c8, c9, c10⟩ := cleanupEffect_ctx s e
    split
    · exact ⟨c1, c5, c6, c4, c3⟩
    · exact ⟨c1, c5, c6, c4, c3⟩
  · exact ⟨rfl, rfl, rfl, rfl, rfl⟩

theorem stopE_depLen (s : World) (e : Nat) :
    (stopE s e).depArr.length = s.depArr.length := by
  by_cases hact : (getEffect s e).active = true
  · rw [stopE_shape s e hact]
    rw [show (setEffect (if (getEffect (cleanupEffect s e) e).hasOnStop = true
      then { cleanupEffect s e with
              stopLog := (cleanupEffect s e).stopLog ++ [e] }
      else cleanupEffect s e) e
      { getEffect (cleanupEffect s e) e with active := false }).depArr =
      (if (getEffect (cleanupEffect s e) e).hasOnStop = true
        then { cleanupEffect s e with
                stopLog := (cleanupEffect s e).stopLog ++ [e] }
        else cleanupEffect s e : World).depArr from rfl]
    by_cases hOn : (getEffect (cleanupEffect s e) e).hasOnStop = true
    · rw [if_pos hOn]
      show (cleanupEffect s e).depArr.length = _
      show ((getEffect s e).deps.foldl (fun s d => setDep s d
        { getDep s d with effects := setDelete (getDep s d).effects e })
        s).depArr.length = _
      exact cleanup_fold_depLen e _ s
    · rw [if_neg hOn]
      show ((getEffect s e).deps.foldl (fun s d => setDep s d
        { getDep s d with effects := setDelete (getDep s d).effects e })
        s).depArr.length = _
      exact cleanup_fold_depLen e _ s
  · rw [stopE_inactive s e (by simpa using hact)]

theorem stopE_effLen (s : World) (e : Nat) :
    (stopE s e).effArr.length = s.effArr.length := by
  by_cases hact : (getEffect s e).active = true
  · rw [stopE_shape s e hact, setEffect_effLen]
    by_cases hOn : (getEffect (cleanupEffect s e) e).hasOnStop = true
    · rw [if_pos hOn]
      exact cleanup_effArr_length s e
    · rw [if_neg hOn]
      exact cleanup_effArr_length s e
  · rw [stopE_inactive s e (by simpa using hact)]

theorem stopE_targetMap (s : World) (e : Nat) :
    (stopE s e).targetMap = s.targetMap := by
  by_cases hact : (getEffect s e).active = true
  · rw [stopE_shape s e hact]
    rw [show (setEffect (if (getEffect (cleanupEffect s e) e).hasOnStop = true
      then { cleanupEffect s e with
              stopLog := (cleanupEffect s e).stopLog ++ [e] }
      else cleanupEffect s e) e
      { getEffect (cleanupEffect s e) e with active := false }).targetMap =
      (if (getEffect (cleanupEffect s e) e).hasOnStop = true
        then { cleanupEffect s e with
                stopLog := (cleanupEffect s e).stopLog ++ [e] }
        else cleanupEffect s e : World).targetMap from rfl]
    by_cases hOn : (getEffect (cleanupEffect s e) e).hasOnStop = true
    · rw [if_pos hOn]
      show ((getEffect s e).deps.foldl (fun s d => setDep s d
        { getDep s d with effects := setDelete (getDep s d).effects e })
        s).targetMap = _
      exact cleanup_fold_tm e _ s
    · rw [if_neg hOn]
      show ((getEffect s e).deps.foldl (fun s d => setDep s d
        { getDep s d with effects := setDelete (getDep s d).effects e })
        s).targetMap = _
      exact cleanup_fold_tm e _ s
  · rw [stopE_inactive s e (by simpa using hact)]

theorem stopE_inv (s : World) (e : Nat) (h : Inv s) : Inv (stopE s e) := by
  by_cases hact : (getEffect s e).active = true
  · have hnotin := stopE_notin s e hact (fun d hd => (h.sym d e).mp hd)
    have hge := stopE_getEffect_self s e hact
    obtain ⟨g1, g2, g3, g4, g5⟩ := stopE_globals s e
    refine ⟨(stopE_activeEffect s e).trans h.qActive, g1.trans h.qStack,
      g2.trans h.qDepth, g3.trans h.qBit, g4.trans h.qTrack,
      g5.trans h.qShould, ?_, ?_, ?_, ?_, ?_, ?_, ?_, ?_⟩
    · intro d'
      rw [getDep_stopE_active s e hact d']
      rw [(cleanup_fold_wn e (getEffect s e).deps s d').1]
      exact h.wZero d'
    · intro d'
      rw [getDep_stopE_active s e hact d']
      rw [(cleanup_fold_wn e (getEffect s e).deps s d').2]
      exact h.nZero d'
    · intro d'
      rw [getDep_stopE_active s e hact d']
      exact cleanup_fold_nodup e (getEffect s e).deps s h.effNodup d'
    · intro x
      by_cases hx : x = e
      · subst hx
        rw [hge]
        exact List.nodup_nil
      · rw [getEffect_stopE_ne s e hx]
        exact h.depsNodup x
    · intro d' x hx
      rw [stopE_effLen]
      by_cases hxe : x = e
      · subst hxe
        exact absurd hx (hnotin d')
      · rw [getDep_stopE_active s e hact d'] at hx
        have hx2 : x ∈ (getDep (cleanupEffect s e) d').effects := hx
        exact h.effValid d' x
          (((cleanupEffect_preserves s e).2 x d' hxe).mp hx2)
    · intro x d' hdm
      rw [stopE_depLen]
      by_cases hx : x = e
      · subst hx
        rw [hge] at hdm
        exact absurd hdm (List.not_mem_nil d')
      · rw [getEffect_stopE_ne s e hx] at hdm
        exact h.depValid x d' hdm
    · intro t dm k d' h1 h2
      rw [stopE_targetMap] at h1
      rw [stopE_depLen]
      exact h.tmValid t dm k d' h1 h2
    · intro d' x
      by_cases hx : x = e
      · subst hx
        constructor
        · intro hmem
          exact absurd hmem (hnotin d')
        · intro hdm
          rw [hge] at hdm
          exact absurd hdm (List.not_mem_nil d')
      · rw [getEffect_stopE_ne s e hx]
        rw [show (getDep (stopE s e) d').effects =
          (getDep (cleanupEffect s e) d').effects from
          by rw [getDep_stopE_active s e hact d']; rfl]
        exact ((cleanupEffect_preserves s e).2 x d' hx).trans (h.sym d' x)
  · rw [stopE_inactive s e (by simpa using hact)]
    exact h


theorem inv_logs (s : World) (h : Inv s) (rl fl sl tl : List Nat) :
    Inv { s with runLog := rl, fnLog := fl, schedLog := sl,
                 stopLog := tl } :=
  ⟨h.qActive, h.qStack, h.qDepth, h.qBit, h.qTrack, h.qShould, h.wZero,
    h.nZero, h.effNodup, h.depsNodup, h.effValid, h.depValid, h.tmValid,
    h.sym⟩

theorem runE_inv (s : World) (e : Nat) (h : Inv s) : Inv (runE s e).1 := by
  by_cases hact : (getEffect s e).active = true
  · have hst : e ∉ s.effectStack := by
      rw [h.qStack]
      exact List.not_mem_nil e
    rw [runE_active_eq s e hact hst]
    show Inv (runEpilogue (execBody (runProlog
      { s with runLog := s.runLog ++ [e] } e) (getEffect s e).fn).1 e)
    apply runEpilogue_inv
    show RInv ((getEffect s e).fn.reads.foldl (fun s r => track s r.1 r.2)
      (runProlog { s with runLog := s.runLog ++ [e] } e)) e
    refine foldl_track_rinv _ _ e ?_
    exact runProlog_rinv { s with runLog := s.runLog ++ [e] } e
      (inv_logs s h (s.runLog ++ [e]) s.fnLog s.schedLog s.stopLog) hact
  · have hact' : (getEffect s e).active = false := by
      simpa using hact
    have heq : (runE s e).1 = (execBody { s with runLog := s.runLog ++ [e], fnLog := s.fnLog ++ [e] } (getEffect s e).fn).1 :=
      congrArg Prod.fst (runE_inactive s e hact')
    rw [heq]
    have hTrk : isTracking ({ s with runLog := s.runLog ++ [e], fnLog := s.fnLog ++ [e] } : World) = false := by
      simp [isTracking, h.qActive]
    show Inv ((getEffect s e).fn.reads.foldl (fun s r => track s r.1 r.2) { s with runLog := s.runLog ++ [e], fnLog := s.fnLog ++ [e] })
    rw [foldl_track_notracking _ _ hTrk]
    exact inv_logs s h (s.runLog ++ [e]) (s.fnLog ++ [e]) s.schedLog
      s.stopLog

theorem inv_append_effect (s : World) (o : EffectObj) (ho : o.deps = [])
    (h : Inv s) : Inv { s with effArr := s.effArr ++ [o] } := by
  have hge : ∀ x, x < s.effArr.length →
      getEffect { s with effArr := s.effArr ++ [o] } x = getEffect s x :=
    fun x hx => getEffect_append s o hx
  have hgeS : getEffect { s with effArr := s.effArr ++ [o] }
      s.effArr.length = o := getEffect_append_self s o
  have hgeO : ∀ x, s.effArr.length < x →
      getEffect { s with effArr := s.effArr ++ [o] } x =
        ({} : EffectObj) := by
    intro x hx
    refine getEffect_oob _ ?_
    show (s.effArr ++ [o]).length ≤ x
    simpa using hx
  have hdeps : ∀ x, (getEffect { s with effArr := s.effArr ++ [o] } x).deps
      = if x < s.effArr.length then (getEffect s x).deps else [] := by
    intro x
    by_cases hx : x < s.effArr.length
    · rw [if_pos hx, hge x hx]
    · rw [if_neg hx]
      by_cases hx2 : x = s.effArr.length
      · subst hx2
        rw [hgeS, ho]
      · rw [hgeO x (lt_of_le_of_ne (not_lt.mp hx)
          (fun hh => hx2 hh.symm))]
  refine ⟨h.qActive, h.qStack, h.qDepth, h.qBit, h.qTrack, h.qShould,
    h.wZero, h.nZero, h.effNodup, ?_, ?_, ?_, h.tmValid, ?_⟩
  · intro x
    rw [hdeps x]
    by_cases hx : x < s.effArr.length
    · rw [if_pos hx]
      exact h.depsNodup x
    · rw [if_neg hx]
      exact List.nodup_nil
  · intro d' x hx
    show x < (s.effArr ++ [o]).length
    have := h.effValid d' x hx
    simp only [List.length_append, List.length_singleton]
    omega
  · intro x d' hdm
    rw [hdeps x] at hdm
    by_cases hx : x < s.effArr.length
    · rw [if_pos hx] at hdm
      exact h.depValid x d' hdm
    · rw [if_neg hx] at hdm
      exact absurd hdm (List.not_mem_nil d')
  · intro d' x
    rw [hdeps x]
    by_cases hx : x < s.effArr.length
    · rw [if_pos hx]
      exact h.sym d' x
    · rw [if_neg hx]
      constructor
      · intro hmem
        exact absurd (h.effValid d' x hmem) hx
      · intro hdm
        exact absurd hdm (List.not_mem_nil d')

theorem mkEffect_inv (s : World) (arg : FnArg) (opts : EffOptions)
    (h : Inv s) : Inv (mkEffect s arg opts).1 := by
  unfold mkEffect
  simp only []
  split
  · exact runE_inv _ _ (inv_append_effect s _ rfl h)
  · exact inv_append_effect s _ rfl h

theorem trigStep_inv (s : World) (x : Nat) (h : Inv s) :
    Inv (trigStep s x).1 := by
  unfold trigStep
  split
  · split
    · exact inv_logs s h s.runLog s.fnLog (s.schedLog ++ [x]) s.stopLog
    · exact runE_inv s x h
  · exact h

theorem triggerEffects_inv (L : List Nat) (s : World) (h : Inv s) :
    Inv (triggerEffects s L).1 := by
  induction L generalizing s with
  | nil => exact h
  | cons hd tl ih =>
    unfold triggerEffects
    split
    · next s' a heq =>
      have hs' : s' = (trigStep s hd).1 := by rw [heq]
      subst hs'
      exact ih _ (trigStep_inv s hd h)
    · next s' err heq =>
      have hs' : s' = (trigStep s hd).1 := by rw [heq]
      subst hs'
      exact trigStep_inv s hd h

theorem trigger_inv (s : World) (t : Target) (ty : TrigType)
    (k : Option Key) (nv : Int) (h : Inv s) :
    Inv (trigger s t ty k nv).1 := by
  unfold trigger
  split
  · exact h
  · split
    · exact h
    · split
      · split
        · exact triggerEffects_inv _ s h
        · exact h
      · exact triggerEffects_inv _ s h

theorem applyOp_inv (s : World) (op : Op) (h : Inv s) :
    Inv (applyOp s op) := by
  cases op with
  | opEffect arg opts => exact mkEffect_inv s arg opts h
  | opRun e => exact runE_inv s e h
  | opTrigger t ty k nv => exact trigger_inv s t ty k nv h
  | opStop e => exact stopE_inv s e h
  | opTrack t k =>
    show Inv (track s t k)
    rw [track_not_tracking s t k (by
      unfold isTracking
      rw [h.qActive]
      simp)]
    exact h

theorem inv_initial : Inv initialWorld := by
  have hd : ∀ d : Nat, getDep initialWorld d = ({} : Dep) :=
    fun d => getDep_oob initialWorld (Nat.zero_le d)
  have he : ∀ x : Nat, getEffect initialWorld x = ({} : EffectObj) :=
    fun x => getEffect_oob initialWorld (Nat.zero_le x)
  refine ⟨rfl, rfl, rfl, rfl, rfl, rfl, ?_, ?_, ?_, ?_, ?_, ?_, ?_, ?_⟩
  · intro d
    rw [hd d]
  · intro d
    rw [hd d]
  · intro d
    rw [hd d]
    exact List.nodup_nil
  · intro x
    rw [he x]
    exact List.nodup_nil
  · intro d x hx
    rw [hd d] at hx
    exact absurd hx (List.not_mem_nil x)
  · intro x d hdm
    rw [he x] at hdm
    exact absurd hdm (List.not_mem_nil d)
  · intro t dm k d h1 h2
    exact Option.noConfusion h1
  · intro d x
    rw [hd d, he x]
    simp

theorem inv_runOps (ops : List Op) : Inv (runOps ops) := by
  unfold runOps
  have main : ∀ (l : List Op) (s : World), Inv s → Inv (l.foldl applyOp s) := by
    intro l
    induction l with
    | nil => exact fun s h => h
    | cons hd tl ih =>
      intro s h
      simp only [List.foldl_cons]
      exact ih _ (applyOp_inv s hd h)
  exact main ops initialWorld inv_initial

/-- **C2.** The symmetric-bookkeeping invariant: after any sequence of
top-level operations (effect creation, runner calls, triggering writes,
stops, and bare track calls) from module load, a dep set contains effect
`e` exactly when `e`'s own deps list contains that dep set. -/
theorem C2_symmetric_bookkeeping (ops : List Op) (d e : Nat) :
    e ∈ (getDep (runOps ops) d).effects ↔
      d ∈ (getEffect (runOps ops) e).deps :=
  (inv_runOps ops).sym d e

end Reactivity
